import Mathlib

/-! Faunus: Space, Change and sync; bond and pair-potential records.

A shallow embedding of `src/src/space.h` and `src/src/potentials.h`.

Iterators into a `std::vector` are modelled as integer addresses counted in
particle slots: a `Space` records the address `origin` of `p.begin()`, and a
group stores the addresses of its `begin()` and `end()`.  Whenever the C++ code
may reallocate the particle vector, the address of the storage after the call is
an extra argument (`newbegin`) of the embedded function, so every theorem holds
for whatever the allocator does.  Failed assertions, `std::out_of_range` from
`vector::at` and accesses outside the particle storage are reported as a `Fault`.
-/

namespace Faunus

/-! ## Data model -/

/-- Ways in which an operation on a Space can fail to return normally. -/
inductive Fault where
  | outOfRange
  | assertion
  | badAccess
deriving DecidableEq, Repr

/-- The struct `Change::data`: properties of one changed group. -/
structure ChangeData where
  index : Int
  all : Bool
  atoms : List Int
  activated : List (Int × Int)
  deactivated : List (Int × Int)
deriving DecidableEq, Repr

/-- The struct `Change`: volume change and the list of touched groups. -/
structure Change where
  dV : ℚ
  groups : List ChangeData
deriving DecidableEq, Repr

/-- Modelled from the spec: the type `Group<Tparticle>` of `group.h`, which is not among
the sources.  A group is a half-open range `[first, last)` of particle slots (the iterators
`begin()` and `end()`, as addresses), tagged with a molecule-type identifier and carrying an
active/inactive flag per particle slot. -/
structure Group where
  id : Int
  first : Int
  last : Int
  active : List Bool
deriving DecidableEq, Repr

namespace Group

/-- Modelled from the spec: the constructor `Tgroup(begin, end)`; a fresh group spans the
given range with every slot active.  Its type id is assigned by the caller. -/
def ofRange (b e : Int) : Group :=
  { id := -1, first := b, last := e, active := List.replicate (e - b).toNat true }

/-- Modelled from the spec: `Group::size()`, the length of the range `[begin, end)`. -/
def size (g : Group) : Int := g.last - g.first

/-- Modelled from the spec: `Group::capacity()`, the number of particle slots of the group,
active or not. -/
def capacity (g : Group) : Int := g.last - g.first

/-- Number of slots of the group flagged active. -/
def activeSize (g : Group) : Nat := g.active.count true

/-- Modelled from the spec: `Group::relocate(oldorigin, neworigin)`, the offset-based
re-anchoring of a group to a new storage location. -/
def relocate (g : Group) (oldorigin neworigin : Int) : Group :=
  { g with first := neworigin + (g.first - oldorigin),
           last := neworigin + (g.last - oldorigin) }

end Group

/-- The struct `Space`: the particle vector `p`, the address `origin` of `p.begin()`, and
the group vector.  Geometry and triggers play no part in the operations embedded here. -/
structure Space (α : Type) where
  origin : Int
  p : List α
  groups : List Group
deriving DecidableEq, Repr

namespace Space

variable {α : Type}

/-- The function `Space::clear`: `p.clear()` keeps the storage, `groups.clear()` drops all
groups. -/
def clear (S : Space α) : Space α :=
  { origin := S.origin, p := [], groups := [] }

/-- The function `Space::push_back(molid, in)`.  `newbegin` is `p.begin()` after the
insertion.  The closing assertion `in.size() == groups.back().size()` cannot fail (the new
group spans exactly the inserted particles, see `push_back_appends`), so the function is
total. -/
def push_back (S : Space α) (molid : Int) (inp : List α) (newbegin : Int) : Space α :=
  if inp.isEmpty then S
  else
    let oldbegin := S.origin
    let p' := S.p ++ inp
    let groups' :=
      if newbegin ≠ oldbegin then S.groups.map (fun g => g.relocate oldbegin newbegin)
      else S.groups
    let pend : Int := newbegin + (p'.length : Int)
    let g : Group := { Group.ofRange (pend - (inp.length : Int)) pend with id := molid }
    { origin := newbegin, p := p', groups := groups' ++ [g] }

/-- The function `std::vector::at` with an `int` argument: negative or too large indices
throw `std::out_of_range`. -/
def groupAt (gs : List Group) (i : Int) : Except Fault Group :=
  if i < 0 then .error .outOfRange
  else match gs[i.toNat]? with
    | some g => .ok g
    | none => .error .outOfRange

/-- Dereference the iterator with address `a` for reading. -/
def read (S : Space α) (a : Int) : Except Fault α :=
  if a < S.origin then .error .badAccess
  else match S.p[(a - S.origin).toNat]? with
    | some v => .ok v
    | none => .error .badAccess

/-- Assign through the iterator with address `a`. -/
def write (S : Space α) (a : Int) (v : α) : Except Fault (Space α) :=
  if a < S.origin then .error .badAccess
  else if (a - S.origin).toNat < S.p.length then
    .ok { S with p := S.p.set (a - S.origin).toNat v }
  else .error .badAccess

/-- The loop of `std::copy`: `n` assignments `*dst++ = *src++`, reading in `T`. -/
def copyLoop (T : Space α) : Nat → Int → Int → Space α → Except Fault (Space α)
  | 0, _, _, S => .ok S
  | n + 1, src, dst, S =>
    match T.read src with
    | .error e => .error e
    | .ok v =>
      match S.write dst v with
      | .error e => .error e
      | .ok S' => copyLoop T n (src + 1) (dst + 1) S'

/-- The function `std::copy(first, last, dst)` reading in `T`; a reversed range is not a valid
range. -/
def copyRange (T : Space α) (first last dst : Int) (S : Space α) : Except Fault (Space α) :=
  if last < first then .error .badAccess
  else copyLoop T (last - first).toNat first dst S

/-- The loop `for (auto i : m.atoms) *(go.begin()+i) = *(gn.begin()+i)`. -/
def copyAtoms (T : Space α) (gn go : Group) : List Int → Space α → Except Fault (Space α)
  | [], S => .ok S
  | i :: rest, S =>
    match T.read (gn.first + i) with
    | .error e => .error e
    | .ok v =>
      match S.write (go.first + i) v with
      | .error e => .error e
      | .ok S' => copyAtoms T gn go rest S'

/-- One iteration of the loop over `change.groups` in `Space::sync`. -/
def syncGroup (T : Space α) (S : Space α) (m : ChangeData) : Except Fault (Space α) :=
  match groupAt S.groups m.index with
  | .error e => .error e
  | .ok go =>
    match groupAt T.groups m.index with
    | .error e => .error e
    | .ok gn =>
      if gn.capacity ≠ go.capacity then .error .assertion
      else if m.all then copyRange T gn.first gn.last go.first S
      else copyAtoms T gn go m.atoms S

/-- The loop `for (auto &m : change.groups)` of `Space::sync`. -/
def syncLoop (T : Space α) : List ChangeData → Space α → Except Fault (Space α)
  | [], S => .ok S
  | m :: rest, S =>
    match syncGroup T S m with
    | .error e => .error e
    | .ok S' => syncLoop T rest S'

/-- The function `Space::sync(o, change)` with `S = *this` and `T = o`.  `newbegin` is
`p.begin()` after the copy assignment `p = o.p` of the deep-copy branch; the other branch
allocates nothing. -/
def sync (S T : Space α) (change : Change) (newbegin : Int) : Except Fault (Space α) :=
  if S.p.length ≠ T.p.length ∨ S.groups.length ≠ T.groups.length then
    .ok { origin := newbegin, p := T.p,
          groups := T.groups.map (fun g => g.relocate T.origin newbegin) }
  else if S.origin = T.origin then .error .assertion
  else syncLoop T change.groups S

/-- Offset of an address from the start of the particle storage of `S`. -/
def offset (S : Space α) (a : Int) : Int := a - S.origin

/-- The particle values a group spans in the storage of `S`. -/
def slice (S : Space α) (g : Group) : List α :=
  (S.p.drop (g.first - S.origin).toNat).take (g.last - g.first).toNat

/-- The groups `gs`, in order, have non-empty consecutive ranges that start at offset `a`
and stop at offset `b` from the address `origin`. -/
def Tiles (origin : Int) : Int → List Group → Int → Prop
  | a, [], b => a = b
  | a, g :: gs, b => g.first = origin + a ∧ g.first < g.last ∧ Tiles origin (g.last - origin) gs b

/-- The groups of `S` tile the particle storage `[0, p.size())`. -/
def Tiled (S : Space α) : Prop := Tiles S.origin 0 S.groups (S.p.length : Int)

/-- Spaces obtained from an empty Space by `clear`, `push_back` and `sync` from Spaces
obtained the same way, whatever addresses the allocator hands out. -/
inductive Reachable : Space α → Prop
  | empty (o : Int) : Reachable { origin := o, p := [], groups := [] }
  | clear {S : Space α} : Reachable S → Reachable S.clear
  | push_back {S : Space α} (molid : Int) (inp : List α) (nb : Int) :
      Reachable S → Reachable (S.push_back molid inp nb)
  | sync {S T S' : Space α} (c : Change) (nb : Int) :
      Reachable S → Reachable T → S.sync T c nb = .ok S' → Reachable S'

/-- Whether the range of a group lies within the particle storage of `S`. -/
def Within (S : Space α) (g : Group) : Prop :=
  S.origin ≤ g.first ∧ g.first ≤ g.last ∧ g.last ≤ S.origin + (S.p.length : Int)

/-- The parts of a Space that the differential branch of `sync` never changes. -/
def SameShape (S S' : Space α) : Prop :=
  S'.origin = S.origin ∧ S'.groups = S.groups ∧ S'.p.length = S.p.length

/-- The address `x` is named by the entry `m` for the group `go`: any address of the group
when `all` is set, otherwise the addresses at the listed offsets from the group's begin. -/
def touched (go : Group) (m : ChangeData) (x : Int) : Prop :=
  (m.all = true ∧ go.first ≤ x ∧ x < go.last) ∨ (m.all = false ∧ (x - go.first) ∈ m.atoms)

/-- An entry of a Change that the differential branch of `sync` can process: its group index
is in range in both Spaces, the two groups have equal capacity and lie within their storage,
and the listed atom offsets lie within the group. -/
def EntryOK (S T : Space α) (m : ChangeData) : Prop :=
  ∃ go gn, groupAt S.groups m.index = .ok go ∧ groupAt T.groups m.index = .ok gn ∧
    gn.capacity = go.capacity ∧ S.Within go ∧ T.Within gn ∧
    (m.all = false → ∀ i ∈ m.atoms, 0 ≤ i ∧ i < go.size)

/-- The entry `m` with its activated and deactivated ranges emptied. -/
def eraseRanges (m : ChangeData) : ChangeData :=
  { m with activated := [], deactivated := [] }

/-- The Change `c` with the activated and deactivated ranges of every entry emptied. -/
def eraseAllRanges (c : Change) : Change :=
  { c with groups := c.groups.map eraseRanges }

/-! ### Concrete Spaces and Changes -/

/-- An empty Space. -/
def exEmpty : Space Nat := { origin := 0, p := [], groups := [] }

/-- An accepted Space: three particles at address 100, groups of two and one particles. -/
def exS : Space Nat :=
  { origin := 100, p := [1, 2, 3],
    groups := [⟨0, 100, 102, [true, true]⟩, ⟨1, 102, 103, [true]⟩] }

/-- A trial Space with the layout of `exS`, stored at address 200. -/
def exT : Space Nat :=
  { origin := 200, p := [7, 8, 9],
    groups := [⟨0, 200, 202, [true, true]⟩, ⟨1, 202, 203, [true]⟩] }

/-- The Change marking group 0 as fully touched. -/
def exChange : Change := { dV := 0, groups := [⟨0, true, [], [], []⟩] }

/-- A Space built by two calls of `push_back`: groups of two and three particles. -/
def exS23 : Space Nat := (exEmpty.push_back 0 [1, 2] 100).push_back 1 [3, 4, 5] 100

/-- A Space built by two calls of `push_back`: groups of three and two particles. -/
def exT32 : Space Nat := (exEmpty.push_back 0 [6, 7, 8] 200).push_back 1 [9, 10] 200

/-- A Space with one group of three slots, the last of them inactive. -/
def exSflag : Space Nat :=
  { origin := 100, p := [1, 2, 3], groups := [⟨0, 100, 103, [true, true, false]⟩] }

/-- A Space with one group of three slots, only the last of them active. -/
def exTflag : Space Nat :=
  { origin := 200, p := [7, 8, 9], groups := [⟨0, 200, 203, [false, false, true]⟩] }

/-- A Change for group 0 that deactivates slots 0 and 1 and activates slot 2. -/
def exChangeFlag : Change :=
  { dV := 0, groups := [⟨0, false, [], [(2, 3)], [(0, 2)]⟩] }

/-- A Change naming the group index 5. -/
def exChangeBad : Change := { dV := 0, groups := [⟨5, true, [], [], []⟩] }

end Space

/-! ## Configuration records

`double` is modelled by an ordered field `R` with exact arithmetic.  A number of a record is
modelled by its value, since the comparison of records compares numbers by value whether they
are stored as integers or as floating-point numbers.  An object is a list of members sorted
by key without duplicates, as in the `std::map` that stores it. -/

/-- A configuration record (`nlohmann::json`). -/
inductive Json (R : Type) where
  | null
  | bool (b : Bool)
  | num (x : R)
  | str (s : String)
  | arr (l : List (Json R))
  | obj (kvs : List (String × Json R))

/-- Ways in which parsing or serialising a record can fail to return normally: the
exceptions `type_error` and `out_of_range` of the record library, `std::runtime_error`, a
failed assertion, and an access past the end of a vector. -/
inductive JError where
  | typeError
  | outOfRange
  | runtime (msg : String)
  | assertion
  | badAccess
deriving DecidableEq, Repr

/-- Lexicographic comparison of character sequences, as `std::string::compare`. -/
def charsLt : List Char → List Char → Bool
  | [], [] => false
  | [], _ :: _ => true
  | _ :: _, [] => false
  | a :: as, b :: bs =>
    if a.toNat < b.toNat then true else if b.toNat < a.toNat then false else charsLt as bs

/-- The order of the keys of an object. -/
def keyLt (a b : String) : Bool := charsLt a.data b.data

/-- Insert or replace the member `k` in a key-sorted member list. -/
def objSet {R : Type} : List (String × Json R) → String → Json R → List (String × Json R)
  | [], k, v => [(k, v)]
  | (k', v') :: rest, k, v =>
    if keyLt k k' then (k, v) :: (k', v') :: rest
    else if k = k' then (k, v) :: rest
    else (k', v') :: objSet rest k v

/-- The object built from an initializer list of key/value pairs. -/
def objOf {R : Type} (kvs : List (String × Json R)) : Json R :=
  .obj (kvs.foldl (fun acc kv => objSet acc kv.1 kv.2) [])

namespace Json

variable {R : Type}

/-- The function `j.at(key)`: the member `key` of an object. -/
def atKey (j : Json R) (key : String) : Except JError (Json R) :=
  match j with
  | .obj kvs =>
    match kvs.lookup key with
    | some v => .ok v
    | none => .error .outOfRange
  | _ => .error .typeError

/-- The function `j.count(key)`: 1 if `j` is an object with a member `key`, else 0. -/
def count (j : Json R) (key : String) : Nat :=
  match j with
  | .obj kvs => if (kvs.lookup key).isSome then 1 else 0
  | _ => 0

/-- The function `j[key]` read through a non-const reference: a null record becomes an empty
object and a missing member is a null record. -/
def getKey (j : Json R) (key : String) : Except JError (Json R) :=
  match j with
  | .null => .ok .null
  | .obj kvs => .ok ((kvs.lookup key).getD .null)
  | _ => .error .typeError

/-- The function `j[key] = v`: a null record becomes an object. -/
def setKey (j : Json R) (key : String) (v : Json R) : Except JError (Json R) :=
  match j with
  | .null => .ok (.obj [(key, v)])
  | .obj kvs => .ok (.obj (objSet kvs key v))
  | _ => .error .typeError

/-- The function `j.get<double>()`. -/
def getDouble (j : Json R) : Except JError R :=
  match j with
  | .num x => .ok x
  | _ => .error .typeError

/-- The function `j.get<std::string>()`. -/
def getString (j : Json R) : Except JError String :=
  match j with
  | .str s => .ok s
  | _ => .error .typeError

/-- The function `j.value(key, default)` for a string default. -/
def valueStr (j : Json R) (key : String) (dflt : String) : Except JError String :=
  match j with
  | .obj kvs =>
    match kvs.lookup key with
    | some v => v.getString
    | none => .ok dflt
  | _ => .error .typeError

end Json

/-- Conversion to the 32-bit type `int`: reduction modulo `2^32` into `[-2^31, 2^31)`. -/
def wrap32 (n : Int) : Int := (n + 2147483648) % 4294967296 - 2147483648

section Numbers

variable {R : Type} [LinearOrderedField R] [FloorRing R]

/-- Truncation toward zero, the conversion of a `double` to an integer. -/
def trunc (x : R) : Int := if 0 ≤ x then Int.floor x else Int.ceil x

/-- The function `j.get<int>()`: a number is truncated and narrowed to `int`, a boolean gives
0 or 1. -/
def Json.getInt (j : Json R) : Except JError Int :=
  match j with
  | .num x => .ok (wrap32 (trunc x))
  | .bool b => .ok (if b then 1 else 0)
  | _ => .error .typeError

/-- Conversion of the elements of an array to `int`, in order. -/
def getInts : List (Json R) → Except JError (List Int)
  | [] => .ok []
  | j :: js =>
    match j.getInt with
    | .error e => .error e
    | .ok i =>
      match getInts js with
      | .error e => .error e
      | .ok l => .ok (i :: l)

/-- The function `j.get<std::vector<int>>()`. -/
def Json.getIntVector (j : Json R) : Except JError (List Int) :=
  match j with
  | .arr l => getInts l
  | _ => .error .typeError

end Numbers

section Bonds

variable {R : Type} [LinearOrderedField R]

/-- The record of a `std::vector<int>`. -/
def intArray (l : List Int) : Json R := .arr (l.map (fun i => .num (i : R)))

/-- The parts of the program's environment that `potentials.h` uses without defining them:
the values of the unit literals `1.0_kJmol` and `1.0_angstrom`, `std::sqrt`, the rounding
that `_roundjson(., 5)` applies to a floating-point member, `pc::lB`, and the constant
`std::pow(2, 2/6.)`. -/
structure Env (R : Type) where
  kJmol : R
  angstrom : R
  sqrt : R → R
  round5 : R → R
  lB : R → R
  twototwosixth : R

/-! ### BondData -/

/-- The enum `BondData::Variant`. -/
inductive Variant where
  | harmonic
  | fene
  | dihedral
  | none
deriving DecidableEq, Repr

/-- The struct `BondData`: bond type, indices of the bonded particles, force-law
parameters. -/
structure BondData (R : Type) where
  type : Variant
  index : List Int
  k : List R

namespace BondData

/-- The function `to_json(json &j, const BondData &b)`. -/
def to_json (E : Env R) (j : Json R) (b : BondData R) : Except JError (Json R) :=
  match b.type with
  | .harmonic =>
    match b.k with
    | k0 :: k1 :: _ =>
      j.setKey "harmonic" (objOf [("index", intArray b.index),
        ("k", .num (k0 / E.kJmol * E.angstrom ^ 2)),
        ("req", .num (k1 / E.angstrom))])
    | _ => .error .badAccess
  | .fene =>
    match b.k with
    | k0 :: k1 :: _ =>
      j.setKey "fene" (objOf [("index", intArray b.index),
        ("k", .num (k0 / E.kJmol * E.angstrom ^ 2)),
        ("rmax", .num (E.sqrt k1 / E.angstrom))])
    | _ => .error .badAccess
  | _ => .ok j

/-- The conversion `json(b)`: `to_json` applied to a fresh (null) record. -/
def toJson (E : Env R) (b : BondData R) : Except JError (Json R) := to_json E .null b

/-- The function `from_json(const json &j, BondData &b)`; on success the new contents of
`b`. -/
def from_json [FloorRing R] (E : Env R) (j : Json R) (b : BondData R) :
    Except JError (BondData R) :=
  match j with
  | .obj [(t, val)] =>
    if t = "harmonic" then do
      let index ← (← val.atKey "index").getIntVector
      if index.length ≠ 2 then
        throw (.runtime "harmonic bond requires exactly two index")
      let k ← (← val.atKey "k").getDouble
      let req ← (← val.atKey "req").getDouble
      pure { type := .harmonic, index := index,
             k := [k * E.kJmol / E.angstrom ^ 2, req * E.angstrom] }
    else if t = "fene" then do
      let index ← (← val.atKey "index").getIntVector
      if index.length ≠ 2 then
        throw (.runtime "FENE bond requires exactly two index")
      let k ← (← val.atKey "k").getDouble
      let rmax ← (← val.atKey "rmax").getDouble
      pure { type := .fene, index := index,
             k := [k * E.kJmol / E.angstrom ^ 2, (rmax * E.angstrom) ^ 2] }
    else if t = "dihedral" then throw .assertion
    else if b.type = .none then throw (.runtime ("unknown bondtype: " ++ t))
    else pure b
  | _ => throw (.runtime "error parsing json to bond")

/-- The record `{"harmonic": {"index": [i1, i2], "k": x, "req": y}}`. -/
def harmonicRecord (i1 i2 : Int) (x y : R) : Json R :=
  .obj [("harmonic", .obj [("index", .arr [.num (i1 : R), .num (i2 : R)]),
    ("k", .num x), ("req", .num y)])]

/-- The record `{"fene": {"index": [i1, i2], "k": x, "rmax": y}}`. -/
def feneRecord (i1 i2 : Int) (x y : R) : Json R :=
  .obj [("fene", .obj [("index", .arr [.num (i1 : R), .num (i2 : R)]),
    ("k", .num x), ("rmax", .num y)])]

end BondData

end Bonds

/-- A square root on the rationals that is exact on squares of rationals. -/
def qsqrt (q : ℚ) : ℚ := (Nat.sqrt q.num.toNat : ℚ) / (Nat.sqrt q.den : ℚ)

/-- An environment over the rationals: `1.0_kJmol = 2/5`, `1.0_angstrom = 1`, no rounding. -/
def exEnv : Env ℚ :=
  { kJmol := 2 / 5, angstrom := 1, sqrt := qsqrt, round5 := id, lB := fun e => 560 / e,
    twototwosixth := 5 / 4 }

/-! ### Atom types, the pair matrix and helpers that `potentials.h` uses -/

/-- Modelled from the spec: an entry of the atom-type catalog `atoms<Tparticle>`, which is not
among the sources: name, identifier, size `sigma` and energy parameter `eps`. -/
structure AtomData (R : Type) where
  name : String
  id : Nat
  sigma : R
  eps : R

/-- Modelled from the spec: `findName(atoms, name)` dereferenced, the first atom type of the
catalog with the given name; `none` when there is none and the iterator is the end. -/
def findName {R : Type} (atoms : List (AtomData R)) (name : String) : Option (AtomData R) :=
  atoms.find? (fun a => a.name == name)

/-- Splitting of a character sequence at white space; `cur` is the reversed current word. -/
def splitWords : List Char → List Char → List (List Char)
  | [], cur => if cur.isEmpty then [] else [cur.reverse]
  | c :: cs, cur =>
    if c.isWhitespace then
      if cur.isEmpty then splitWords cs [] else cur.reverse :: splitWords cs []
    else splitWords cs (c :: cur)

/-- Modelled from the spec: `words2vec<std::string>(w)`, the white-space separated words of
`w` ("two space-separated atoms"). -/
def words2vec (w : String) : List String := (splitWords w.data []).map String.mk

/-- Modelled from the spec: `PairMatrix<double>`, the symmetric table indexed by pairs of
atom-type identifiers, with `size()` rows and columns. -/
structure PairMatrix (R : Type) where
  size : Nat
  val : Nat → Nat → R

namespace PairMatrix

variable {R : Type} [Zero R]

/-- Modelled from the spec: the default-constructed matrix, without entries. -/
def empty : PairMatrix R := { size := 0, val := fun _ _ => 0 }

/-- Modelled from the spec: `resize(n)`; entries that exist are kept, new ones are zero. -/
def resize (m : PairMatrix R) (n : Nat) : PairMatrix R :=
  { size := n, val := fun i j => if i < m.size ∧ j < m.size then m.val i j else 0 }

/-- Modelled from the spec: `set(i, j, v)` stores `v` for the pair in both orders, growing
the matrix when an identifier is not yet covered. -/
def set (m : PairMatrix R) (i j : Nat) (v : R) : PairMatrix R :=
  let m' := if max i j < m.size then m else m.resize (max i j + 1)
  { size := m'.size,
    val := fun a b => if (a = i ∧ b = j) ∨ (a = j ∧ b = i) then v else m'.val a b }

/-- Modelled from the spec: `operator()(i, j)`, defined for identifiers below `size()`. -/
def get (m : PairMatrix R) (i j : Nat) : Except JError R :=
  if i < m.size ∧ j < m.size then .ok (m.val i j) else .error .assertion

end PairMatrix

/-- The enum `SigmaEpsilonTable::Mixers`. -/
inductive Mixers where
  | LB
deriving DecidableEq, Repr

/-- The struct `SigmaEpsilonTable`: the matrices of `sigma_ij^2` and `4*eps_ij`. -/
structure SigmaEpsilonTable (R : Type) where
  mixer : Mixers
  s2 : PairMatrix R
  eps : PairMatrix R

section Potentials

variable {R : Type} [LinearOrderedField R]

/-- The default-constructed `SigmaEpsilonTable`. -/
def SigmaEpsilonTable.default : SigmaEpsilonTable R :=
  { mixer := .LB, s2 := PairMatrix.empty, eps := PairMatrix.empty }

/-- Modelled from the spec: `_roundjson(j, 5)`, which rounds the floating-point members of
an object. -/
def roundjson (E : Env R) : Json R → Json R
  | .obj kvs => .obj (kvs.map (fun kv =>
      match kv.2 with
      | .num x => (kv.1, .num (E.round5 x))
      | _ => kv))
  | j => j

/-- The Lorentz-Berthelot `mixerFunc` of `from_json` for `SigmaEpsilonTable`. -/
def mixerFunc (E : Env R) (s1 s2 e1 e2 : R) : R × R := ((s1 + s2) / 2, E.sqrt (e1 * e2))

/-- The body of the double loop over the catalog in `from_json` for `SigmaEpsilonTable`. -/
def mixPair (E : Env R) (m : SigmaEpsilonTable R) (i j : AtomData R) : SigmaEpsilonTable R :=
  let sigma := (mixerFunc E i.sigma j.sigma i.eps j.eps).1
  let epsilon := (mixerFunc E i.sigma j.sigma i.eps j.eps).2
  { m with s2 := m.s2.set i.id j.id (sigma * sigma),
           eps := m.eps.set i.id j.id (4 * epsilon) }

/-- The double loop `for i in atoms, for j in atoms` of `from_json` for `SigmaEpsilonTable`. -/
def mixAll (E : Env R) (atoms : List (AtomData R)) (m : SigmaEpsilonTable R) :
    SigmaEpsilonTable R :=
  atoms.foldl (fun acc i => atoms.foldl (fun acc' j => mixPair E acc' i j) acc) m

/-- The body of the loop over the members of `"custom"`: a key of two words overrides the
entries of the pair; for any other key an exception object is built but not thrown. -/
def customEntry (E : Env R) (atoms : List (AtomData R)) (m : SigmaEpsilonTable R)
    (kv : String × Json R) : Except JError (SigmaEpsilonTable R) :=
  match words2vec kv.1 with
  | [w1, w2] =>
    match findName atoms w1 with
    | none => .error .badAccess
    | some a1 =>
      match findName atoms w2 with
      | none => .error .badAccess
      | some a2 =>
        match kv.2.atKey "sigma" with
        | .error e => .error e
        | .ok js =>
          match js.getDouble with
          | .error e => .error e
          | .ok sg =>
            match kv.2.atKey "eps" with
            | .error e => .error e
            | .ok je =>
              match je.getDouble with
              | .error e => .error e
              | .ok ep =>
                .ok { m with s2 := m.s2.set a1.id a2.id (sg ^ 2),
                             eps := m.eps.set a1.id a2.id (4 * ep * E.kJmol) }
  | _ => .ok m

/-- The loop over the members of `"custom"`, in key order. -/
def parseCustom (E : Env R) (atoms : List (AtomData R)) :
    List (String × Json R) → SigmaEpsilonTable R → Except JError (SigmaEpsilonTable R)
  | [], m => .ok m
  | kv :: rest, m =>
    match customEntry E atoms m kv with
    | .error e => .error e
    | .ok m' => parseCustom E atoms rest m'

/-- The function `from_json(const json &j, SigmaEpsilonTable &m)`; on success the new contents
of `m`. -/
def SigmaEpsilonTable.from_json (E : Env R) (atoms : List (AtomData R)) (j : Json R)
    (m : SigmaEpsilonTable R) : Except JError (SigmaEpsilonTable R) :=
  match j.valueStr "mixing" "LB" with
  | .error e => .error e
  | .ok mixer =>
    let m1 : SigmaEpsilonTable R := if mixer = "LB" then { m with mixer := .LB } else m
    match m1.mixer with
    | .LB =>
      let n := atoms.length
      let m2 : SigmaEpsilonTable R := { m1 with s2 := m1.s2.resize n, eps := m1.eps.resize n }
      let m3 := mixAll E atoms m2
      if j.count "custom" = 1 then
        match j.atKey "custom" with
        | .error e => .error e
        | .ok (.obj kvs) => parseCustom E atoms kvs m3
        | .ok _ => .ok m3
      else .ok m3

/-- The member of `"custom"` that `to_json` writes for the pair `(i, j)`: its key and its
rounded value. -/
def tableEntry (E : Env R) (atoms : List (AtomData R)) (m : SigmaEpsilonTable R)
    (i j : Nat) : Except JError (String × Json R) :=
  match atoms[i]? with
  | none => .error .badAccess
  | some ai =>
    match atoms[j]? with
    | none => .error .badAccess
    | some aj =>
      match m.eps.get i j with
      | .error e => .error e
      | .ok e =>
        match m.s2.get i j with
        | .error e' => .error e'
        | .ok s =>
          .ok (ai.name ++ " " ++ aj.name,
            roundjson E (objOf [("eps", .num (e / (4 * E.kJmol))), ("sigma", .num (E.sqrt s))]))

/-- The inner loop `for (size_t j = 0; j < m.eps.size(); j++) if (i >= j) ...` of `to_json`,
over the remaining column indices, writing into the record `c`. -/
def customInner (entry : Nat → Nat → Except JError (String × Json R)) (i : Nat) :
    List Nat → Json R → Except JError (Json R)
  | [], c => .ok c
  | j :: js, c =>
    if i ≥ j then
      match entry i j with
      | .error e => .error e
      | .ok kv =>
        match c.setKey kv.1 kv.2 with
        | .error e => .error e
        | .ok c' => customInner entry i js c'
    else customInner entry i js c

/-- The outer loop `for (size_t i = 0; i < m.eps.size(); i++)` of `to_json`. -/
def customOuter (entry : Nat → Nat → Except JError (String × Json R)) (cols : List Nat) :
    List Nat → Json R → Except JError (Json R)
  | [], c => .ok c
  | i :: is, c =>
    match customInner entry i cols c with
    | .error e => .error e
    | .ok c' => customOuter entry cols is c'

/-- The function `to_json(json &j, const SigmaEpsilonTable &m)`. -/
def SigmaEpsilonTable.to_json (E : Env R) (atoms : List (AtomData R)) (j : Json R)
    (m : SigmaEpsilonTable R) : Except JError (Json R) :=
  match j.setKey "mixing" (.str "LB = Lorentz-Berthelot") with
  | .error e => .error e
  | .ok j1 =>
    match j1.setKey "epsilon unit" (.str "kJ/mol") with
    | .error e => .error e
    | .ok j2 =>
      match j2.getKey "custom" with
      | .error e => .error e
      | .ok c0 =>
        match customOuter (tableEntry E atoms m) (List.range m.eps.size)
            (List.range m.eps.size) c0 with
        | .error e => .error e
        | .ok c => j2.setKey "custom" c

/-- The pair potentials with a name: Lennard-Jones, Weeks-Chandler-Andersen (which inherits
the table and the record functions of Lennard-Jones), Coulomb and hard sphere. -/
inductive PairPotential (R : Type) where
  | lennardjones (m : SigmaEpsilonTable R)
  | wca (m : SigmaEpsilonTable R)
  | coulomb (lB : R)
  | hardsphere (d2 : PairMatrix R)

namespace PairPotential

/-- The member `name` set by the constructor of each potential. -/
def name : PairPotential R → String
  | lennardjones _ => "lennardjones"
  | wca _ => "wca"
  | coulomb _ => "coulomb"
  | hardsphere _ => "hardsphere"

/-- The virtual member function `to_json(json &j)`. -/
def to_json_member (E : Env R) (atoms : List (AtomData R)) (j : Json R) :
    PairPotential R → Except JError (Json R)
  | lennardjones m => SigmaEpsilonTable.to_json E atoms .null m
  | wca m => SigmaEpsilonTable.to_json E atoms .null m
  | coulomb lB => j.setKey "lB" (.num lB)
  | hardsphere _ => j.setKey "comment" (.str "N/A")

/-- The virtual member function `from_json(const json &j)`; on success the new potential. -/
def from_json_member (E : Env R) (atoms : List (AtomData R)) (j : Json R) :
    PairPotential R → Except JError (PairPotential R)
  | lennardjones _ =>
    match SigmaEpsilonTable.from_json E atoms j SigmaEpsilonTable.default with
    | .error e => .error e
    | .ok m => .ok (lennardjones m)
  | wca _ =>
    match SigmaEpsilonTable.from_json E atoms j SigmaEpsilonTable.default with
    | .error e => .error e
    | .ok m => .ok (wca m)
  | coulomb _ =>
    match j.atKey "epsr" with
    | .error e => .error e
    | .ok je =>
      match je.getDouble with
      | .error e => .error e
      | .ok epsr => .ok (coulomb (E.lB epsr))
  | hardsphere d2 => .ok (hardsphere d2)

/-- The function `to_json(json &j, const PairPotentialBase &base)`: the potential writes into
`j[name]`. -/
def to_json (E : Env R) (atoms : List (AtomData R)) (j : Json R) (x : PairPotential R) :
    Except JError (Json R) :=
  if x.name.isEmpty then to_json_member E atoms j x
  else
    match j.getKey x.name with
    | .error e => .error e
    | .ok sub =>
      match to_json_member E atoms sub x with
      | .error e => .error e
      | .ok sub' => j.setKey x.name sub'

/-- The function `from_json(const json &j, PairPotentialBase &base)`: the potential reads
`j.at(name)`. -/
def from_json (E : Env R) (atoms : List (AtomData R)) (j : Json R) (x : PairPotential R) :
    Except JError (PairPotential R) :=
  if x.name.isEmpty then from_json_member E atoms j x
  else
    match j.atKey x.name with
    | .error e => .error e
    | .ok sub => from_json_member E atoms sub x

/-- The conversion `json(x)`: `to_json` applied to a fresh (null) record. -/
def toJson (E : Env R) (atoms : List (AtomData R)) (x : PairPotential R) :
    Except JError (Json R) := to_json E atoms .null x

end PairPotential

end Potentials

/-- A catalog of two atom types. -/
def exAtoms : List (AtomData ℚ) :=
  [{ name := "Na", id := 0, sigma := 2, eps := 1 }, { name := "Cl", id := 1, sigma := 4, eps := 4 }]

section RecordLoops

variable {R : Type}

/-- The members of a record: those of an object, none for any other record. -/
def Json.members : Json R → List (String × Json R)
  | .obj kvs => kvs
  | _ => []

/-- The assignments `c[key] = value` for a list of index pairs, in order. -/
def insertPairs (entry : Nat → Nat → Except JError (String × Json R)) :
    List (Nat × Nat) → Json R → Except JError (Json R)
  | [], c => .ok c
  | p :: ps, c =>
    match entry p.1 p.2 with
    | .error e => .error e
    | .ok kv =>
      match c.setKey kv.1 kv.2 with
      | .error e => .error e
      | .ok c' => insertPairs entry ps c'

/-- The index pairs visited by the double loop of `to_json` over rows and columns. -/
def visited (cols : List Nat) (rows : List Nat) : List (Nat × Nat) :=
  rows.flatMap (fun i => (cols.filter (fun j => decide (j ≤ i))).map (fun j => (i, j)))

end RecordLoops

section Catalogs

variable {R : Type}

/-- A record into which members can be written: null or an object. -/
def Json.Writable (c : Json R) : Prop := c = .null ∨ ∃ kvs, c = .obj kvs

/-- A word: a non-empty name without white space. -/
def IsWord (s : String) : Prop := s.data ≠ [] ∧ ∀ c ∈ s.data, c.isWhitespace = false

/-- A catalog as the program sets it up: the identifier of an atom type is its position, and
the names are pairwise distinct words. -/
def CatalogOK (atoms : List (AtomData R)) : Prop :=
  (∀ (i : Nat) (hi : i < atoms.length), atoms[i].id = i) ∧
  (atoms.map AtomData.name).Nodup ∧
  ∀ a ∈ atoms, IsWord a.name

/-- The name of the atom type at position `i` of the catalog. -/
def nameAt (atoms : List (AtomData R)) (i : Nat) : String :=
  match atoms[i]? with
  | some a => a.name
  | none => ""

/-- The key `"name_i name_j"` of the pair `(i, j)` in the custom section. -/
def pairKey (atoms : List (AtomData R)) (p : Nat × Nat) : String :=
  nameAt atoms p.1 ++ " " ++ nameAt atoms p.2

/-- The value `{"eps": e, "sigma": s}` of a pair in the custom section. -/
def pairVal (e s : R) : Json R := .obj [("eps", .num e), ("sigma", .num s)]

/-- A table whose two matrices have `n` rows and columns. -/
def SigmaEpsilonTable.HasSize (m : SigmaEpsilonTable R) (n : Nat) : Prop :=
  m.s2.size = n ∧ m.eps.size = n

end Catalogs

section EnvLaws

variable {R : Type} [LinearOrderedField R]

/-- Exact arithmetic: the unit `1.0_kJmol` is not zero, the square root is non-negative and
inverts squaring up to sign, and rounding is idempotent and keeps non-negative numbers
non-negative. -/
def EnvOK (E : Env R) : Prop :=
  E.kJmol ≠ 0 ∧ (∀ t : R, E.sqrt (t ^ 2) = |t|) ∧ (∀ t : R, 0 ≤ E.sqrt t) ∧
  (∀ t : R, E.round5 (E.round5 t) = E.round5 t) ∧ (∀ t : R, 0 ≤ t → 0 ≤ E.round5 t)

end EnvLaws

/-- The record that `to_json` writes for a table whose custom section is `c`. -/
def tableRecord {R : Type} (c : Json R) : Json R :=
  .obj [("custom", c), ("epsilon unit", .str "kJ/mol"),
    ("mixing", .str "LB = Lorentz-Berthelot")]


/-! ### Points, particles and the bond energy -/

/-- A three-dimensional vector (`Point`). -/
structure Point (R : Type) where
  x : R
  y : R
  z : R

/-- Modelled from the spec: the type `Particle<...>` of `core.h`, which is not among the
sources: the identifier of its atom type, its charge and its position. -/
structure Particle (R : Type) where
  id : Nat
  charge : R
  pos : Point R

section Geometry

variable {R : Type} [LinearOrderedField R]

/-- The function `Point::squaredNorm()`. -/
def Point.squaredNorm (p : Point R) : R := p.x * p.x + p.y * p.y + p.z * p.z

/-- The function `Point::norm()`, the square root of the squared norm. -/
def Point.norm (E : Env R) (p : Point R) : R := E.sqrt p.squaredNorm

/-- The product of a scalar and a vector. -/
def Point.smul (c : R) (p : Point R) : Point R := { x := c * p.x, y := c * p.y, z := c * p.z }

/-- The vector `Point(0,0,0)`. -/
def Point.zero : Point R := { x := 0, y := 0, z := 0 }

/-- The element `p[i]` of the particle vector for an index of type `int`; an index outside
the vector is an invalid access. -/
def particleAt (p : List (Particle R)) (i : Int) : Except JError (Particle R) :=
  if i < 0 then .error .badAccess
  else match p[i.toNat]? with
    | some a => .ok a
    | none => .error .badAccess

/-- The function `BondData::energy(p, dist)`: the harmonic energy `0.5 * k[0] * d * d` with
`d = k[1] - dist(p[index[0]].pos, p[index[1]].pos).norm()`; every other bond type runs into
the assertion `"unimplemented"` or `"not implemented"`. -/
def BondData.energy (E : Env R) (b : BondData R) (p : List (Particle R))
    (dist : Point R → Point R → Point R) : Except JError R :=
  match b.type with
  | .harmonic =>
    match b.k, b.index with
    | k0 :: k1 :: _, i0 :: i1 :: _ =>
      match particleAt p i0 with
      | .error e => .error e
      | .ok a0 =>
        match particleAt p i1 with
        | .error e => .error e
        | .ok a1 =>
          let d := k1 - (dist a0.pos a1.pos).norm E
          .ok (1 / 2 * k0 * d * d)
    | _, _ => .error .badAccess
  | .fene => .error .assertion
  | _ => .error .assertion

end Geometry

/-- A harmonic bond between the particles 2 and 3. -/
def exBond : BondData ℚ := { type := .harmonic, index := [2, 3], k := [1, 2] }

/-- The record `{"unknown": {"index": [2, 3], "k": 21/10, "req": 1}}` of the repository's
test. -/
def exUnknownRecord : Json ℚ :=
  .obj [("unknown", .obj [("index", .arr [.num 2, .num 3]), ("k", .num (21 / 10)),
    ("req", .num 1)])]

section TableInvariants

variable {R : Type} [LinearOrderedField R]

/-- The identifiers `x` and `y` are covered by both matrices of the table. -/
def SigmaEpsilonTable.Covers (m : SigmaEpsilonTable R) (x y : Nat) : Prop :=
  (x < m.s2.size ∧ y < m.s2.size) ∧ (x < m.eps.size ∧ y < m.eps.size)

/-- The table covers the pair `(x, y)` and holds the same entries for `(x, y)` and `(y, x)`. -/
def SigmaEpsilonTable.SymAt (m : SigmaEpsilonTable R) (x y : Nat) : Prop :=
  m.Covers x y ∧ m.s2.val x y = m.s2.val y x ∧ m.eps.val x y = m.eps.val y x

/-- The table covers the pair of the atom types `a` and `b` and holds their Lorentz-Berthelot
values: the square of the arithmetic mean of the sizes, and four times the geometric mean of
the energies. -/
def SigmaEpsilonTable.MixedAt (E : Env R) (m : SigmaEpsilonTable R) (a b : AtomData R) : Prop :=
  m.Covers a.id b.id ∧
  m.s2.val a.id b.id = ((a.sigma + b.sigma) / 2) ^ 2 ∧
  m.eps.val a.id b.id = 4 * E.sqrt (a.eps * b.eps)

end TableInvariants

/-- A record with a custom section for the pair of `Na` and `Cl`. -/
def exCustomRecord : Json ℚ :=
  .obj [("custom", .obj [("Na Cl", .obj [("eps", .num 1), ("sigma", .num 3)])])]

/-! ### Energies and forces of the pair potentials

Quotients are taken in the field `R`; the theorems on them assume non-zero divisors. -/

section Energies

variable {R : Type} [LinearOrderedField R]

/-- The function `LennardJones::operator()(a, b, r)`. -/
def LennardJones.energy (m : SigmaEpsilonTable R) (a b : Particle R) (r : Point R) :
    Except JError R :=
  match m.s2.get a.id b.id with
  | .error e => .error e
  | .ok s2 =>
    let x := s2 / r.squaredNorm
    let x3 := x * x * x
    match m.eps.get a.id b.id with
    | .error e => .error e
    | .ok eps => .ok (eps * (x3 * x3 - x3))

/-- The function `LennardJones::force(a, b, r2, p)`; `powi<3>` is the third power. -/
def LennardJones.force (m : SigmaEpsilonTable R) (a b : Particle R) (r2 : R) (p : Point R) :
    Except JError (Point R) :=
  match m.s2.get a.id b.id with
  | .error e => .error e
  | .ok s2 =>
    let s6 := s2 ^ 3
    let r6 := r2 * r2 * r2
    let r14 := r6 * r6 * r2
    match m.eps.get a.id b.id with
    | .error e => .error e
    | .ok eps => .ok (Point.smul (6 * eps * s6 * (2 * s6 - r6) / r14) p)

/-- The function `WeeksChandlerAndersen::operator()(a, b, r2)` for a squared distance; the
members `onefourth` and `twototwosixth` are `1/4` and `std::pow(2, 2/6.)`. -/
def WeeksChandlerAndersen.energy2 (E : Env R) (m : SigmaEpsilonTable R) (a b : Particle R)
    (r2 : R) : Except JError R :=
  match m.s2.get a.id b.id with
  | .error e => .error e
  | .ok s2 =>
    if r2 > s2 * E.twototwosixth then .ok 0
    else
      let x := s2 / r2
      let x3 := x * x * x
      match m.eps.get a.id b.id with
      | .error e => .error e
      | .ok eps => .ok (eps * (x3 * x3 - x3 + 1 / 4))

/-- The function `WeeksChandlerAndersen::operator()(a, b, r)` for a separation vector. -/
def WeeksChandlerAndersen.energy (E : Env R) (m : SigmaEpsilonTable R) (a b : Particle R)
    (r : Point R) : Except JError R :=
  WeeksChandlerAndersen.energy2 E m a b r.squaredNorm

/-- The function `WeeksChandlerAndersen::force(a, b, r2, p)`. -/
def WeeksChandlerAndersen.force (E : Env R) (m : SigmaEpsilonTable R) (a b : Particle R)
    (r2 : R) (p : Point R) : Except JError (Point R) :=
  match m.s2.get a.id b.id with
  | .error e => .error e
  | .ok s2 =>
    if r2 > s2 * E.twototwosixth then .ok Point.zero
    else
      let x := s2 / r2
      let x3 := x * x * x
      match m.eps.get a.id b.id with
      | .error e => .error e
      | .ok eps => .ok (Point.smul (eps * 6 * (2 * x3 * x3 - x3) / r2) p)

/-- The function `Coulomb::operator()(a, b, r)`. -/
def Coulomb.energy (E : Env R) (lB : R) (a b : Particle R) (r : Point R) : R :=
  lB * a.charge * b.charge / r.norm E

/-- The function `HardSphere::operator()(a, b, r)`; `pc::infty` is the top element. -/
def HardSphere.energy (d2 : PairMatrix R) (a b : Particle R) (r : Point R) :
    Except JError (WithTop R) :=
  match d2.get a.id b.id with
  | .error e => .error e
  | .ok d => if r.squaredNorm < d then .ok ⊤ else .ok 0

/-- The energy `operator()(a, b, r)` of a named pair potential, finite or infinite. -/
def PairPotential.energy (E : Env R) (x : PairPotential R) (a b : Particle R) (r : Point R) :
    Except JError (WithTop R) :=
  match x with
  | .lennardjones m =>
    match LennardJones.energy m a b r with
    | .error e => .error e
    | .ok u => .ok (u : WithTop R)
  | .wca m =>
    match WeeksChandlerAndersen.energy E m a b r with
    | .error e => .error e
    | .ok u => .ok (u : WithTop R)
  | .coulomb lB => .ok ((Coulomb.energy E lB a b r : R) : WithTop R)
  | .hardsphere d2 => HardSphere.energy d2 a b r

/-- The potentials that `operator+` combines: the named pair potentials, the potential
`Dummy`, and `CombinedPairPotential<T1, T2>` with its members `first` and `second`. -/
inductive Potential (R : Type) where
  | base (x : PairPotential R)
  | dummy
  | combined (first second : Potential R)

/-- The sum `u + v` of two evaluations, none of which may have failed. -/
def addEnergy (u v : Except JError (WithTop R)) : Except JError (WithTop R) :=
  match u with
  | .error e => .error e
  | .ok x =>
    match v with
    | .error e => .error e
    | .ok y => .ok (x + y)

/-- The energy `operator()(a, b, r)`: `Dummy` returns 0 and a combined potential returns
`first(a, b, r) + second(a, b, r)`. -/
def Potential.energy (E : Env R) : Potential R → Particle R → Particle R → Point R →
    Except JError (WithTop R)
  | .base x, a, b, r => x.energy E a b r
  | .dummy, _, _, _ => .ok 0
  | .combined f s, a, b, r => addEnergy (f.energy E a b r) (s.energy E a b r)

/-- The value of an evaluation that returned, and 0 for one that failed. -/
def okValue (u : Except JError R) : R :=
  match u with
  | .ok v => v
  | .error _ => 0

end Energies

/-- A table for one atom type with `s2 = 1` and `eps = 4`. -/
def unitTable {R : Type} [LinearOrderedField R] : SigmaEpsilonTable R :=
  { mixer := .LB, s2 := ⟨1, fun _ _ => 1⟩, eps := ⟨1, fun _ _ => 4⟩ }

/-- A particle of atom type 0 at the origin. -/
def originParticle {R : Type} [LinearOrderedField R] : Particle R :=
  { id := 0, charge := 1, pos := ⟨0, 0, 0⟩ }

/-- The unit vector `(1, 0, 0)`. -/
def unitX {R : Type} [LinearOrderedField R] : Point R := { x := 1, y := 0, z := 0 }

/-- An environment with unit conversion factors, no rounding, and the given square root and
value of `std::pow(2, 2/6.)`. -/
def unitEnv {R : Type} [LinearOrderedField R] (sqrt : R → R) (c : R) : Env R :=
  { kJmol := 1, angstrom := 1, sqrt := sqrt, round5 := id, lB := id, twototwosixth := c }

/-- The value of the member `twototwosixth`, `std::pow(2, 2/6.)`, in IEEE-754 double
arithmetic: the double `0x1.428a2f98d728bp+0`, the one nearest to the cube root of 2. -/
def twototwosixthDouble : ℚ := 5674179970822795 / 4503599627370496

/-- A separation vector whose components are doubles and whose squared norm is the double
`0x1.428a2f98d728bp+0`. -/
def cutoffSeparation : Point ℚ :=
  { x := 75327151 / 67108864, y := 16785 / 67108864, z := 3363 / 67108864 }


/-! ### The hard-sphere table and the filter of bonds -/

section HardSphereTable

variable {R : Type} [LinearOrderedField R]

/-- The body of the double loop of the constructor `HardSphere()`:
`d2.set(i.id(), j.id(), std::pow((i.sigma+j.sigma)/2, 2))`. -/
def HardSphere.setPair (d2 : PairMatrix R) (i j : AtomData R) : PairMatrix R :=
  d2.set i.id j.id (((i.sigma + j.sigma) / 2) ^ 2)

/-- The constructor `HardSphere()`: the default-constructed matrix `d2` after the double loop
`for i in atoms, for j in atoms`. -/
def HardSphere.init (atoms : List (AtomData R)) : PairMatrix R :=
  atoms.foldl (fun acc i => atoms.foldl (fun acc' j => HardSphere.setPair acc' i j) acc)
    PairMatrix.empty

end HardSphereTable

section Filter

variable {R : Type}

/-- The loop of `std::copy_if(first, last, std::back_inserter(filt), pred)` over the elements
from position `i` on; a `std::reference_wrapper` to the element `bonds[i]` is the position `i`
of that element in `bonds`. -/
def copyIfLoop {α : Type} (pred : α → Bool) : List α → Nat → List Nat → List Nat
  | [], _, filt => filt
  | d :: rest, i, filt => copyIfLoop pred rest (i + 1) (if pred d then filt ++ [i] else filt)

/-- The function `filterBonds(bonds, bondtype)`: the references to the bonds of the given
type. -/
def filterBonds (bonds : List (BondData R)) (bondtype : Variant) : List Nat :=
  copyIfLoop (fun d => decide (d.type = bondtype)) bonds 0 []

/-- The element `.get()` that a reference of `filterBonds` refers to. -/
def derefBond (bonds : List (BondData R)) (ref : Nat) : Option (BondData R) := bonds[ref]?

end Filter

/-! ### The move `saltbath` -/

/-- Conversion to the 16-bit type `short`: reduction modulo `2^16` into `[-2^15, 2^15)`. -/
def wrap16 (n : Int) : Int := (n + 32768) % 65536 - 32768

/-- Modelled from the spec: the values that `saltbath` assigns to the member `rc` of the base
class (base.h is not among the sources). -/
inductive keys where
  | OK
  | ENERGY
deriving DecidableEq, Repr

/-- Modelled from the spec: the members of the base class `markovmove` that `saltbath` reads
or writes (base.h is not among the sources): the energy delta `du`, the energies `uold` and
`unew`, the running total `utot`, the counters `cnt` and `naccept`, counted as natural
numbers, the run fraction and the displacement parameters. -/
structure markovmove (R : Type) where
  name : String
  cite : String
  runfraction : R
  deltadp : R
  dp : R
  du : R
  uold : R
  unew : R
  utot : R
  cnt : Nat
  naccept : Nat
  rc : keys

/-- Modelled from the spec: the accepted particle vector `p` and the trial particle vector
`trial` of `container` (not among the sources). -/
structure container (R : Type) where
  p : List (Particle R)
  trial : List (Particle R)

/-- Modelled from the spec: the queries of `inputfile` (not among the sources): the value
configured under a key, or the given default when the key is unset. -/
structure inputfile (R : Type) where
  getflt : String → R → R
  getint : String → Int → Int
  getstr : String → String → String
  getvec : String → String → List String

/-- Modelled from the spec: what `saltbath` uses of `grandcanonical` (not among the sources):
`findgroup` and the number of groups in `g`. -/
structure grandcanonical where
  findgroup : String → Int
  groups : Nat

/-- The struct `saltbath::data`; the pointer `gPtr` to a group of `gcPtr->g` is the position
of that group. -/
structure saltbath.data where
  gPtr : Nat
  valency : Nat
  charge : Int
  seq : List String

/-- The class `saltbath`. -/
structure saltbath (R : Type) extends markovmove R where
  polymer : saltbath.data
  counter : saltbath.data
  index : Int
  bondtype : String
  k : Nat
  mu : R
  ins : List Nat

section Saltbath

variable {R : Type} [LinearOrderedField R]

/-- The name `"RB" << index << suffix` of an input key. -/
def saltbath.key (index : Int) (suffix : String) : String :=
  "RB" ++ toString index ++ suffix

/-- The address `& gcPtr->g[ gcPtr->findgroup(seq[0]) ]`; an empty sequence and a position
outside `g` are invalid accesses. -/
def saltbath.groupOf (gc : grandcanonical) (seq : List String) : Except JError Nat :=
  match seq with
  | [] => .error .badAccess
  | name :: _ =>
    if 0 ≤ gc.findgroup name ∧ (gc.findgroup name).toNat < gc.groups then
      .ok (gc.findgroup name).toNat
    else .error .badAccess

/-- The constructor `saltbath(gc, c, i, in, idx)`; `raw` is the object as the constructor of
the base class and the default initialization of the members leave it. -/
def saltbath.init (raw : saltbath R) (gc : grandcanonical) (inp : inputfile R) (idx : Int) :
    Except JError (saltbath R) :=
  let s : saltbath R :=
    { raw with name := "ROSEMBLUTH INSERTION", cite := "Rosembluth reference...or Frenkel?",
               runfraction := 1, deltadp := 0, dp := 0, index := wrap16 idx, ins := [] }
  let mu := inp.getflt (saltbath.key s.index "_mu") 1000000
  if mu = 1000000 then .ok { s with mu := mu, runfraction := 0 }
  else
    let k := ((inp.getint (saltbath.key s.index "_ktrials") 1) % 4294967296).toNat
    let bondtype := inp.getstr (saltbath.key s.index "_bond") "none"
    let pseq := inp.getvec (saltbath.key s.index "_polymer") "NA"
    let cseq := inp.getvec (saltbath.key s.index "_counterions") "CL"
    match saltbath.groupOf gc pseq with
    | .error e => .error e
    | .ok pg =>
      match saltbath.groupOf gc cseq with
      | .error e => .error e
      | .ok cg =>
        .ok { s with mu := mu, k := k, bondtype := bondtype,
                     polymer := { s.polymer with seq := pseq, valency := pseq.length % 65536,
                                                 gPtr := pg },
                     counter := { s.counter with seq := cseq, valency := cseq.length % 65536,
                                                 gPtr := cg } }

/-- The function `saltbath::move()`: the move and the container after the call, and the
returned value; `metropolis` is the answer of `ens->metropolis` during this call. -/
def saltbath.move (metropolis : R → Bool) (s : saltbath R) (con : container R) :
    saltbath R × container R × R :=
  let s1 : saltbath R := { s with ins := [], du := 0, cnt := s.cnt + 1 }
  let s2 : saltbath R := { s1 with du := s1.unew - s1.uold }
  if metropolis s2.du = true then
    ({ s2 with rc := .OK, utot := s2.utot + s2.du, naccept := s2.naccept + 1 },
      { con with p := con.trial }, s2.du)
  else
    let s3 : saltbath R := { s2 with rc := .ENERGY, du := 0 }
    (s3, { con with trial := con.p }, s3.du)

/-- A sequence of calls of `move()`, one answer of the Metropolis test per call: the move and
the container after the calls, and the returned values. -/
def saltbath.moves : List (R → Bool) → saltbath R → container R →
    saltbath R × container R × List R
  | [], s, con => (s, con, [])
  | t :: ts, s, con =>
    let r := saltbath.move t s con
    let r' := saltbath.moves ts r.1 r.2.1
    (r'.1, r'.2.1, r.2.2 :: r'.2.2)

end Saltbath

/-- A catalog of two atom types, the second of size 0. -/
def exSpheres : List (AtomData ℚ) :=
  [{ name := "Na", id := 0, sigma := 2, eps := 1 }, { name := "X", id := 1, sigma := 0, eps := 0 }]

/-- The list of bonds of the repository's test: a fene bond and a harmonic bond. -/
def exBonds : List (BondData ℚ) :=
  [⟨.fene, [2, 3], [2 / 5, 441 / 100]⟩, ⟨.harmonic, [2, 3], [1 / 5, 21 / 10]⟩]

/-- A record whose custom section has the key `"Na-Cl"`, a single word. -/
def exBadCustomRecord : Json ℚ :=
  .obj [("custom", .obj [("Na-Cl", .obj [("eps", .num 1), ("sigma", .num 5)])])]

/-- An input file in which every key is unset: each query returns its default. -/
def exInput : inputfile ℚ :=
  { getflt := fun _ d => d, getint := fun _ d => d, getstr := fun _ d => d,
    getvec := fun _ d => [d] }

/-- A move object before the constructor of `saltbath` has run, with equal energies `uold`
and `unew`. -/
def exRaw : saltbath ℚ :=
  { name := "", cite := "", runfraction := 1, deltadp := 0, dp := 0, du := 0, uold := 0,
    unew := 0, utot := 5, cnt := 0, naccept := 0, rc := .OK,
    polymer := ⟨0, 0, 0, []⟩, counter := ⟨0, 0, 0, []⟩, index := 0, bondtype := "", k := 0,
    mu := 0, ins := [] }

/-- A move object with distinct energies `uold = 1` and `unew = 3`. -/
def exMove : saltbath ℚ := { exRaw with uold := 1, unew := 3 }

/-- A container whose trial vector differs from the accepted vector. -/
def exContainer : container ℚ :=
  { p := [⟨0, 1, ⟨0, 0, 0⟩⟩], trial := [⟨0, 1, ⟨1, 0, 0⟩⟩] }

/-- A container whose trial vector equals the accepted vector. -/
def exSynced : container ℚ :=
  { p := [⟨0, 1, ⟨0, 0, 0⟩⟩], trial := [⟨0, 1, ⟨0, 0, 0⟩⟩] }

/-- A set of two groups without any named group. -/
def exGrandcanonical : grandcanonical := { findgroup := fun _ => -1, groups := 2 }

/-- The Metropolis test without its random draw: a delta `du ≤ 0` is accepted. -/
def acceptDownhill (du : ℚ) : Bool := decide (du ≤ 0)

end Faunus

/-! # Theorems -/

namespace Faunus

namespace Space

variable {α : Type}

/-! ## Auxiliary facts about relocation and the group vector -/

theorem relocate_id (g : Group) (a b : Int) : (g.relocate a b).id = g.id := rfl

theorem relocate_active (g : Group) (a b : Int) : (g.relocate a b).active = g.active := rfl

theorem relocate_first_offset (g : Group) (a b : Int) :
    (g.relocate a b).first - b = g.first - a := by
  simp [Group.relocate]

theorem relocate_last_offset (g : Group) (a b : Int) :
    (g.relocate a b).last - b = g.last - a := by
  simp [Group.relocate]

theorem relocate_span (g : Group) (a b : Int) :
    (g.relocate a b).last - (g.relocate a b).first = g.last - g.first := by
  simp [Group.relocate]

theorem relocate_self (g : Group) (a : Int) : g.relocate a a = g := by
  cases g; simp [Group.relocate]

/-- The groups kept by `push_back`, whether or not the storage moved. -/
theorem push_back_old_groups (gs : List Group) (oldbegin newbegin : Int) :
    (if newbegin ≠ oldbegin then gs.map (fun g => g.relocate oldbegin newbegin) else gs)
      = gs.map (fun g => g.relocate oldbegin newbegin) := by
  by_cases h : newbegin = oldbegin
  · subst h
    simp [relocate_self]
  · simp [h]

theorem push_back_nonempty (S : Space α) (molid : Int) (inp : List α) (nb : Int)
    (h : inp ≠ []) :
    S.push_back molid inp nb =
      { origin := nb, p := S.p ++ inp,
        groups := S.groups.map (fun g => g.relocate S.origin nb) ++
          [{ Group.ofRange (nb + ((S.p ++ inp).length : Int) - (inp.length : Int))
               (nb + ((S.p ++ inp).length : Int)) with id := molid }] } := by
  have h' : inp.isEmpty = false := by
    cases inp with
    | nil => exact absurd rfl h
    | cons a l => rfl
  unfold push_back
  simp only [h', Bool.false_eq_true, if_false]
  rw [push_back_old_groups]

/-! ## Claims on `sync` (structural case) and `push_back` -/

/-- C1: when S and T differ in particle count or in group count, `S.sync(T, c)` returns
normally with the particle sequence of T, as many groups as T, each group having the id, the
flags and the begin/end offsets (relative to the own storage) of the corresponding group of T;
the Change is ignored. -/
theorem sync_structural (S T : Space α) (c : Change) (nb : Int)
    (h : S.p.length ≠ T.p.length ∨ S.groups.length ≠ T.groups.length) :
    ∃ S', S.sync T c nb = .ok S' ∧ S'.p = T.p ∧ S'.groups.length = T.groups.length ∧
      (∀ (i : Nat) (h1 : i < S'.groups.length) (h2 : i < T.groups.length),
        S'.groups[i].id = T.groups[i].id ∧
        S'.groups[i].active = T.groups[i].active ∧
        S'.offset S'.groups[i].first = T.offset T.groups[i].first ∧
        S'.offset S'.groups[i].last = T.offset T.groups[i].last) ∧
      ∀ c' : Change, S.sync T c' nb = S.sync T c nb := by
  refine ⟨{ origin := nb, p := T.p,
            groups := T.groups.map (fun g => g.relocate T.origin nb) }, ?_, rfl, ?_, ?_, ?_⟩
  · simp [sync, h]
  · simp
  · intro i h1 h2
    simp only [List.getElem_map, offset]
    exact ⟨rfl, rfl, relocate_first_offset _ _ _, relocate_last_offset _ _ _⟩
  · intro c'
    simp [sync, h]

/-- A witness for C1: an empty Space synchronised with a Space of three particles. -/
theorem sync_structural_witness :
    ∃ S', exEmpty.sync exT exChange 16 = .ok S' ∧ S'.p = [7, 8, 9] ∧ S'.groups.length = 2 := by
  obtain ⟨S', h1, h2, h3, _⟩ := sync_structural exEmpty exT exChange 16 (Or.inl (by decide))
  exact ⟨S', h1, h2, h3⟩

theorem slice_append (p inp : List α) (a n : Nat) (h : a + n ≤ p.length) :
    ((p ++ inp).drop a).take n = (p.drop a).take n := by
  rw [List.drop_append_of_le_length (by omega)]
  rw [List.take_append_of_le_length (by simp; omega)]

/-- C3: `push_back(molid, in)` with non-empty `in` adds exactly one group and `in.size()`
particles; the new last group has id `molid`, size `in.size()`, all slots active, and spans
exactly the last `in.size()` particles of the storage, which equal `in` in order. -/
theorem push_back_appends (S : Space α) (molid : Int) (inp : List α) (nb : Int)
    (h : inp ≠ []) :
    (S.push_back molid inp nb).groups.length = S.groups.length + 1 ∧
    (S.push_back molid inp nb).p.length = S.p.length + inp.length ∧
    ∃ g, (S.push_back molid inp nb).groups.getLast? = some g ∧
      g.id = molid ∧ g.size = (inp.length : Int) ∧
      g.activeSize = inp.length ∧
      (S.push_back molid inp nb).offset g.first =
        ((S.push_back molid inp nb).p.length : Int) - (inp.length : Int) ∧
      (S.push_back molid inp nb).offset g.last = ((S.push_back molid inp nb).p.length : Int) ∧
      (S.push_back molid inp nb).slice g = inp ∧
      (S.push_back molid inp nb).p.drop ((S.push_back molid inp nb).p.length - inp.length)
        = inp := by
  rw [push_back_nonempty S molid inp nb h]
  refine ⟨by simp, by simp, _, List.getLast?_concat _, rfl, ?_, ?_, ?_, ?_, ?_, ?_⟩
  · simp [Group.size, Group.ofRange]
  · simp [Group.activeSize, Group.ofRange]
  · simp [offset, Group.ofRange]; ring
  · simp [offset, Group.ofRange]
  · simp only [slice, Group.ofRange, List.length_append, Nat.cast_add]
    have e1 : (nb + ((S.p.length : Int) + (inp.length : Int)) - (inp.length : Int) - nb).toNat
        = S.p.length := by
      have : nb + ((S.p.length : Int) + (inp.length : Int)) - (inp.length : Int) - nb
          = (S.p.length : Int) := by ring
      rw [this]; simp
    have e2 : (nb + ((S.p.length : Int) + (inp.length : Int))
        - (nb + ((S.p.length : Int) + (inp.length : Int)) - (inp.length : Int))).toNat
        = inp.length := by
      have : nb + ((S.p.length : Int) + (inp.length : Int))
        - (nb + ((S.p.length : Int) + (inp.length : Int)) - (inp.length : Int))
          = (inp.length : Int) := by ring
      rw [this]; simp
    rw [e1, e2]
    simp
  · simp

/-- A witness for C3: two particles appended to a Space of three. -/
theorem push_back_appends_witness :
    ([5, 6] : List Nat) ≠ [] ∧
    (exS.push_back 4 [5, 6] 30).groups.length = exS.groups.length + 1 ∧
    (exS.push_back 4 [5, 6] 30).p.length = exS.p.length + 2 :=
  ⟨by decide, (push_back_appends exS 4 [5, 6] 30 (by decide)).1,
    (push_back_appends exS 4 [5, 6] 30 (by decide)).2.1⟩

/-- C4: after `push_back(molid, in)` every pre-existing group keeps its id, its flags and its
begin and end offsets from the start of the particle storage, for every address `nb` at which
the storage ends up; the pre-existing particles are unchanged, so a group lying within the
old storage spans the same particle values as before. -/
theorem push_back_preserves_groups (S : Space α) (molid : Int) (inp : List α) (nb : Int) :
    (S.push_back molid inp nb).p.take S.p.length = S.p ∧
    ∀ (i : Nat) (hi : i < S.groups.length),
      ∃ g', (S.push_back molid inp nb).groups[i]? = some g' ∧
        g'.id = S.groups[i].id ∧
        g'.active = S.groups[i].active ∧
        (S.push_back molid inp nb).offset g'.first = S.offset S.groups[i].first ∧
        (S.push_back molid inp nb).offset g'.last = S.offset S.groups[i].last ∧
        (S.Within S.groups[i] → (S.push_back molid inp nb).slice g' = S.slice S.groups[i]) := by
  by_cases h : inp = []
  · subst h
    refine ⟨by simp [push_back], fun i hi => ⟨S.groups[i], ?_, rfl, rfl, rfl, rfl, fun _ => rfl⟩⟩
    simp [push_back, hi]
  · rw [push_back_nonempty S molid inp nb h]
    refine ⟨by simp, fun i hi => ⟨S.groups[i].relocate S.origin nb, ?_, rfl, rfl, ?_, ?_, ?_⟩⟩
    · rw [List.getElem?_append_left (by simpa using hi)]
      simp [hi]
    · exact relocate_first_offset _ _ _
    · exact relocate_last_offset _ _ _
    · intro hw
      obtain ⟨h1, h2, h3⟩ := hw
      simp only [slice, relocate_span]
      rw [relocate_first_offset]
      apply slice_append
      omega

/-- A witness for C4: group 0 of `exS` keeps its slice when the storage moves to 30. -/
theorem push_back_preserves_groups_witness :
    ∃ g', (exS.push_back 4 [5, 6] 30).groups[0]? = some g' ∧
      (exS.push_back 4 [5, 6] 30).slice g' = [1, 2] := by
  obtain ⟨g', h1, _, _, _, _, h6⟩ := (push_back_preserves_groups exS 4 [5, 6] 30).2 0 (by decide)
  exact ⟨g', h1, h6 ⟨by decide, by decide, by decide⟩⟩

/-- C5: `push_back(molid, in)` with an empty `in` leaves the Space as it is: particles,
groups and storage address are unchanged and no group is created. -/
theorem push_back_empty (S : Space α) (molid : Int) (nb : Int) :
    S.push_back molid [] nb = S := by
  simp [push_back]

/-! ## The tiling invariant -/

theorem tiles_relocate (o o' : Int) (gs : List Group) (a b : Int) (h : Tiles o a gs b) :
    Tiles o' a (gs.map (fun g => g.relocate o o')) b := by
  induction gs generalizing a with
  | nil => exact h
  | cons g gs ih =>
    obtain ⟨h1, h2, h3⟩ := h
    refine ⟨?_, ?_, ?_⟩
    · simp [Group.relocate, h1]
    · simp [Group.relocate, h2]
    · have e : (g.relocate o o').last - o' = g.last - o := relocate_last_offset g o o'
      rw [e]
      exact ih _ h3

theorem tiles_snoc (o : Int) (gs : List Group) (a b : Int) (g : Group) (h : Tiles o a gs b)
    (h1 : g.first = o + b) (h2 : g.first < g.last) :
    Tiles o a (gs ++ [g]) (g.last - o) := by
  induction gs generalizing a with
  | nil =>
    have e : a = b := h
    subst e
    exact ⟨h1, h2, rfl⟩
  | cons g0 gs ih =>
    obtain ⟨k1, k2, k3⟩ := h
    exact ⟨k1, k2, ih _ k3⟩

theorem tiles_le (o : Int) (gs : List Group) (a b : Int) (h : Tiles o a gs b) : a ≤ b := by
  induction gs generalizing a with
  | nil => exact le_of_eq h
  | cons g gs ih =>
    obtain ⟨k1, k2, k3⟩ := h
    have := ih _ k3
    omega

theorem tiles_get (o : Int) (gs : List Group) (a b : Int) (h : Tiles o a gs b)
    (i : Nat) (hi : i < gs.length) :
    o + a ≤ gs[i].first ∧ gs[i].first < gs[i].last ∧ gs[i].last ≤ o + b := by
  induction gs generalizing a i with
  | nil => simp at hi
  | cons g gs ih =>
    obtain ⟨k1, k2, k3⟩ := h
    have hle := tiles_le _ _ _ _ k3
    cases i with
    | zero => simp only [List.getElem_cons_zero]; omega
    | succ i =>
      simp only [List.getElem_cons_succ]
      have := ih _ k3 i (by simpa using hi)
      omega

theorem tiles_next (o : Int) (gs : List Group) (a b : Int) (h : Tiles o a gs b)
    (i : Nat) (hi : i + 1 < gs.length) :
    gs[i + 1].first = (gs[i]).last := by
  induction gs generalizing a i with
  | nil => simp at hi
  | cons g gs ih =>
    obtain ⟨k1, k2, k3⟩ := h
    cases i with
    | zero =>
      cases gs with
      | nil => simp at hi
      | cons g1 gs =>
        obtain ⟨j1, _, _⟩ := k3
        simp only [List.getElem_cons_succ, List.getElem_cons_zero]
        omega
    | succ i =>
      simp only [List.getElem_cons_succ]
      exact ih _ k3 i (by simpa using hi)

theorem tiles_ordered (o : Int) (gs : List Group) (a b : Int) (h : Tiles o a gs b)
    (i j : Nat) (hij : i < j) (hj : j < gs.length) :
    (gs[i]).last ≤ gs[j].first := by
  induction gs generalizing a i j with
  | nil => simp at hj
  | cons g gs ih =>
    obtain ⟨k1, k2, k3⟩ := h
    cases j with
    | zero => omega
    | succ j =>
      cases i with
      | zero =>
        simp only [List.getElem_cons_succ, List.getElem_cons_zero]
        have := tiles_get _ _ _ _ k3 j (by simpa using hj)
        omega
      | succ i =>
        simp only [List.getElem_cons_succ]
        exact ih _ k3 i j (by omega) (by simpa using hj)

theorem tiles_cover (o : Int) (gs : List Group) (a b : Int) (h : Tiles o a gs b)
    (x : Int) (hx : o + a ≤ x ∧ x < o + b) :
    ∃ (i : Nat) (hi : i < gs.length), gs[i].first ≤ x ∧ x < gs[i].last := by
  induction gs generalizing a with
  | nil =>
    have e : a = b := h
    omega
  | cons g gs ih =>
    obtain ⟨k1, k2, k3⟩ := h
    by_cases hlt : x < g.last
    · exact ⟨0, by simp, by simp only [List.getElem_cons_zero]; omega⟩
    · obtain ⟨i, hi, h1⟩ := ih _ k3 (by omega)
      exact ⟨i + 1, by simpa using hi, by simpa using h1⟩

theorem tiles_first (o : Int) (gs : List Group) (a b : Int) (h : Tiles o a gs b)
    (h0 : 0 < gs.length) : gs[0].first = o + a := by
  cases gs with
  | nil => simp at h0
  | cons g gs => exact h.1

theorem tiles_last (o : Int) (gs : List Group) (a b : Int) (h : Tiles o a gs b)
    (g : Group) (hg : gs.getLast? = some g) : g.last = o + b := by
  induction gs generalizing a with
  | nil => simp at hg
  | cons g0 gs ih =>
    obtain ⟨k1, k2, k3⟩ := h
    cases gs with
    | nil =>
      simp at hg
      subst hg
      have e : g0.last - o = b := k3
      omega
    | cons g1 gs =>
      rw [List.getLast?_cons_cons] at hg
      exact ih _ k3 hg

theorem tiles_nil_iff (o : Int) (gs : List Group) (a b : Int) (h : Tiles o a gs b) :
    gs = [] ↔ a = b := by
  cases gs with
  | nil => simpa using h
  | cons g gs =>
    obtain ⟨k1, k2, k3⟩ := h
    have := tiles_le _ _ _ _ k3
    simp
    omega

theorem tiled_push_back (S : Space α) (molid : Int) (inp : List α) (nb : Int)
    (h : S.Tiled) : (S.push_back molid inp nb).Tiled := by
  by_cases hin : inp = []
  · subst hin
    rw [show S.push_back molid [] nb = S by simp [push_back]]
    exact h
  · rw [push_back_nonempty S molid inp nb hin]
    have hpos : 0 < inp.length := List.length_pos.mpr hin
    have ht := tiles_relocate S.origin nb S.groups 0 _ h
    have := tiles_snoc nb _ 0 _
      { Group.ofRange (nb + ((S.p ++ inp).length : Int) - (inp.length : Int))
          (nb + ((S.p ++ inp).length : Int)) with id := molid } ht
      (by simp [Group.ofRange]; ring) (by simp [Group.ofRange]; omega)
    simpa [Tiled, Group.ofRange] using this

/-! ## Reading and writing through iterators -/

theorem sameShape_refl (S : Space α) : SameShape S S := ⟨rfl, rfl, rfl⟩

theorem sameShape_trans {S S1 S2 : Space α} (h1 : SameShape S S1) (h2 : SameShape S1 S2) :
    SameShape S S2 :=
  ⟨h2.1.trans h1.1, h2.2.1.trans h1.2.1, h2.2.2.trans h1.2.2⟩

theorem read_ok_iff (S : Space α) (a : Int) :
    (∃ v, S.read a = .ok v) ↔ S.origin ≤ a ∧ a < S.origin + (S.p.length : Int) := by
  unfold read
  by_cases h : a < S.origin
  · simp [h]
  · simp only [h, if_false]
    by_cases h2 : (a - S.origin).toNat < S.p.length
    · rw [List.getElem?_eq_getElem h2]
      simp; omega
    · rw [List.getElem?_eq_none (by omega)]
      simp; omega

theorem write_spec (S : Space α) (a : Int) (v : α)
    (h : S.origin ≤ a ∧ a < S.origin + (S.p.length : Int)) :
    ∃ S', S.write a v = .ok S' ∧ SameShape S S' ∧
      ∀ x, S'.read x = if x = a then .ok v else S.read x := by
  have h1 : ¬ a < S.origin := by omega
  have h2 : (a - S.origin).toNat < S.p.length := by omega
  refine ⟨{ S with p := S.p.set (a - S.origin).toNat v }, by simp [write, h1, h2],
    ⟨rfl, rfl, by simp⟩, ?_⟩
  intro x
  unfold read
  simp only
  by_cases hx : x < S.origin
  · have : x ≠ a := by omega
    simp [hx, this]
  · simp only [hx, if_false]
    by_cases hxa : x = a
    · subst hxa
      simp [List.getElem?_set, h2]
    · have : (a - S.origin).toNat ≠ (x - S.origin).toNat := by omega
      simp [hxa, List.getElem?_set, this]

theorem write_ok {S S' : Space α} {a : Int} {v : α} (h : S.write a v = .ok S') :
    SameShape S S' := by
  unfold write at h
  by_cases h1 : a < S.origin
  · simp [h1] at h
  · by_cases h2 : (a - S.origin).toNat < S.p.length
    · simp only [h1, h2, if_false, if_true, Except.ok.injEq] at h
      subst h
      exact ⟨rfl, rfl, by simp⟩
    · simp [h1, h2] at h

theorem copyLoop_ok (T : Space α) (n : Nat) (src dst : Int) (S S' : Space α)
    (h : copyLoop T n src dst S = .ok S') : SameShape S S' := by
  induction n generalizing src dst S with
  | zero =>
    simp only [copyLoop, Except.ok.injEq] at h
    subst h
    exact sameShape_refl S
  | succ n ih =>
    unfold copyLoop at h
    cases hr : T.read src with
    | error e => simp [hr] at h
    | ok v =>
      simp only [hr] at h
      cases hw : S.write dst v with
      | error e => simp [hw] at h
      | ok S1 =>
        simp only [hw] at h
        exact sameShape_trans (write_ok hw) (ih _ _ _ h)

theorem copyAtoms_ok (T : Space α) (gn go : Group) (l : List Int) (S S' : Space α)
    (h : copyAtoms T gn go l S = .ok S') : SameShape S S' := by
  induction l generalizing S with
  | nil =>
    simp only [copyAtoms, Except.ok.injEq] at h
    subst h
    exact sameShape_refl S
  | cons i l ih =>
    unfold copyAtoms at h
    cases hr : T.read (gn.first + i) with
    | error e => simp [hr] at h
    | ok v =>
      simp only [hr] at h
      cases hw : S.write (go.first + i) v with
      | error e => simp [hw] at h
      | ok S1 =>
        simp only [hw] at h
        exact sameShape_trans (write_ok hw) (ih _ h)

theorem syncGroup_ok (T S S' : Space α) (m : ChangeData) (h : syncGroup T S m = .ok S') :
    SameShape S S' := by
  unfold syncGroup at h
  cases h1 : groupAt S.groups m.index with
  | error e => simp [h1] at h
  | ok go =>
    cases h2 : groupAt T.groups m.index with
    | error e => simp [h1, h2] at h
    | ok gn =>
      simp only [h1, h2] at h
      by_cases hc : gn.capacity ≠ go.capacity
      · simp [hc] at h
      · simp only [hc, if_false] at h
        by_cases ha : m.all = true
        · simp only [ha, if_true, copyRange] at h
          by_cases hl : gn.last < gn.first
          · simp [hl] at h
          · simp only [hl, if_false] at h
            exact copyLoop_ok _ _ _ _ _ _ h
        · simp only [ha] at h
          exact copyAtoms_ok _ _ _ _ _ _ h

theorem syncLoop_ok (T : Space α) (ms : List ChangeData) (S S' : Space α)
    (h : syncLoop T ms S = .ok S') : SameShape S S' := by
  induction ms generalizing S with
  | nil =>
    simp only [syncLoop, Except.ok.injEq] at h
    subst h
    exact sameShape_refl S
  | cons m ms ih =>
    unfold syncLoop at h
    cases h1 : syncGroup T S m with
    | error e => simp [h1] at h
    | ok S1 =>
      simp only [h1] at h
      exact sameShape_trans (syncGroup_ok _ _ _ _ h1) (ih _ h)

theorem tiled_sync (S T S' : Space α) (c : Change) (nb : Int) (hS : S.Tiled) (hT : T.Tiled)
    (h : S.sync T c nb = .ok S') : S'.Tiled := by
  unfold sync at h
  by_cases hd : S.p.length ≠ T.p.length ∨ S.groups.length ≠ T.groups.length
  · simp only [hd, if_true, Except.ok.injEq] at h
    subst h
    exact tiles_relocate T.origin nb T.groups 0 _ hT
  · simp only [hd, if_false] at h
    by_cases ho : S.origin = T.origin
    · simp [ho] at h
    · simp only [ho, if_false] at h
      obtain ⟨h1, h2, h3⟩ := syncLoop_ok _ _ _ _ h
      unfold Tiled
      rw [h1, h2, h3]
      exact hS

theorem reachable_tiles (S : Space α) (h : Reachable S) : S.Tiled := by
  induction h with
  | empty o => exact (rfl : (0 : Int) = ((0 : Nat) : Int))
  | clear _ _ => exact (rfl : (0 : Int) = ((0 : Nat) : Int))
  | push_back molid inp nb _ ih => exact tiled_push_back _ molid inp nb ih
  | sync c nb _ _ hs ih1 ih2 => exact tiled_sync _ _ _ c nb ih1 ih2 hs

/-- C6: in every Space reachable from an empty Space by `clear`, `push_back` and `sync`,
the ranges of two distinct groups share no address; the groups are non-empty and consecutive
in group order, the first starting at offset 0 and the last ending at offset `p.size()` (with no
group exactly when there is no particle); and every particle belongs to exactly one group. -/
theorem reachable_groups_tile (S : Space α) (h : Reachable S) :
    (∀ (i j : Nat) (hi : i < S.groups.length) (hj : j < S.groups.length), i ≠ j →
      ∀ a : Int, ¬ ((S.groups[i].first ≤ a ∧ a < S.groups[i].last) ∧
                    (S.groups[j].first ≤ a ∧ a < S.groups[j].last))) ∧
    (∀ (i : Nat) (hi : i < S.groups.length), S.groups[i].first < S.groups[i].last) ∧
    (∀ (i : Nat) (hi : i + 1 < S.groups.length), S.groups[i + 1].first = (S.groups[i]).last) ∧
    (∀ h0 : 0 < S.groups.length, S.offset S.groups[0].first = 0) ∧
    (∀ g, S.groups.getLast? = some g → S.offset g.last = (S.p.length : Int)) ∧
    (S.groups = [] ↔ S.p = []) ∧
    (∀ q : Nat, q < S.p.length →
      ∃! i : Nat, ∃ hi : i < S.groups.length,
        S.offset S.groups[i].first ≤ (q : Int) ∧ (q : Int) < S.offset S.groups[i].last) := by
  have ht : Tiles S.origin 0 S.groups (S.p.length : Int) := reachable_tiles S h
  have hdis : ∀ (i j : Nat) (hi : i < S.groups.length) (hj : j < S.groups.length), i ≠ j →
      ∀ a : Int, ¬ ((S.groups[i].first ≤ a ∧ a < S.groups[i].last) ∧
                    (S.groups[j].first ≤ a ∧ a < S.groups[j].last)) := by
    intro i j hi hj hne a hboth
    rcases Nat.lt_or_gt_of_ne hne with hlt | hgt
    · have := tiles_ordered _ _ _ _ ht i j hlt hj
      omega
    · have := tiles_ordered _ _ _ _ ht j i hgt hi
      omega
  refine ⟨hdis, ?_, ?_, ?_, ?_, ?_, ?_⟩
  · intro i hi
    exact (tiles_get _ _ _ _ ht i hi).2.1
  · intro i hi
    exact tiles_next _ _ _ _ ht i hi
  · intro h0
    have := tiles_first _ _ _ _ ht h0
    simp only [offset]
    omega
  · intro g hg
    have := tiles_last _ _ _ _ ht g hg
    simp only [offset]
    omega
  · rw [tiles_nil_iff _ _ _ _ ht]
    constructor
    · intro e
      exact List.length_eq_zero.mp (by exact_mod_cast e.symm)
    · intro e
      simp [e]
  · intro q hq
    obtain ⟨i, hi, h1⟩ := tiles_cover _ _ _ _ ht (S.origin + q) (by omega)
    refine ⟨i, ⟨hi, by simp only [offset]; omega⟩, ?_⟩
    rintro j ⟨hj, h2⟩
    by_contra hne
    simp only [offset] at h2
    exact hdis j i hj hi hne (S.origin + q) ⟨by omega, by omega⟩

/-! ## The differential branch of `sync` -/

theorem read_congr {S S' : Space α} (h : S'.origin = S.origin ∧ S'.p = S.p) (x : Int) :
    S'.read x = S.read x := by
  unfold read
  rw [h.1, h.2]

theorem copyLoop_spec (T : Space α) (n : Nat) (src dst : Int) (S : Space α)
    (hsrc : T.origin ≤ src ∧ src + (n : Int) ≤ T.origin + (T.p.length : Int))
    (hdst : S.origin ≤ dst ∧ dst + (n : Int) ≤ S.origin + (S.p.length : Int)) :
    ∃ S', copyLoop T n src dst S = .ok S' ∧
      ∀ x, S'.read x =
        if dst ≤ x ∧ x < dst + (n : Int) then T.read (src + (x - dst)) else S.read x := by
  induction n generalizing src dst S with
  | zero =>
    refine ⟨S, rfl, fun x => ?_⟩
    have : ¬ (dst ≤ x ∧ x < dst + ((0 : Nat) : Int)) := by omega
    rw [if_neg this]
  | succ n ih =>
    obtain ⟨v, hv⟩ := (read_ok_iff T src).mpr (by omega)
    obtain ⟨S1, hw, hsh, hr1⟩ := write_spec S dst v (by omega)
    obtain ⟨S', hS', hr⟩ := ih (src + 1) (dst + 1) S1 (by omega)
      (by rw [hsh.1, hsh.2.2]; omega)
    refine ⟨S', by simp [copyLoop, hv, hw, hS'], fun x => ?_⟩
    rw [hr x, hr1 x]
    by_cases h1 : dst + 1 ≤ x ∧ x < dst + 1 + (n : Int)
    · have h2 : dst ≤ x ∧ x < dst + ((n + 1 : Nat) : Int) := by omega
      have h3 : src + 1 + (x - (dst + 1)) = src + (x - dst) := by ring
      rw [if_pos h1, if_pos h2, h3]
    · by_cases h2 : x = dst
      · subst h2
        have h3 : x ≤ x ∧ x < x + ((n + 1 : Nat) : Int) := by omega
        rw [if_neg h1, if_pos h3, if_pos rfl, sub_self, add_zero, hv]
      · have h3 : ¬ (dst ≤ x ∧ x < dst + ((n + 1 : Nat) : Int)) := by omega
        rw [if_neg h1, if_neg h3, if_neg h2]

theorem copyAtoms_spec (T : Space α) (gn go : Group) (l : List Int) (S : Space α)
    (h : ∀ i ∈ l, (T.origin ≤ gn.first + i ∧ gn.first + i < T.origin + (T.p.length : Int)) ∧
                  (S.origin ≤ go.first + i ∧ go.first + i < S.origin + (S.p.length : Int))) :
    ∃ S', copyAtoms T gn go l S = .ok S' ∧
      ∀ x, S'.read x =
        if (x - go.first) ∈ l then T.read (gn.first + (x - go.first)) else S.read x := by
  induction l generalizing S with
  | nil => exact ⟨S, rfl, fun x => by simp⟩
  | cons i l ih =>
    have hi := h i (List.mem_cons_self i l)
    obtain ⟨v, hv⟩ := (read_ok_iff T (gn.first + i)).mpr hi.1
    obtain ⟨S1, hw, hsh, hr1⟩ := write_spec S (go.first + i) v hi.2
    obtain ⟨S', hS', hr⟩ := ih S1 (fun j hj => by
      have := h j (List.mem_cons_of_mem i hj)
      rw [hsh.1, hsh.2.2]
      exact this)
    refine ⟨S', by simp [copyAtoms, hv, hw, hS'], fun x => ?_⟩
    rw [hr x, hr1 x]
    by_cases h1 : (x - go.first) ∈ l
    · simp [h1]
    · by_cases h2 : x = go.first + i
      · subst h2
        simp [hv]
      · have h3 : ¬ x - go.first = i := by omega
        simp [h1, h2, h3]

theorem syncGroup_spec (T S : Space α) (m : ChangeData) (go gn : Group)
    (h1 : groupAt S.groups m.index = .ok go) (h2 : groupAt T.groups m.index = .ok gn)
    (hcap : gn.capacity = go.capacity) (hwS : S.Within go) (hwT : T.Within gn)
    (hat : m.all = false → ∀ i ∈ m.atoms, 0 ≤ i ∧ i < go.size) :
    ∃ S', syncGroup T S m = .ok S' ∧
      ∀ x, (touched go m x → S'.read x = T.read (gn.first + (x - go.first))) ∧
           (¬ touched go m x → S'.read x = S.read x) := by
  obtain ⟨a1, a2, a3⟩ := hwS
  obtain ⟨b1, b2, b3⟩ := hwT
  simp only [Group.capacity] at hcap
  have hc' : ¬ gn.capacity ≠ go.capacity := by simp [Group.capacity, hcap]
  by_cases ha : m.all = true
  · obtain ⟨S', hS', hr⟩ := copyLoop_spec T (gn.last - gn.first).toNat gn.first go.first S
      (by omega) (by omega)
    have hl : ¬ gn.last < gn.first := by omega
    refine ⟨S', by simp [syncGroup, h1, h2, hc', ha, copyRange, hl, hS'], fun x => ?_⟩
    rw [hr x]
    constructor
    · intro ht
      have : go.first ≤ x ∧ x < go.last := by
        rcases ht with ht | ht
        · exact ht.2
        · rw [ha] at ht; exact absurd ht.1 (by simp)
      have h3 : go.first ≤ x ∧ x < go.first + (((gn.last - gn.first).toNat : Nat) : Int) := by
        omega
      rw [if_pos h3]
    · intro ht
      have h3 : ¬ (go.first ≤ x ∧ x < go.first + (((gn.last - gn.first).toNat : Nat) : Int)) := by
        intro h4
        exact ht (Or.inl ⟨ha, by omega⟩)
      rw [if_neg h3]
  · have ha' : m.all = false := by simpa using ha
    have hat' := hat ha'
    simp only [Group.size] at hat'
    obtain ⟨S', hS', hr⟩ := copyAtoms_spec T gn go m.atoms S (fun i hi => by
      have := hat' i hi
      omega)
    refine ⟨S', by simp [syncGroup, h1, h2, hc', ha', hS'], fun x => ?_⟩
    rw [hr x]
    constructor
    · intro ht
      have : (x - go.first) ∈ m.atoms := by
        rcases ht with ht | ht
        · rw [ha'] at ht; exact absurd ht.1 (by simp)
        · exact ht.2
      simp [this]
    · intro ht
      have : ¬ (x - go.first) ∈ m.atoms := fun h4 => ht (Or.inr ⟨ha', h4⟩)
      simp [this]

theorem entryOK_sameShape {S S1 T : Space α} (hsh : SameShape S S1) (m : ChangeData)
    (h : EntryOK S T m) : EntryOK S1 T m := by
  obtain ⟨go, gn, h1, h2, h3, h4, h5, h6⟩ := h
  refine ⟨go, gn, by rw [hsh.2.1]; exact h1, h2, h3, ?_, h5, h6⟩
  unfold Within at *
  rw [hsh.1, hsh.2.2]
  exact h4

theorem syncLoop_spec (T : Space α) (ms : List ChangeData) (S : Space α)
    (hok : ∀ m ∈ ms, EntryOK S T m)
    (hcons : ∀ m1 ∈ ms, ∀ m2 ∈ ms, ∀ go1 go2 gn1 gn2 x,
      groupAt S.groups m1.index = .ok go1 → groupAt S.groups m2.index = .ok go2 →
      groupAt T.groups m1.index = .ok gn1 → groupAt T.groups m2.index = .ok gn2 →
      touched go1 m1 x → touched go2 m2 x →
      gn1.first + (x - go1.first) = gn2.first + (x - go2.first)) :
    ∃ S', syncLoop T ms S = .ok S' ∧
      (∀ m ∈ ms, ∀ go gn, groupAt S.groups m.index = .ok go →
        groupAt T.groups m.index = .ok gn →
        ∀ x, touched go m x → S'.read x = T.read (gn.first + (x - go.first))) ∧
      (∀ x, (∀ m ∈ ms, ∀ go, groupAt S.groups m.index = .ok go → ¬ touched go m x) →
        S'.read x = S.read x) := by
  induction ms generalizing S with
  | nil => exact ⟨S, rfl, fun m hm => by simp at hm, fun x _ => rfl⟩
  | cons m0 ms ih =>
    obtain ⟨go0, gn0, e1, e2, e3, e4, e5, e6⟩ := hok m0 (List.mem_cons_self _ _)
    obtain ⟨S1, hS1, hr1⟩ := syncGroup_spec T S m0 go0 gn0 e1 e2 e3 e4 e5 e6
    have hsh : SameShape S S1 := syncGroup_ok _ _ _ _ hS1
    obtain ⟨S', hS', hA, hB⟩ := ih S1
      (fun m hm => entryOK_sameShape hsh m (hok m (List.mem_cons_of_mem _ hm)))
      (fun m1 hm1 m2 hm2 go1 go2 gn1 gn2 x k1 k2 k3 k4 t1 t2 => by
        rw [hsh.2.1] at k1 k2
        exact hcons m1 (List.mem_cons_of_mem _ hm1) m2 (List.mem_cons_of_mem _ hm2)
          go1 go2 gn1 gn2 x k1 k2 k3 k4 t1 t2)
    refine ⟨S', by simp [syncLoop, hS1, hS'], ?_, ?_⟩
    · intro m hm go gn k1 k2 x ht
      by_cases hex : ∃ m' ∈ ms, ∃ go', groupAt S.groups m'.index = .ok go' ∧ touched go' m' x
      · obtain ⟨m', hm', go', k1', ht'⟩ := hex
        obtain ⟨go'', gn', k1'', k2', _⟩ := hok m' (List.mem_cons_of_mem _ hm')
        have : go'' = go' := by
          rw [k1'] at k1''
          exact (Except.ok.inj k1'').symm
        subst this
        rw [hA m' hm' go'' gn' (by rw [hsh.2.1]; exact k1') k2' x ht']
        rw [hcons m' (List.mem_cons_of_mem _ hm') m hm go'' go gn' gn x k1' k1 k2' k2 ht' ht]
      · have hnone : ∀ m' ∈ ms, ∀ go', groupAt S1.groups m'.index = .ok go' →
            ¬ touched go' m' x := by
          intro m' hm' go' k1' ht'
          rw [hsh.2.1] at k1'
          exact hex ⟨m', hm', go', k1', ht'⟩
        rw [hB x hnone]
        have hm0 : m = m0 := by
          rcases List.mem_cons.mp hm with h | h
          · exact h
          · exact absurd ⟨m, h, go, k1, ht⟩ hex
        subst hm0
        have eg : go = go0 := by
          rw [e1] at k1
          exact (Except.ok.inj k1).symm
        have en : gn = gn0 := by
          rw [e2] at k2
          exact (Except.ok.inj k2).symm
        subst eg en
        exact (hr1 x).1 ht
    · intro x hx
      rw [hB x (fun m' hm' go' k1' => by
        rw [hsh.2.1] at k1'
        exact hx m' (List.mem_cons_of_mem _ hm') go' k1')]
      exact (hr1 x).2 (hx m0 (List.mem_cons_self _ _) go0 e1)

theorem groupAt_ok_iff (gs : List Group) (i : Int) (g : Group) :
    groupAt gs i = .ok g ↔ 0 ≤ i ∧ gs[i.toNat]? = some g := by
  unfold groupAt
  by_cases h : i < 0
  · simp [h]
  · simp only [h, if_false]
    cases hg : gs[i.toNat]? with
    | none => simp
    | some g' => simp; omega

theorem groupAt_of_lt (gs : List Group) (i : Int) (h0 : 0 ≤ i) (h1 : i < (gs.length : Int)) :
    ∃ (hi : i.toNat < gs.length), groupAt gs i = .ok gs[i.toNat] := by
  have hi : i.toNat < gs.length := by omega
  exact ⟨hi, (groupAt_ok_iff gs i _).mpr ⟨h0, List.getElem?_eq_getElem hi⟩⟩

theorem groupAt_error_of_bad (gs : List Group) (i : Int)
    (h : i < 0 ∨ (gs.length : Int) ≤ i) : groupAt gs i = .error .outOfRange := by
  unfold groupAt
  by_cases h0 : i < 0
  · simp [h0]
  · have : gs.length ≤ i.toNat := by omega
    simp [h0, List.getElem?_eq_none this]

theorem read_eq_ok_iff (S : Space α) (a : Int) (v : α) :
    S.read a = .ok v ↔ S.origin ≤ a ∧ S.p[(a - S.origin).toNat]? = some v := by
  unfold read
  by_cases h : a < S.origin
  · simp [h]
  · simp only [h, if_false]
    cases hg : S.p[(a - S.origin).toNat]? with
    | none => simp
    | some v' => simp; omega

theorem slice_getElem? (S : Space α) (g : Group) (n : Nat) :
    (S.slice g)[n]? =
      if n < (g.last - g.first).toNat then S.p[(g.first - S.origin).toNat + n]? else none := by
  unfold slice
  rw [List.getElem?_take]
  by_cases h : n < (g.last - g.first).toNat
  · simp [h, List.getElem?_drop]
  · simp [h]

theorem slice_eq_of_read (S T : Space α) (g g' : Group) (hS : S.Within g) (hT : T.Within g')
    (hspan : g.last - g.first = g'.last - g'.first)
    (h : ∀ x, g.first ≤ x ∧ x < g.last → S.read x = T.read (g'.first + (x - g.first))) :
    S.slice g = T.slice g' := by
  obtain ⟨a1, a2, a3⟩ := hS
  obtain ⟨b1, b2, b3⟩ := hT
  apply List.ext_getElem?
  intro n
  rw [slice_getElem?, slice_getElem?, ← hspan]
  by_cases hn : n < (g.last - g.first).toNat
  · rw [if_pos hn, if_pos hn]
    have hx := h (g.first + n) (by omega)
    obtain ⟨v, hv⟩ := (read_ok_iff T (g'.first + (g.first + n - g.first))).mpr (by omega)
    rw [hv] at hx
    have k1 := ((read_eq_ok_iff S _ v).mp hx).2
    have k2 := ((read_eq_ok_iff T _ v).mp hv).2
    have e1 : (g.first + (n : Int) - S.origin).toNat = (g.first - S.origin).toNat + n := by omega
    have e2 : (g'.first + (g.first + (n : Int) - g.first) - T.origin).toNat
        = (g'.first - T.origin).toNat + n := by omega
    rw [e1] at k1
    rw [e2] at k2
    rw [k1, k2]
  · rw [if_neg hn, if_neg hn]

theorem touched_range (go : Group) (m : ChangeData) (x : Int)
    (hat : m.all = false → ∀ i ∈ m.atoms, 0 ≤ i ∧ i < go.size) (h : touched go m x) :
    go.first ≤ x ∧ x < go.last := by
  rcases h with h | h
  · exact h.2
  · have := hat h.1 _ h.2
    simp only [Group.size] at this
    omega

/-- In a tiled group vector an address lies in the range of at most one group. -/
theorem tiles_unique (o : Int) (gs : List Group) (a b : Int) (h : Tiles o a gs b)
    (i j : Nat) (hi : i < gs.length) (hj : j < gs.length) (x : Int)
    (h1 : gs[i].first ≤ x ∧ x < gs[i].last) (h2 : gs[j].first ≤ x ∧ x < gs[j].last) :
    i = j := by
  by_contra hne
  rcases Nat.lt_or_gt_of_ne hne with hlt | hgt
  · have := tiles_ordered _ _ _ _ h i j hlt hj
    omega
  · have := tiles_ordered _ _ _ _ h j i hgt hi
    omega

/-- C2 (as amended): for Spaces S and T with equal particle and group counts, particle vectors
that begin at different addresses (`p.begin() != o.p.begin()`, the assertion of the code, which
two Spaces that were never populated can fail) and tiled groups, and a Change whose entries
have in-range group indices, name groups of equal capacity in S and T and list in-range atom
offsets, `S.sync(T, c)` returns normally;
for an entry with `all` set the whole slice of its group in S equals that of T, for an entry
without it the particles at the listed offsets equal those of T, every address not named by
an entry keeps its particle (so a group not named in `c` keeps its slice), and the storage
address, the groups and the particle count of S are unchanged. -/
theorem sync_differential (S T : Space α) (c : Change) (nb : Int)
    (hp : S.p.length = T.p.length) (hg : S.groups.length = T.groups.length)
    (ho : S.origin ≠ T.origin) (hS : S.Tiled) (hT : T.Tiled)
    (hidx : ∀ m ∈ c.groups, 0 ≤ m.index ∧ m.index < (S.groups.length : Int))
    (hcap : ∀ m ∈ c.groups, ∀ go gn, groupAt S.groups m.index = .ok go →
      groupAt T.groups m.index = .ok gn → gn.capacity = go.capacity)
    (hat : ∀ m ∈ c.groups, m.all = false → ∀ go, groupAt S.groups m.index = .ok go →
      ∀ i ∈ m.atoms, 0 ≤ i ∧ i < go.size) :
    ∃ S', S.sync T c nb = .ok S' ∧
      S'.origin = S.origin ∧ S'.groups = S.groups ∧ S'.p.length = S.p.length ∧
      (∀ m ∈ c.groups, ∀ go gn, groupAt S.groups m.index = .ok go →
        groupAt T.groups m.index = .ok gn →
        (m.all = true → S'.slice go = T.slice gn) ∧
        (m.all = false → ∀ i ∈ m.atoms, S'.read (go.first + i) = T.read (gn.first + i))) ∧
      (∀ x, (∀ m ∈ c.groups, ∀ go, groupAt S.groups m.index = .ok go → ¬ touched go m x) →
        S'.read x = S.read x) ∧
      (∀ (j : Nat) (hj : j < S.groups.length), (∀ m ∈ c.groups, m.index ≠ (j : Int)) →
        S'.slice S.groups[j] = S.slice S.groups[j]) := by
  have hres : ∀ m ∈ c.groups, ∃ (hi : m.index.toNat < S.groups.length)
      (hi' : m.index.toNat < T.groups.length),
      groupAt S.groups m.index = .ok S.groups[m.index.toNat] ∧
      groupAt T.groups m.index = .ok T.groups[m.index.toNat] := by
    intro m hm
    obtain ⟨h0, h1⟩ := hidx m hm
    obtain ⟨hi, e1⟩ := groupAt_of_lt S.groups m.index h0 h1
    obtain ⟨hi', e2⟩ := groupAt_of_lt T.groups m.index h0 (by omega)
    exact ⟨hi, hi', e1, e2⟩
  have hwS : ∀ (i : Nat) (hi : i < S.groups.length), S.Within S.groups[i] := by
    intro i hi
    have := tiles_get _ _ _ _ hS i hi
    exact ⟨by omega, by omega, by omega⟩
  have hwT : ∀ (i : Nat) (hi : i < T.groups.length), T.Within T.groups[i] := by
    intro i hi
    have := tiles_get _ _ _ _ hT i hi
    exact ⟨by omega, by omega, by omega⟩
  have hok : ∀ m ∈ c.groups, EntryOK S T m := by
    intro m hm
    obtain ⟨hi, hi', e1, e2⟩ := hres m hm
    exact ⟨_, _, e1, e2, hcap m hm _ _ e1 e2, hwS _ hi, hwT _ hi',
      fun ha => hat m hm ha _ e1⟩
  have hcons : ∀ m1 ∈ c.groups, ∀ m2 ∈ c.groups, ∀ go1 go2 gn1 gn2 x,
      groupAt S.groups m1.index = .ok go1 → groupAt S.groups m2.index = .ok go2 →
      groupAt T.groups m1.index = .ok gn1 → groupAt T.groups m2.index = .ok gn2 →
      touched go1 m1 x → touched go2 m2 x →
      gn1.first + (x - go1.first) = gn2.first + (x - go2.first) := by
    intro m1 hm1 m2 hm2 go1 go2 gn1 gn2 x k1 k2 k3 k4 t1 t2
    obtain ⟨hi1, hi1', e1, e1'⟩ := hres m1 hm1
    obtain ⟨hi2, hi2', e2, e2'⟩ := hres m2 hm2
    have r1 := touched_range go1 m1 x (fun ha => hat m1 hm1 ha _ k1) t1
    have r2 := touched_range go2 m2 x (fun ha => hat m2 hm2 ha _ k2) t2
    rw [e1] at k1
    rw [e2] at k2
    rw [e1'] at k3
    rw [e2'] at k4
    have q1 := Except.ok.inj k1
    have q2 := Except.ok.inj k2
    have q3 := Except.ok.inj k3
    have q4 := Except.ok.inj k4
    subst q1 q2 q3 q4
    have : m1.index.toNat = m2.index.toNat := tiles_unique _ _ _ _ hS _ _ hi1 hi2 x r1 r2
    simp only [this]
  obtain ⟨S', hS', hA, hB⟩ := syncLoop_spec T c.groups S hok hcons
  have hsh := syncLoop_ok _ _ _ _ hS'
  have hd : ¬ (S.p.length ≠ T.p.length ∨ S.groups.length ≠ T.groups.length) := by
    simp [hp, hg]
  refine ⟨S', by simp only [sync, hd, ho, if_false]; exact hS', hsh.1, hsh.2.1, hsh.2.2, ?_, hB, ?_⟩
  · intro m hm go gn k1 k2
    obtain ⟨go', gn', e1, e2, e3, e4, e5, e6⟩ := hok m hm
    rw [k1] at e1
    rw [k2] at e2
    have q1 := Except.ok.inj e1
    have q2 := Except.ok.inj e2
    subst q1 q2
    constructor
    · intro ha
      apply slice_eq_of_read
      · unfold Within
        rw [hsh.1, hsh.2.2]
        exact e4
      · exact e5
      · simp only [Group.capacity] at e3
        omega
      · intro x hx
        exact hA m hm go gn k1 k2 x (Or.inl ⟨ha, hx⟩)
    · intro ha i hi
      have := hA m hm go gn k1 k2 (go.first + i) (Or.inr ⟨ha, by simpa using hi⟩)
      simpa using this
  · intro j hj hnot
    apply slice_eq_of_read
    · unfold Within
      rw [hsh.1, hsh.2.2]
      exact hwS j hj
    · exact hwS j hj
    · rfl
    · intro x hx
      have e : S.groups[j].first + (x - S.groups[j].first) = x := by ring
      rw [e]
      apply hB
      intro m hm go k1 ht
      obtain ⟨hi1, _, e1, _⟩ := hres m hm
      have r1 := touched_range go m x (fun ha => hat m hm ha _ k1) ht
      rw [e1] at k1
      have q1 := Except.ok.inj k1
      subst q1
      have := tiles_unique _ _ _ _ hS _ _ hi1 hj x r1 hx
      have h0 := (hidx m hm).1
      exact hnot m hm (by omega)

/-- A witness for C6: in a Space built by two calls of `push_back`, the last group ends at
offset `p.size()`. -/
theorem reachable_groups_tile_witness :
    Reachable exS23 ∧
    exS23.offset (Group.last ⟨1, 102, 105, [true, true, true]⟩) = (exS23.p.length : Int) :=
  ⟨Reachable.push_back 1 [3, 4, 5] 100 (Reachable.push_back 0 [1, 2] 100 (Reachable.empty 0)),
    (reachable_groups_tile exS23
      (Reachable.push_back 1 [3, 4, 5] 100
        (Reachable.push_back 0 [1, 2] 100 (Reachable.empty 0)))).2.2.2.2.1
      ⟨1, 102, 105, [true, true, true]⟩ rfl⟩

/-- C2, refuted as stated: two reachable Spaces with five particles and two groups each, and
a Change marking group 0 (in range) as fully touched, on which `sync` does not complete
because group 0 has capacity 2 in one and 3 in the other; nor does it when a Space is
synchronised with itself. -/
theorem sync_differential_counterexample :
    Reachable exS23 ∧ Reachable exT32 ∧
    exS23.p.length = exT32.p.length ∧ exS23.groups.length = exT32.groups.length ∧
    (∀ m ∈ exChange.groups, 0 ≤ m.index ∧ m.index < (exS23.groups.length : Int)) ∧
    exS23.sync exT32 exChange 0 = .error .assertion ∧
    exS23.sync exS23 exChange 0 = .error .assertion := by
  refine ⟨Reachable.push_back 1 [3, 4, 5] 100
      (Reachable.push_back 0 [1, 2] 100 (Reachable.empty 0)),
    Reachable.push_back 1 [9, 10] 200
      (Reachable.push_back 0 [6, 7, 8] 200 (Reachable.empty 0)), rfl, rfl, ?_, rfl, rfl⟩
  intro m hm
  simp only [exChange, List.mem_singleton] at hm
  subst hm
  decide

/-- A witness for C2 as amended: group 0 of `exS` is synchronised from `exT`. -/
theorem sync_differential_witness :
    ∃ S', exS.sync exT exChange 0 = .ok S' ∧
      S'.slice ⟨0, 100, 102, [true, true]⟩ = [7, 8] ∧
      S'.slice ⟨1, 102, 103, [true]⟩ = [3] := by
  obtain ⟨S', h1, _, _, _, h5, _, h7⟩ := sync_differential exS exT exChange 0 rfl rfl
    (by decide) ⟨rfl, by decide, rfl, by decide, rfl⟩ ⟨rfl, by decide, rfl, by decide, rfl⟩
    (by
      intro m hm
      simp only [exChange, List.mem_singleton] at hm
      subst hm
      decide)
    (by
      intro m hm go gn h1 h2
      simp only [exChange, List.mem_singleton] at hm
      subst hm
      simp only [exS, exT, groupAt] at h1 h2
      simp at h1 h2
      subst h1 h2
      rfl)
    (by
      intro m hm ha
      simp only [exChange, List.mem_singleton] at hm
      subst hm
      simp at ha)
  refine ⟨S', h1, ?_, ?_⟩
  · exact (h5 ⟨0, true, [], [], []⟩ (by simp [exChange]) ⟨0, 100, 102, [true, true]⟩
      ⟨0, 200, 202, [true, true]⟩ rfl rfl).1 rfl
  · exact h7 1 (by decide) (by
      intro m hm
      simp only [exChange, List.mem_singleton] at hm
      subst hm
      decide)

/-! ## Activated and deactivated ranges -/

theorem syncGroup_eraseRanges (T S : Space α) (m : ChangeData) :
    syncGroup T S (eraseRanges m) = syncGroup T S m := rfl

theorem syncLoop_eraseRanges (T : Space α) (ms : List ChangeData) (S : Space α) :
    syncLoop T (ms.map eraseRanges) S = syncLoop T ms S := by
  induction ms generalizing S with
  | nil => rfl
  | cons m ms ih =>
    simp only [List.map_cons, syncLoop, syncGroup_eraseRanges]
    cases syncGroup T S m with
    | error e => rfl
    | ok S1 => exact ih S1

/-- C7, refuted as stated: the Change deactivates slots 0 and 1 and activates slot 2 of
group 0, yet `sync` returns S as it was: slot 0 is still active, slot 2 is still inactive
and still holds its old particle, and the active size of the group of S (2) differs from that
of the group of T (1). -/
theorem sync_ranges_counterexample :
    exSflag.p.length = exTflag.p.length ∧ exSflag.groups.length = exTflag.groups.length ∧
    exSflag.sync exTflag exChangeFlag 0 = .ok exSflag ∧
    exSflag.groups.map Group.active = [[true, true, false]] ∧
    exSflag.read 102 = .ok 3 ∧ exTflag.read 202 = .ok 9 ∧
    exSflag.groups.map Group.activeSize = [2] ∧
    exTflag.groups.map Group.activeSize = [1] := by
  refine ⟨rfl, rfl, rfl, rfl, rfl, rfl, rfl, rfl⟩

/-- C7 (as amended): for Spaces S and T with equal particle and group counts, `S.sync(T, c)`
does not use the activated and deactivated ranges of c: its outcome is that of the Change with
these ranges emptied, and when it returns, the groups of S (ids, ranges and active flags,
hence the active size of every group) are as before the call. -/
theorem sync_ignores_ranges (S T : Space α) (c : Change) (nb : Int)
    (hp : S.p.length = T.p.length) (hg : S.groups.length = T.groups.length) :
    S.sync T c nb = S.sync T (eraseAllRanges c) nb ∧
    ∀ S', S.sync T c nb = .ok S' →
      S'.groups = S.groups ∧ S'.groups.map Group.activeSize = S.groups.map Group.activeSize := by
  have hd : ¬ (S.p.length ≠ T.p.length ∨ S.groups.length ≠ T.groups.length) := by
    simp [hp, hg]
  constructor
  · simp only [sync, hd, if_false, eraseAllRanges, syncLoop_eraseRanges]
  · intro S' h
    simp only [sync, hd, if_false] at h
    by_cases ho : S.origin = T.origin
    · simp [ho] at h
    · simp only [ho, if_false] at h
      have := (syncLoop_ok _ _ _ _ h).2.1
      exact ⟨this, by rw [this]⟩

/-- A witness for C7 as amended: the Change of the counterexample and the same Change with
its ranges emptied have the same outcome, a Space with the groups of `exSflag`. -/
theorem sync_ignores_ranges_witness :
    exSflag.sync exTflag exChangeFlag 0 = exSflag.sync exTflag (eraseAllRanges exChangeFlag) 0 ∧
    ∃ S', exSflag.sync exTflag exChangeFlag 0 = .ok S' ∧ S'.groups = exSflag.groups :=
  ⟨(sync_ignores_ranges exSflag exTflag exChangeFlag 0 rfl rfl).1,
    exSflag, rfl, ((sync_ignores_ranges exSflag exTflag exChangeFlag 0 rfl rfl).2 exSflag rfl).1⟩

/-! ## Out-of-range group indices -/

theorem syncLoop_bad_index (T : Space α) (ms : List ChangeData) (S : Space α)
    (h : ∃ m ∈ ms, m.index < 0 ∨ (S.groups.length : Int) ≤ m.index) :
    ∃ e, syncLoop T ms S = .error e := by
  induction ms generalizing S with
  | nil =>
    obtain ⟨m, hm, _⟩ := h
    simp at hm
  | cons m0 ms ih =>
    unfold syncLoop
    cases h1 : syncGroup T S m0 with
    | error e => exact ⟨e, rfl⟩
    | ok S1 =>
      have hsh := syncGroup_ok _ _ _ _ h1
      obtain ⟨m, hm, hbad⟩ := h
      rcases List.mem_cons.mp hm with hm | hm
      · subst hm
        have := groupAt_error_of_bad S.groups m.index hbad
        simp [syncGroup, this] at h1
      · exact ih S1 ⟨m, hm, by rw [hsh.2.1]; exact hbad⟩

/-- C8, refuted as stated: the Change names group index 5, which no group has, yet `sync`
of an empty Space with `exT` returns normally, through the deep-copy branch. -/
theorem sync_bad_index_counterexample :
    (∃ m ∈ exChangeBad.groups,
      m.index < 0 ∨ ((exEmpty.groups.length : Int) ≤ m.index ∧
        (exT.groups.length : Int) ≤ m.index)) ∧
    exEmpty.sync exT exChangeBad 300 =
      .ok { origin := 300, p := [7, 8, 9],
            groups := [⟨0, 300, 302, [true, true]⟩, ⟨1, 302, 303, [true]⟩] } :=
  ⟨⟨⟨5, true, [], [], []⟩, by simp [exChangeBad], Or.inr (by decide)⟩, rfl⟩

/-- C8 (as amended): for Spaces S and T with equal particle and group counts and every
Change containing an entry whose group index is negative or not smaller than the number of
groups, `S.sync(T, c)` fails instead of completing the synchronisation. -/
theorem sync_bad_index (S T : Space α) (c : Change) (nb : Int)
    (hp : S.p.length = T.p.length) (hg : S.groups.length = T.groups.length)
    (h : ∃ m ∈ c.groups, m.index < 0 ∨ (S.groups.length : Int) ≤ m.index) :
    ∃ e, S.sync T c nb = .error e := by
  have hd : ¬ (S.p.length ≠ T.p.length ∨ S.groups.length ≠ T.groups.length) := by
    simp [hp, hg]
  simp only [sync, hd, if_false]
  by_cases ho : S.origin = T.origin
  · exact ⟨.assertion, by simp [ho]⟩
  · simp only [ho, if_false]
    exact syncLoop_bad_index T c.groups S h

/-- A witness for C8 as amended. -/
theorem sync_bad_index_witness : ∃ e, exS.sync exT exChangeBad 0 = .error e :=
  sync_bad_index exS exT exChangeBad 0 rfl rfl
    ⟨⟨5, true, [], [], []⟩, by simp [exChangeBad], Or.inr (by decide)⟩

end Space

/-! ## Bond records -/

section BondSerialise

variable {R : Type} [LinearOrderedField R]

theorem toJson_harmonic (E : Env R) (i1 i2 : Int) (k0 k1 : R) :
    BondData.toJson E { type := .harmonic, index := [i1, i2], k := [k0, k1] } =
      .ok (BondData.harmonicRecord i1 i2 (k0 / E.kJmol * E.angstrom ^ 2) (k1 / E.angstrom)) := by
  simp only [BondData.toJson, BondData.to_json, Json.setKey, objOf, List.foldl, objSet,
    intArray, List.map, BondData.harmonicRecord]
  simp +decide

theorem toJson_fene (E : Env R) (i1 i2 : Int) (k0 k1 : R) :
    BondData.toJson E { type := .fene, index := [i1, i2], k := [k0, k1] } =
      .ok (BondData.feneRecord i1 i2 (k0 / E.kJmol * E.angstrom ^ 2)
        (E.sqrt k1 / E.angstrom)) := by
  simp only [BondData.toJson, BondData.to_json, Json.setKey, objOf, List.foldl, objSet,
    intArray, List.map, BondData.feneRecord]
  simp +decide

end BondSerialise

section BondTheorems

variable {R : Type} [LinearOrderedField R] [FloorRing R]

theorem trunc_intCast (i : Int) : trunc ((i : Int) : R) = i := by
  unfold trunc
  split <;> simp

theorem wrap32_of_range (i : Int) (h : -2147483648 ≤ i ∧ i < 2147483648) : wrap32 i = i := by
  unfold wrap32
  omega

theorem getInt_intCast (i : Int) (h : -2147483648 ≤ i ∧ i < 2147483648) :
    (Json.num ((i : Int) : R)).getInt = .ok i := by
  simp [Json.getInt, trunc_intCast, wrap32_of_range i h]

theorem qsqrt_sq (x : ℚ) : qsqrt (x ^ 2) = |x| := by
  unfold qsqrt
  rw [pow_two, Rat.mul_self_num, Rat.mul_self_den]
  have h0 : x.num * x.num = ((x.num.natAbs * x.num.natAbs : Nat) : Int) :=
    Int.natAbs_mul_self.symm
  have h1 : (x.num * x.num).toNat = x.num.natAbs * x.num.natAbs := by
    rw [h0]
    exact Int.toNat_natCast _
  rw [h1, Nat.sqrt_eq, Nat.sqrt_eq]
  conv_rhs => rw [← Rat.num_div_den x]
  rw [abs_div, Nat.abs_cast, Nat.cast_natAbs]
  push_cast
  rfl

theorem getIntVector_pair (i1 i2 : Int) :
    (Json.arr [Json.num ((i1 : Int) : R), Json.num ((i2 : Int) : R)]).getIntVector
      = .ok [wrap32 i1, wrap32 i2] := by
  simp only [Json.getIntVector, getInts, Json.getInt, trunc_intCast]

theorem from_json_harmonicRecord (E : Env R) (i1 i2 : Int) (x y : R) (b0 : BondData R) :
    BondData.from_json E (BondData.harmonicRecord i1 i2 x y) b0 =
      .ok { type := .harmonic, index := [wrap32 i1, wrap32 i2],
            k := [x * E.kJmol / E.angstrom ^ 2, y * E.angstrom] } := by
  simp [BondData.from_json, BondData.harmonicRecord, Json.atKey, List.lookup,
    getIntVector_pair, Json.getDouble, bind, Except.bind, pure, Except.pure]

theorem from_json_feneRecord (E : Env R) (i1 i2 : Int) (x y : R) (b0 : BondData R) :
    BondData.from_json E (BondData.feneRecord i1 i2 x y) b0 =
      .ok { type := .fene, index := [wrap32 i1, wrap32 i2],
            k := [x * E.kJmol / E.angstrom ^ 2, (y * E.angstrom) ^ 2] } := by
  simp [BondData.from_json, BondData.feneRecord, Json.atKey, List.lookup,
    getIntVector_pair, Json.getDouble, bind, Except.bind, pure, Except.pure]

/-- C9, refuted as stated: parsing `{"fene": {"index": [2, 3], "k": 1, "rmax": -21/10}}` and
serialising the result yields the record with `"rmax": 21/10`, since the bond stores the
square of `rmax`; and parsing a harmonic record whose first index is `2^32 + 2` yields the
record with first index 2, since the bond stores its indices as `int`. -/
theorem bond_roundtrip_counterexample :
    (∃ b, BondData.from_json exEnv (BondData.feneRecord 2 3 1 (-21 / 10)) ⟨.none, [], []⟩
        = .ok b ∧
      BondData.toJson exEnv b = .ok (BondData.feneRecord 2 3 1 (21 / 10)) ∧
      (BondData.feneRecord 2 3 1 (21 / 10) : Json ℚ) ≠ BondData.feneRecord 2 3 1 (-21 / 10)) ∧
    (∃ b, BondData.from_json exEnv (BondData.harmonicRecord 4294967298 3 1 1) ⟨.none, [], []⟩
        = .ok b ∧
      BondData.toJson exEnv b = .ok (BondData.harmonicRecord 2 3 1 1) ∧
      (BondData.harmonicRecord 2 3 1 1 : Json ℚ) ≠ BondData.harmonicRecord 4294967298 3 1 1) := by
  constructor
  · refine ⟨_, from_json_feneRecord exEnv 2 3 1 (-21 / 10) _, ?_, ?_⟩
    · rw [show wrap32 2 = 2 by decide, show wrap32 3 = 3 by decide, toJson_fene]
      have e : exEnv.sqrt ((-21 / 10 * exEnv.angstrom) ^ 2) = 21 / 10 := by
        show qsqrt ((-21 / 10 * exEnv.angstrom) ^ 2) = 21 / 10
        rw [qsqrt_sq]
        norm_num [exEnv, abs_of_neg]
      rw [e]
      norm_num [exEnv]
    · simp [BondData.feneRecord]
      norm_num
  · refine ⟨_, from_json_harmonicRecord exEnv 4294967298 3 1 1 _, ?_, ?_⟩
    · rw [show wrap32 4294967298 = 2 by decide, show wrap32 3 = 3 by decide, toJson_harmonic]
      norm_num [exEnv]
    · simp [BondData.harmonicRecord]

/-- C9 (as amended): for indices `i1`, `i2` representable as `int`, numeric `x`, `y`, units
with `1.0_kJmol ≠ 0` and `1.0_angstrom > 0`, and a square root with `sqrt(t²) = |t|`, parsing
`{"harmonic": {"index": [i1, i2], "k": x, "req": y}}` into a BondData and serialising the
result yields the same record; so does `{"fene": {"index": [i1, i2], "k": x, "rmax": y}}`
when `y ≥ 0`. -/
theorem bond_roundtrip (E : Env R) (hk : E.kJmol ≠ 0) (ha : 0 < E.angstrom)
    (hs : ∀ t : R, E.sqrt (t ^ 2) = |t|) (i1 i2 : Int)
    (h1 : -2147483648 ≤ i1 ∧ i1 < 2147483648) (h2 : -2147483648 ≤ i2 ∧ i2 < 2147483648)
    (x y : R) (b0 : BondData R) :
    (∃ b, BondData.from_json E (BondData.harmonicRecord i1 i2 x y) b0 = .ok b ∧
      BondData.toJson E b = .ok (BondData.harmonicRecord i1 i2 x y)) ∧
    (0 ≤ y → ∃ b, BondData.from_json E (BondData.feneRecord i1 i2 x y) b0 = .ok b ∧
      BondData.toJson E b = .ok (BondData.feneRecord i1 i2 x y)) := by
  have ha' : E.angstrom ≠ 0 := ne_of_gt ha
  have e1 : x * E.kJmol / E.angstrom ^ 2 / E.kJmol * E.angstrom ^ 2 = x := by
    field_simp
    ring
  constructor
  · refine ⟨_, from_json_harmonicRecord E i1 i2 x y b0, ?_⟩
    have e2 : y * E.angstrom / E.angstrom = y := by field_simp
    rw [wrap32_of_range i1 h1, wrap32_of_range i2 h2, toJson_harmonic, e1, e2]
  · intro hy
    refine ⟨_, from_json_feneRecord E i1 i2 x y b0, ?_⟩
    have e2 : E.sqrt ((y * E.angstrom) ^ 2) / E.angstrom = y := by
      rw [hs, abs_of_nonneg (mul_nonneg hy ha.le)]
      field_simp
    rw [wrap32_of_range i1 h1, wrap32_of_range i2 h2, toJson_fene, e1, e2]

/-- A witness for C9 as amended: the records of the repository's own test. -/
theorem bond_roundtrip_witness :
    (∃ b, BondData.from_json exEnv (BondData.harmonicRecord 2 3 (1 / 2) (21 / 10))
        ⟨.none, [], []⟩ = .ok b ∧
      BondData.toJson exEnv b = .ok (BondData.harmonicRecord 2 3 (1 / 2) (21 / 10))) ∧
    (∃ b, BondData.from_json exEnv (BondData.feneRecord 2 3 (1 / 2) (21 / 10))
        ⟨.none, [], []⟩ = .ok b ∧
      BondData.toJson exEnv b = .ok (BondData.feneRecord 2 3 (1 / 2) (21 / 10))) :=
  ⟨(bond_roundtrip exEnv (by norm_num [exEnv]) (by norm_num [exEnv]) qsqrt_sq 2 3
      (by decide) (by decide) (1 / 2) (21 / 10) ⟨.none, [], []⟩).1,
    (bond_roundtrip exEnv (by norm_num [exEnv]) (by norm_num [exEnv]) qsqrt_sq 2 3
      (by decide) (by decide) (1 / 2) (21 / 10) ⟨.none, [], []⟩).2 (by norm_num)⟩

end BondTheorems

section RecordLemmas

variable {R : Type}

/-! ## Members of objects -/

theorem mem_objSet_self (kvs : List (String × Json R)) (k : String) (v : Json R) :
    (k, v) ∈ objSet kvs k v := by
  induction kvs with
  | nil => simp [objSet]
  | cons kv rest ih =>
    obtain ⟨k', v'⟩ := kv
    unfold objSet
    split
    · simp
    · split
      · simp
      · simp [ih]

theorem mem_objSet_of_mem (kvs : List (String × Json R)) (k : String) (v : Json R)
    (kv : String × Json R) (h : kv ∈ kvs) (hne : kv.1 ≠ k) : kv ∈ objSet kvs k v := by
  induction kvs with
  | nil => simp at h
  | cons kv0 rest ih =>
    obtain ⟨k', v'⟩ := kv0
    unfold objSet
    split
    · exact List.mem_cons_of_mem _ h
    · split
      · rename_i hk
        rcases List.mem_cons.mp h with h | h
        · subst h
          exact absurd hk.symm hne
        · exact List.mem_cons_of_mem _ h
      · rcases List.mem_cons.mp h with h | h
        · subst h
          exact List.mem_cons_self _ _
        · exact List.mem_cons_of_mem _ (ih h)

theorem mem_of_mem_objSet (kvs : List (String × Json R)) (k : String) (v : Json R)
    (kv : String × Json R) (h : kv ∈ objSet kvs k v) : kv = (k, v) ∨ kv ∈ kvs := by
  induction kvs with
  | nil =>
    simp only [objSet, List.mem_singleton] at h
    exact Or.inl h
  | cons kv0 rest ih =>
    obtain ⟨k', v'⟩ := kv0
    unfold objSet at h
    split at h
    · rcases List.mem_cons.mp h with h | h
      · exact Or.inl h
      · exact Or.inr h
    · split at h
      · rcases List.mem_cons.mp h with h | h
        · exact Or.inl h
        · exact Or.inr (List.mem_cons_of_mem _ h)
      · rcases List.mem_cons.mp h with h | h
        · exact Or.inr (by rw [h]; exact List.mem_cons_self _ _)
        · rcases ih h with h | h
          · exact Or.inl h
          · exact Or.inr (List.mem_cons_of_mem _ h)

theorem setKey_writable (c : Json R) (hc : c.Writable) (k : String) (v : Json R) :
    ∃ kvs, c.setKey k v = .ok (.obj kvs) ∧
      (k, v) ∈ kvs ∧
      (∀ kv ∈ c.members, kv.1 ≠ k → kv ∈ kvs) ∧
      (∀ kv ∈ kvs, kv = (k, v) ∨ kv ∈ c.members) := by
  rcases hc with hc | ⟨kvs, hc⟩
  · subst hc
    exact ⟨[(k, v)], rfl, by simp, by simp [Json.members], by simp⟩
  · subst hc
    exact ⟨objSet kvs k v, rfl, mem_objSet_self _ _ _,
      fun kv h hne => mem_objSet_of_mem _ _ _ kv h hne,
      fun kv h => mem_of_mem_objSet _ _ _ kv h⟩

/-! ## The double loop of `to_json` as a sequence of assignments -/

theorem insertPairs_append (entry : Nat → Nat → Except JError (String × Json R))
    (ps qs : List (Nat × Nat)) (c : Json R) :
    insertPairs entry (ps ++ qs) c =
      match insertPairs entry ps c with
      | .error e => .error e
      | .ok c' => insertPairs entry qs c' := by
  induction ps generalizing c with
  | nil => rfl
  | cons p ps ih =>
    simp only [List.cons_append, insertPairs]
    cases entry p.1 p.2 with
    | error e => rfl
    | ok kv =>
      simp only
      cases c.setKey kv.1 kv.2 with
      | error e => rfl
      | ok c' => exact ih c'

theorem customInner_eq (entry : Nat → Nat → Except JError (String × Json R)) (i : Nat)
    (js : List Nat) (c : Json R) :
    customInner entry i js c =
      insertPairs entry ((js.filter (fun j => decide (j ≤ i))).map (fun j => (i, j))) c := by
  induction js generalizing c with
  | nil => rfl
  | cons j js ih =>
    unfold customInner
    by_cases h : j ≤ i
    · have h' : i ≥ j := h
      simp only [h', if_true, List.filter_cons, h, decide_True, List.map_cons, insertPairs]
      cases entry i j with
      | error e => rfl
      | ok kv =>
        simp only
        cases c.setKey kv.1 kv.2 with
        | error e => rfl
        | ok c' => exact ih c'
    · have h' : ¬ i ≥ j := h
      simp only [h', if_false, List.filter_cons, h, decide_False]
      exact ih c

theorem customOuter_eq (entry : Nat → Nat → Except JError (String × Json R))
    (cols rows : List Nat) (c : Json R) :
    customOuter entry cols rows c = insertPairs entry (visited cols rows) c := by
  induction rows generalizing c with
  | nil => rfl
  | cons i rows ih =>
    unfold customOuter
    simp only [visited, List.flatMap_cons]
    rw [insertPairs_append, customInner_eq]
    cases insertPairs entry
        ((cols.filter (fun j => decide (j ≤ i))).map (fun j => (i, j))) c with
    | error e => rfl
    | ok c' => exact ih c'

theorem insertPairs_congr (entry entry' : Nat → Nat → Except JError (String × Json R))
    (ps : List (Nat × Nat)) (c : Json R)
    (h : ∀ p ∈ ps, entry' p.1 p.2 = entry p.1 p.2) :
    insertPairs entry' ps c = insertPairs entry ps c := by
  induction ps generalizing c with
  | nil => rfl
  | cons p ps ih =>
    simp only [insertPairs, h p (List.mem_cons_self _ _)]
    cases entry p.1 p.2 with
    | error e => rfl
    | ok kv =>
      simp only
      cases c.setKey kv.1 kv.2 with
      | error e => rfl
      | ok c' => exact ih c' (fun q hq => h q (List.mem_cons_of_mem _ hq))

theorem mem_visited_range (n : Nat) (p : Nat × Nat) :
    p ∈ visited (List.range n) (List.range n) ↔ p.2 ≤ p.1 ∧ p.1 < n := by
  obtain ⟨i, j⟩ := p
  simp only [visited, List.mem_flatMap, List.mem_range, List.mem_map, List.mem_filter,
    decide_eq_true_eq, Prod.mk.injEq]
  constructor
  · rintro ⟨a, ha, b, ⟨hb, hba⟩, rfl, rfl⟩
    exact ⟨hba, ha⟩
  · rintro ⟨h1, h2⟩
    exact ⟨i, h2, j, ⟨by omega, h1⟩, rfl, rfl⟩

/-- Writing members whose keys are new and pairwise distinct: the record ends up with the old
members and the written ones. -/
theorem insertPairs_members (entry : Nat → Nat → Except JError (String × Json R))
    (K : Nat × Nat → String) (V : Nat × Nat → Json R)
    (ps : List (Nat × Nat)) (c : Json R) (hc : c.Writable)
    (hent : ∀ p ∈ ps, entry p.1 p.2 = .ok (K p, V p))
    (hnew : ∀ p ∈ ps, ∀ kv ∈ c.members, kv.1 ≠ K p)
    (hdist : (ps.map K).Nodup) :
    ∃ c', insertPairs entry ps c = .ok c' ∧ c'.Writable ∧
      (ps ≠ [] → ∃ kvs, c' = .obj kvs) ∧
      ∀ kv, kv ∈ c'.members ↔ (kv ∈ c.members ∨ ∃ p ∈ ps, kv = (K p, V p)) := by
  induction ps generalizing c with
  | nil => exact ⟨c, rfl, hc, fun h => absurd rfl h, fun kv => by simp⟩
  | cons p ps ih =>
    obtain ⟨kvs, h1, h2, h3, h4⟩ := setKey_writable c hc (K p) (V p)
    have hd : K p ∉ ps.map K ∧ (ps.map K).Nodup := by
      rw [List.map_cons] at hdist
      exact List.nodup_cons.mp hdist
    obtain ⟨c', e1, e2, _, e4⟩ := ih (.obj kvs) (Or.inr ⟨kvs, rfl⟩)
      (fun q hq => hent q (List.mem_cons_of_mem _ hq))
      (fun q hq kv hkv => by
        rcases h4 kv hkv with h | h
        · rw [h]
          intro heq
          have heq' : K p = K q := heq
          exact hd.1 (by rw [heq']; exact List.mem_map_of_mem K hq)
        · exact hnew q (List.mem_cons_of_mem _ hq) kv h)
      hd.2
    have e3 : ∃ kvs', c' = .obj kvs' := by
      rcases e2 with e2 | e2
      · exfalso
        have := (e4 (K p, V p)).mpr (Or.inl h2)
        rw [e2] at this
        simp [Json.members] at this
      · exact e2
    refine ⟨c', by simp [insertPairs, hent p (List.mem_cons_self _ _), h1, e1], e2,
      fun _ => e3, fun kv => ?_⟩
    rw [e4 kv]
    constructor
    · rintro (h | ⟨q, hq, h⟩)
      · rcases h4 kv h with h | h
        · exact Or.inr ⟨p, List.mem_cons_self _ _, h⟩
        · exact Or.inl h
      · exact Or.inr ⟨q, List.mem_cons_of_mem _ hq, h⟩
    · rintro (h | ⟨q, hq, h⟩)
      · exact Or.inl (h3 kv h (hnew p (List.mem_cons_self _ _) kv h))
      · rcases List.mem_cons.mp hq with hq | hq
        · subst hq
          exact Or.inl (by rw [h]; exact h2)
        · exact Or.inr ⟨q, hq, h⟩

end RecordLemmas

section WordLemmas

/-! ## Keys of the custom section -/

theorem splitWords_word (xs rest cur : List Char) (h : ∀ c ∈ xs, c.isWhitespace = false) :
    splitWords (xs ++ rest) cur = splitWords rest (xs.reverse ++ cur) := by
  induction xs generalizing cur with
  | nil => rfl
  | cons x xs ih =>
    have hx : x.isWhitespace = false := h x (List.mem_cons_self _ _)
    have e : (x :: xs) ++ rest = x :: (xs ++ rest) := rfl
    rw [e]
    simp only [splitWords, hx, Bool.false_eq_true, if_false]
    rw [ih (x :: cur) (fun c hc => h c (List.mem_cons_of_mem _ hc))]
    simp

theorem words2vec_pair (a b : String) (ha : IsWord a) (hb : IsWord b) :
    words2vec (a ++ " " ++ b) = [a, b] := by
  unfold words2vec
  have e : (a ++ " " ++ b).data = a.data ++ (' ' :: (b.data ++ [])) := by
    simp [String.data_append]
  rw [e, splitWords_word a.data _ [] ha.2]
  have hne : (a.data.reverse ++ []).isEmpty = false := by
    cases hd : a.data with
    | nil => exact absurd hd ha.1
    | cons x xs => simp
  have hsp : (' ' : Char).isWhitespace = true := by decide
  simp only [splitWords, hsp, if_true, hne, Bool.false_eq_true, if_false]
  rw [splitWords_word b.data [] [] hb.2]
  have hne' : (b.data.reverse ++ []).isEmpty = false := by
    cases hd : b.data with
    | nil => exact absurd hd hb.1
    | cons x xs => simp
  simp [splitWords, hb.1]

theorem findName_getElem {R : Type} (atoms : List (AtomData R))
    (hn : (atoms.map AtomData.name).Nodup) (i : Nat) (hi : i < atoms.length) :
    findName atoms atoms[i].name = some atoms[i] := by
  unfold findName
  induction atoms generalizing i with
  | nil => simp at hi
  | cons a rest ih =>
    rw [List.map_cons] at hn
    obtain ⟨h1, h2⟩ := List.nodup_cons.mp hn
    cases i with
    | zero => simp [List.find?]
    | succ i =>
      simp only [List.getElem_cons_succ]
      have hi' : i < rest.length := by simpa using hi
      have hne : a.name ≠ rest[i].name := by
        intro heq
        exact h1 (by rw [heq]; exact List.mem_map_of_mem _ (List.getElem_mem hi'))
      have hb : (a.name == rest[i].name) = false := by simpa using hne
      simp only [List.find?, hb]
      exact ih h2 i hi'

end WordLemmas

section MatrixLemmas

variable {R : Type} [Zero R]

theorem PairMatrix.set_size (m : PairMatrix R) (i j : Nat) (v : R)
    (h : i < m.size ∧ j < m.size) : (m.set i j v).size = m.size := by
  have : max i j < m.size := max_lt h.1 h.2
  simp [PairMatrix.set, this]

theorem PairMatrix.set_val (m : PairMatrix R) (i j : Nat) (v : R)
    (h : i < m.size ∧ j < m.size) (a b : Nat) :
    (m.set i j v).val a b = if (a = i ∧ b = j) ∨ (a = j ∧ b = i) then v else m.val a b := by
  have : max i j < m.size := max_lt h.1 h.2
  simp [PairMatrix.set, this]

end MatrixLemmas

section NameLemmas

variable {R : Type}

theorem nameAt_lt (atoms : List (AtomData R)) (i : Nat) (hi : i < atoms.length) :
    nameAt atoms i = atoms[i].name := by
  simp [nameAt, List.getElem?_eq_getElem hi]

theorem name_inj (atoms : List (AtomData R)) (hn : (atoms.map AtomData.name).Nodup)
    (i j : Nat) (hi : i < atoms.length) (hj : j < atoms.length)
    (h : atoms[i].name = atoms[j].name) : i = j := by
  have hi' : i < (atoms.map AtomData.name).length := by simpa using hi
  have hj' : j < (atoms.map AtomData.name).length := by simpa using hj
  have g : (atoms.map AtomData.name)[i] = (atoms.map AtomData.name)[j] := by simpa using h
  exact (List.Nodup.getElem_inj_iff hn).mp g

theorem pairKey_inj (atoms : List (AtomData R)) (hc : CatalogOK atoms) (p q : Nat × Nat)
    (hp : p.1 < atoms.length ∧ p.2 < atoms.length)
    (hq : q.1 < atoms.length ∧ q.2 < atoms.length)
    (h : pairKey atoms p = pairKey atoms q) : p = q := by
  obtain ⟨_, hn, hw⟩ := hc
  have w1 := words2vec_pair (nameAt atoms p.1) (nameAt atoms p.2)
    (by rw [nameAt_lt _ _ hp.1]; exact hw _ (List.getElem_mem hp.1))
    (by rw [nameAt_lt _ _ hp.2]; exact hw _ (List.getElem_mem hp.2))
  have w2 := words2vec_pair (nameAt atoms q.1) (nameAt atoms q.2)
    (by rw [nameAt_lt _ _ hq.1]; exact hw _ (List.getElem_mem hq.1))
    (by rw [nameAt_lt _ _ hq.2]; exact hw _ (List.getElem_mem hq.2))
  unfold pairKey at h
  rw [h, w2] at w1
  simp only [List.cons.injEq, and_true] at w1
  obtain ⟨e1, e2⟩ := w1
  rw [nameAt_lt _ _ hp.1, nameAt_lt _ _ hq.1] at e1
  rw [nameAt_lt _ _ hp.2, nameAt_lt _ _ hq.2] at e2
  exact Prod.ext (name_inj atoms hn _ _ hp.1 hq.1 e1.symm)
    (name_inj atoms hn _ _ hp.2 hq.2 e2.symm)

end NameLemmas

section TableLemmas

variable {R : Type} [LinearOrderedField R]

/-! ## The table of sigma and epsilon -/

theorem tableEntry_eq (E : Env R) (atoms : List (AtomData R)) (m : SigmaEpsilonTable R)
    (hm : m.HasSize atoms.length) (i j : Nat) (hi : i < atoms.length) (hj : j < atoms.length) :
    tableEntry E atoms m i j =
      .ok (pairKey atoms (i, j),
        pairVal (E.round5 (m.eps.val i j / (4 * E.kJmol))) (E.round5 (E.sqrt (m.s2.val i j)))) := by
  obtain ⟨h1, h2⟩ := hm
  simp only [tableEntry, List.getElem?_eq_getElem hi, List.getElem?_eq_getElem hj,
    PairMatrix.get, h1, h2, hi, hj, and_self, if_true, pairKey, nameAt, pairVal, roundjson,
    objOf, List.foldl, objSet]
  simp +decide

theorem mixPair_hasSize (E : Env R) (m : SigmaEpsilonTable R) (n : Nat) (hm : m.HasSize n)
    (a b : AtomData R) (ha : a.id < n) (hb : b.id < n) : (mixPair E m a b).HasSize n := by
  obtain ⟨h1, h2⟩ := hm
  constructor
  · simp only [mixPair]
    rw [PairMatrix.set_size _ _ _ _ (by rw [h1]; exact ⟨ha, hb⟩), h1]
  · simp only [mixPair]
    rw [PairMatrix.set_size _ _ _ _ (by rw [h2]; exact ⟨ha, hb⟩), h2]

theorem mixRow_hasSize (E : Env R) (n : Nat) (a : AtomData R) (ha : a.id < n)
    (l : List (AtomData R)) (hl : ∀ b ∈ l, b.id < n) (m : SigmaEpsilonTable R)
    (hm : m.HasSize n) : (l.foldl (fun acc b => mixPair E acc a b) m).HasSize n := by
  induction l generalizing m with
  | nil => exact hm
  | cons b l ih =>
    simp only [List.foldl]
    exact ih (fun c hc => hl c (List.mem_cons_of_mem _ hc)) _
      (mixPair_hasSize E m n hm a b ha (hl b (List.mem_cons_self _ _)))

theorem mixRows_hasSize (E : Env R) (n : Nat) (cols : List (AtomData R))
    (hcols : ∀ b ∈ cols, b.id < n) (rows : List (AtomData R)) (hrows : ∀ a ∈ rows, a.id < n)
    (m : SigmaEpsilonTable R) (hm : m.HasSize n) :
    (rows.foldl (fun acc a => cols.foldl (fun acc' b => mixPair E acc' a b) acc) m).HasSize n := by
  induction rows generalizing m with
  | nil => exact hm
  | cons a rows ih =>
    simp only [List.foldl]
    exact ih (fun c hc => hrows c (List.mem_cons_of_mem _ hc)) _
      (mixRow_hasSize E n a (hrows a (List.mem_cons_self _ _)) cols hcols m hm)

theorem mixAll_hasSize (E : Env R) (atoms : List (AtomData R)) (hc : CatalogOK atoms)
    (m : SigmaEpsilonTable R) (hm : m.HasSize atoms.length) :
    (mixAll E atoms m).HasSize atoms.length := by
  have hid : ∀ a ∈ atoms, a.id < atoms.length := by
    intro a ha
    obtain ⟨i, hi, rfl⟩ := List.getElem_of_mem ha
    rw [hc.1 i hi]
    exact hi
  exact mixRows_hasSize E atoms.length atoms hid atoms hid m hm

theorem customEntry_pair (E : Env R) (atoms : List (AtomData R)) (hc : CatalogOK atoms)
    (m : SigmaEpsilonTable R) (hm : m.HasSize atoms.length) (a b : Nat)
    (ha : a < atoms.length) (hb : b < atoms.length) (e s : R) :
    ∃ m', customEntry E atoms m (pairKey atoms (a, b), pairVal e s) = .ok m' ∧
      m'.HasSize atoms.length ∧
      (∀ i j, m'.eps.val i j =
        if (i = a ∧ j = b) ∨ (i = b ∧ j = a) then 4 * e * E.kJmol else m.eps.val i j) ∧
      (∀ i j, m'.s2.val i j =
        if (i = a ∧ j = b) ∨ (i = b ∧ j = a) then s ^ 2 else m.s2.val i j) := by
  obtain ⟨hid, hn, hw⟩ := hc
  obtain ⟨h1, h2⟩ := hm
  have w := words2vec_pair (nameAt atoms a) (nameAt atoms b)
    (by rw [nameAt_lt _ _ ha]; exact hw _ (List.getElem_mem ha))
    (by rw [nameAt_lt _ _ hb]; exact hw _ (List.getElem_mem hb))
  have f1 : findName atoms (nameAt atoms a) = some atoms[a] := by
    rw [nameAt_lt _ _ ha]
    exact findName_getElem atoms hn a ha
  have f2 : findName atoms (nameAt atoms b) = some atoms[b] := by
    rw [nameAt_lt _ _ hb]
    exact findName_getElem atoms hn b hb
  have k1 : (pairVal e s).atKey "sigma" = .ok (.num s) := by
    simp +decide [pairVal, Json.atKey, List.lookup]
  have k2 : (pairVal e s).atKey "eps" = .ok (.num e) := by
    simp +decide [pairVal, Json.atKey, List.lookup]
  refine ⟨{ m with s2 := m.s2.set a b (s ^ 2), eps := m.eps.set a b (4 * e * E.kJmol) },
    ?_, ⟨?_, ?_⟩, ?_, ?_⟩
  · simp only [customEntry, pairKey, w, f1, f2, k1, k2, Json.getDouble, hid a ha, hid b hb]
  · simp only
    rw [PairMatrix.set_size _ _ _ _ (by rw [h1]; exact ⟨ha, hb⟩), h1]
  · simp only
    rw [PairMatrix.set_size _ _ _ _ (by rw [h2]; exact ⟨ha, hb⟩), h2]
  · intro i j
    exact PairMatrix.set_val _ _ _ _ (by rw [h2]; exact ⟨ha, hb⟩) i j
  · intro i j
    exact PairMatrix.set_val _ _ _ _ (by rw [h1]; exact ⟨ha, hb⟩) i j

/-- Parsing a custom section all of whose members are pairs `(i, j)` with `j ≤ i` of the
catalog: the pairs that occur get the values of their member, the others keep theirs. -/
theorem parseCustom_pairs (E : Env R) (atoms : List (AtomData R)) (hc : CatalogOK atoms)
    (e s : Nat → Nat → R) (kvs : List (String × Json R)) (m : SigmaEpsilonTable R)
    (hm : m.HasSize atoms.length)
    (hk : ∀ kv ∈ kvs, ∃ a b, b ≤ a ∧ a < atoms.length ∧
      kv = (pairKey atoms (a, b), pairVal (e a b) (s a b))) :
    ∃ m', parseCustom E atoms kvs m = .ok m' ∧ m'.HasSize atoms.length ∧
      ∀ i j, j ≤ i → i < atoms.length →
        ((pairKey atoms (i, j), pairVal (e i j) (s i j)) ∈ kvs →
          m'.eps.val i j = 4 * e i j * E.kJmol ∧ m'.s2.val i j = s i j ^ 2) ∧
        ((pairKey atoms (i, j), pairVal (e i j) (s i j)) ∉ kvs →
          m'.eps.val i j = m.eps.val i j ∧ m'.s2.val i j = m.s2.val i j) := by
  induction kvs generalizing m with
  | nil => exact ⟨m, rfl, hm, fun i j _ _ => ⟨fun h => by simp at h, fun _ => ⟨rfl, rfl⟩⟩⟩
  | cons kv kvs ih =>
    obtain ⟨a, b, hba, ha, rfl⟩ := hk kv (List.mem_cons_self _ _)
    obtain ⟨m1, c1, c2, c3, c4⟩ := customEntry_pair E atoms hc m hm a b ha (by omega)
      (e a b) (s a b)
    obtain ⟨m', d1, d2, d3⟩ := ih m1 c2 (fun kv hkv => hk kv (List.mem_cons_of_mem _ hkv))
    refine ⟨m', by simp only [parseCustom, c1, d1], d2, fun i j hji hi => ?_⟩
    obtain ⟨p1, p2⟩ := d3 i j hji hi
    have hstep : (i, j) ≠ (a, b) → m1.eps.val i j = m.eps.val i j ∧
        m1.s2.val i j = m.s2.val i j := by
      intro hne
      have hcond : ¬ ((i = a ∧ j = b) ∨ (i = b ∧ j = a)) := by
        rintro (⟨h1, h2⟩ | ⟨h1, h2⟩)
        · exact hne (by rw [h1, h2])
        · exact hne (by
            have : a = b := by omega
            rw [h1, h2, this])
      rw [c3 i j, c4 i j, if_neg hcond, if_neg hcond]
      exact ⟨rfl, rfl⟩
    have hhit : (i, j) = (a, b) → m1.eps.val i j = 4 * e i j * E.kJmol ∧
        m1.s2.val i j = s i j ^ 2 := by
      intro heq
      obtain ⟨h1, h2⟩ := Prod.mk.inj heq
      subst h1 h2
      rw [c3 i j, c4 i j, if_pos (Or.inl ⟨rfl, rfl⟩), if_pos (Or.inl ⟨rfl, rfl⟩)]
      exact ⟨rfl, rfl⟩
    by_cases hin : (pairKey atoms (i, j), pairVal (e i j) (s i j)) ∈ kvs
    · exact ⟨fun _ => p1 hin, fun h => absurd (List.mem_cons_of_mem _ hin) h⟩
    · obtain ⟨q1, q2⟩ := p2 hin
      by_cases heq : (i, j) = (a, b)
      · obtain ⟨r1, r2⟩ := hhit heq
        refine ⟨fun _ => ⟨q1.trans r1, q2.trans r2⟩, fun h => ?_⟩
        exfalso
        apply h
        obtain ⟨h1, h2⟩ := Prod.mk.inj heq
        subst h1 h2
        exact List.mem_cons_self _ _
      · obtain ⟨r1, r2⟩ := hstep heq
        refine ⟨fun h => ?_, fun _ => ⟨q1.trans r1, q2.trans r2⟩⟩
        rcases List.mem_cons.mp h with h | h
        · exfalso
          have hk' := (Prod.mk.inj h).1
          exact heq (pairKey_inj atoms hc (i, j) (a, b) ⟨hi, by omega⟩ ⟨ha, by omega⟩ hk')
        · exact absurd h hin

end TableLemmas

section RoundTrip

variable {R : Type} [LinearOrderedField R]

theorem visited_range_nodup (n : Nat) : (visited (List.range n) (List.range n)).Nodup := by
  unfold visited
  rw [List.nodup_flatMap]
  constructor
  · intro i _
    exact ((List.nodup_range n).filter _).map (fun a b h => (Prod.mk.inj h).2)
  · refine (List.nodup_range n).imp ?_
    intro a b hab
    simp only [Function.onFun]
    rw [List.disjoint_left]
    intro p hp hq
    simp only [List.mem_map] at hp hq
    obtain ⟨_, _, rfl⟩ := hp
    obtain ⟨_, _, h⟩ := hq
    exact hab (Prod.mk.inj h).1.symm

/-- The record of a table covering the catalog: its custom section holds exactly one member
for every pair `(i, j)` with `j ≤ i`, with the rounded entries. -/
theorem table_to_json_form (E : Env R) (atoms : List (AtomData R)) (hc : CatalogOK atoms)
    (m : SigmaEpsilonTable R) (hm : m.HasSize atoms.length) :
    ∃ c, SigmaEpsilonTable.to_json E atoms .null m = .ok (tableRecord c) ∧
      insertPairs (tableEntry E atoms m)
        (visited (List.range atoms.length) (List.range atoms.length)) .null = .ok c ∧
      c.Writable ∧ (atoms ≠ [] → ∃ kvs, c = .obj kvs) ∧
      ∀ kv, kv ∈ c.members ↔ ∃ p ∈ visited (List.range atoms.length) (List.range atoms.length),
        kv = (pairKey atoms p,
          pairVal (E.round5 (m.eps.val p.1 p.2 / (4 * E.kJmol)))
            (E.round5 (E.sqrt (m.s2.val p.1 p.2)))) := by
  obtain ⟨c, h1, h2, h3, h4⟩ := insertPairs_members (tableEntry E atoms m) (pairKey atoms)
    (fun p => pairVal (E.round5 (m.eps.val p.1 p.2 / (4 * E.kJmol)))
      (E.round5 (E.sqrt (m.s2.val p.1 p.2))))
    (visited (List.range atoms.length) (List.range atoms.length)) .null (Or.inl rfl)
    (fun p hp => by
      have := (mem_visited_range _ p).mp hp
      exact tableEntry_eq E atoms m hm p.1 p.2 this.2 (by omega))
    (fun p _ kv hkv => by simp [Json.members] at hkv)
    ((visited_range_nodup atoms.length).map_on (fun p hp q hq h => by
      have hp' := (mem_visited_range _ p).mp hp
      have hq' := (mem_visited_range _ q).mp hq
      exact pairKey_inj atoms hc p q ⟨hp'.2, by omega⟩ ⟨hq'.2, by omega⟩ h))
  refine ⟨c, ?_, h1, h2, ?_, ?_⟩
  · simp only [SigmaEpsilonTable.to_json, Json.setKey, objSet, Json.getKey]
    have k1 : keyLt "epsilon unit" "mixing" = true := by decide
    have k2 : keyLt "custom" "epsilon unit" = true := by decide
    have k3 : List.lookup "custom" [("epsilon unit", (Json.str "kJ/mol" : Json R)),
        ("mixing", Json.str "LB = Lorentz-Berthelot")] = none := by
      simp +decide [List.lookup]
    simp only [k1, k2, k3, if_true, Option.getD, customOuter_eq, hm.2, h1, tableRecord]
  · intro hne
    apply h3
    intro hv
    have hpos : 0 < atoms.length := List.length_pos.mpr hne
    have : (0, 0) ∈ visited (List.range atoms.length) (List.range atoms.length) :=
      (mem_visited_range _ _).mpr ⟨le_refl _, hpos⟩
    rw [hv] at this
    simp at this
  · intro kv
    rw [h4 kv]
    simp [Json.members]

theorem table_from_json_form (E : Env R) (atoms : List (AtomData R)) (c : Json R) :
    SigmaEpsilonTable.from_json E atoms (tableRecord c) SigmaEpsilonTable.default =
      match c with
      | .obj kvs => parseCustom E atoms kvs
          (mixAll E atoms { (SigmaEpsilonTable.default : SigmaEpsilonTable R) with
            s2 := (SigmaEpsilonTable.default : SigmaEpsilonTable R).s2.resize atoms.length,
            eps := (SigmaEpsilonTable.default : SigmaEpsilonTable R).eps.resize atoms.length })
      | _ => .ok (mixAll E atoms { (SigmaEpsilonTable.default : SigmaEpsilonTable R) with
            s2 := (SigmaEpsilonTable.default : SigmaEpsilonTable R).s2.resize atoms.length,
            eps := (SigmaEpsilonTable.default : SigmaEpsilonTable R).eps.resize atoms.length }) := by
  have k1 : List.lookup "mixing" [("custom", c), ("epsilon unit", (Json.str "kJ/mol" : Json R)),
      ("mixing", Json.str "LB = Lorentz-Berthelot")] = some (.str "LB = Lorentz-Berthelot") := by
    simp +decide [List.lookup]
  have k2 : List.lookup "custom" [("custom", c), ("epsilon unit", (Json.str "kJ/mol" : Json R)),
      ("mixing", Json.str "LB = Lorentz-Berthelot")] = some c := by
    simp [List.lookup]
  have k3 : ¬ ("LB = Lorentz-Berthelot" : String) = "LB" := by decide
  simp only [SigmaEpsilonTable.from_json, tableRecord, Json.valueStr, k1, Json.getString, k3,
    if_false, Json.count, k2, Option.isSome, if_true, Json.atKey, SigmaEpsilonTable.default]
  cases c <;> rfl

/-- Serialising a table that covers the catalog, parsing the record and serialising the
parsed table gives the first record again. -/
theorem table_roundtrip (E : Env R) (atoms : List (AtomData R)) (hE : EnvOK E)
    (hc : CatalogOK atoms) (m : SigmaEpsilonTable R) (hm : m.HasSize atoms.length) :
    ∃ J, SigmaEpsilonTable.to_json E atoms .null m = .ok J ∧
      ∃ m', SigmaEpsilonTable.from_json E atoms J SigmaEpsilonTable.default = .ok m' ∧
        SigmaEpsilonTable.to_json E atoms .null m' = .ok J := by
  obtain ⟨hkJ, hsq, hsn, hri, hrn⟩ := hE
  obtain ⟨c, h1, h2, h3, h4, h5⟩ := table_to_json_form E atoms hc m hm
  refine ⟨tableRecord c, h1, ?_⟩
  rw [table_from_json_form]
  have hm3 := mixAll_hasSize E atoms hc
    { (SigmaEpsilonTable.default : SigmaEpsilonTable R) with
      s2 := (SigmaEpsilonTable.default : SigmaEpsilonTable R).s2.resize atoms.length,
      eps := (SigmaEpsilonTable.default : SigmaEpsilonTable R).eps.resize atoms.length }
    ⟨rfl, rfl⟩
  have hfinal : ∀ m' : SigmaEpsilonTable R, m'.HasSize atoms.length →
      (∀ p ∈ visited (List.range atoms.length) (List.range atoms.length),
        tableEntry E atoms m' p.1 p.2 = tableEntry E atoms m p.1 p.2) →
      SigmaEpsilonTable.to_json E atoms .null m' = .ok (tableRecord c) := by
    intro m' hm' hent
    obtain ⟨c', g1, g2, _⟩ := table_to_json_form E atoms hc m' hm'
    rw [insertPairs_congr _ _ _ _ hent, h2] at g2
    rw [g1, ← Except.ok.inj g2]
  rcases h3 with h3 | ⟨kvs, h3⟩
  · subst h3
    refine ⟨_, rfl, hfinal _ hm3 ?_⟩
    intro p hp
    have := (h5 (pairKey atoms p, _)).mpr ⟨p, hp, rfl⟩
    simp [Json.members] at this
  · subst h3
    obtain ⟨m', d1, d2, d3⟩ := parseCustom_pairs E atoms hc
      (fun i j => E.round5 (m.eps.val i j / (4 * E.kJmol)))
      (fun i j => E.round5 (E.sqrt (m.s2.val i j))) kvs _ hm3
      (fun kv hkv => by
        obtain ⟨p, hp, rfl⟩ := (h5 kv).mp hkv
        have := (mem_visited_range _ p).mp hp
        exact ⟨p.1, p.2, this.1, this.2, rfl⟩)
    refine ⟨m', d1, hfinal m' d2 ?_⟩
    intro p hp
    have hp' := (mem_visited_range _ p).mp hp
    have hmem : (pairKey atoms (p.1, p.2),
        pairVal (E.round5 (m.eps.val p.1 p.2 / (4 * E.kJmol)))
          (E.round5 (E.sqrt (m.s2.val p.1 p.2)))) ∈ kvs :=
      (h5 _).mpr ⟨p, hp, rfl⟩
    obtain ⟨v1, v2⟩ := (d3 p.1 p.2 hp'.1 hp'.2).1 hmem
    rw [tableEntry_eq E atoms m' d2 p.1 p.2 hp'.2 (by omega),
      tableEntry_eq E atoms m hm p.1 p.2 hp'.2 (by omega), v1, v2]
    have a1 : 4 * E.round5 (m.eps.val p.1 p.2 / (4 * E.kJmol)) * E.kJmol / (4 * E.kJmol)
        = E.round5 (m.eps.val p.1 p.2 / (4 * E.kJmol)) := by
      field_simp
      ring
    have a2 : E.sqrt (E.round5 (E.sqrt (m.s2.val p.1 p.2)) ^ 2)
        = E.round5 (E.sqrt (m.s2.val p.1 p.2)) := by
      rw [hsq, abs_of_nonneg (hrn _ (hsn _))]
    rw [a1, a2, hri, hri]

end RoundTrip

section PotentialRoundTrip

variable {R : Type} [LinearOrderedField R]

open PairPotential

theorem toJson_coulomb (E : Env R) (atoms : List (AtomData R)) (lB : R) :
    toJson E atoms (.coulomb lB) = .ok (.obj [("coulomb", .obj [("lB", .num lB)])]) := by
  have k : ("coulomb" : String).isEmpty = false := by decide
  simp only [toJson, PairPotential.to_json, name, k, Bool.false_eq_true, if_false, Json.getKey,
    to_json_member, Json.setKey]

theorem from_json_coulomb (E : Env R) (atoms : List (AtomData R)) (lB lB0 : R) :
    PairPotential.from_json E atoms (.obj [("coulomb", .obj [("lB", .num lB)])]) (.coulomb lB0)
      = .error .outOfRange := by
  have k : ("coulomb" : String).isEmpty = false := by decide
  have k1 : List.lookup "coulomb" [("coulomb", (Json.obj [("lB", Json.num lB)] : Json R))]
      = some (.obj [("lB", .num lB)]) := by
    simp [List.lookup]
  have k2 : List.lookup "epsr" [("lB", (Json.num lB : Json R))] = none := by
    simp +decide [List.lookup]
  simp only [PairPotential.from_json, name, k, Bool.false_eq_true, if_false, Json.atKey,
    k1, from_json_member, k2]

theorem toJson_hardsphere (E : Env R) (atoms : List (AtomData R)) (d2 : PairMatrix R) :
    toJson E atoms (.hardsphere d2) =
      .ok (.obj [("hardsphere", .obj [("comment", .str "N/A")])]) := by
  have k : ("hardsphere" : String).isEmpty = false := by decide
  simp only [toJson, PairPotential.to_json, name, k, Bool.false_eq_true, if_false, Json.getKey,
    to_json_member, Json.setKey]

theorem from_json_hardsphere (E : Env R) (atoms : List (AtomData R)) (d2 : PairMatrix R) :
    PairPotential.from_json E atoms (.obj [("hardsphere", .obj [("comment", .str "N/A")])])
      (.hardsphere d2) = .ok (.hardsphere d2) := by
  have k : ("hardsphere" : String).isEmpty = false := by decide
  simp only [PairPotential.from_json, name, k, Bool.false_eq_true, if_false, Json.atKey,
    List.lookup, beq_self_eq_true, from_json_member]

theorem toJson_lennardjones (E : Env R) (atoms : List (AtomData R)) (m : SigmaEpsilonTable R)
    (J : Json R) (h : SigmaEpsilonTable.to_json E atoms .null m = .ok J) :
    toJson E atoms (.lennardjones m) = .ok (.obj [("lennardjones", J)]) := by
  have k : ("lennardjones" : String).isEmpty = false := by decide
  simp only [toJson, PairPotential.to_json, name, k, Bool.false_eq_true, if_false, Json.getKey,
    to_json_member, h, Json.setKey]

theorem from_json_lennardjones (E : Env R) (atoms : List (AtomData R))
    (m0 m : SigmaEpsilonTable R) (J : Json R)
    (h : SigmaEpsilonTable.from_json E atoms J SigmaEpsilonTable.default = .ok m) :
    PairPotential.from_json E atoms (.obj [("lennardjones", J)]) (.lennardjones m0)
      = .ok (.lennardjones m) := by
  have k : ("lennardjones" : String).isEmpty = false := by decide
  simp only [PairPotential.from_json, name, k, Bool.false_eq_true, if_false, Json.atKey,
    List.lookup, beq_self_eq_true, from_json_member, h]

theorem toJson_wca (E : Env R) (atoms : List (AtomData R)) (m : SigmaEpsilonTable R)
    (J : Json R) (h : SigmaEpsilonTable.to_json E atoms .null m = .ok J) :
    toJson E atoms (.wca m) = .ok (.obj [("wca", J)]) := by
  have k : ("wca" : String).isEmpty = false := by decide
  simp only [toJson, PairPotential.to_json, name, k, Bool.false_eq_true, if_false, Json.getKey,
    to_json_member, h, Json.setKey]

theorem from_json_wca (E : Env R) (atoms : List (AtomData R))
    (m0 m : SigmaEpsilonTable R) (J : Json R)
    (h : SigmaEpsilonTable.from_json E atoms J SigmaEpsilonTable.default = .ok m) :
    PairPotential.from_json E atoms (.obj [("wca", J)]) (.wca m0) = .ok (.wca m) := by
  have k : ("wca" : String).isEmpty = false := by decide
  simp only [PairPotential.from_json, name, k, Bool.false_eq_true, if_false, Json.atKey,
    List.lookup, beq_self_eq_true, from_json_member, h]

theorem exEnv_ok : EnvOK exEnv := by
  refine ⟨by norm_num [exEnv], qsqrt_sq, ?_, fun t => rfl, fun t h => h⟩
  intro t
  show 0 ≤ qsqrt t
  unfold qsqrt
  positivity

theorem exAtoms_ok : CatalogOK exAtoms := by
  refine ⟨?_, by decide, ?_⟩
  · intro i hi
    have : i = 0 ∨ i = 1 := by
      simp only [exAtoms, List.length_cons, List.length_nil] at hi
      omega
    rcases this with h | h <;> subst h <;> rfl
  · intro a ha
    simp only [exAtoms, List.mem_cons, List.mem_singleton, List.not_mem_nil, or_false] at ha
    rcases ha with h | h <;> subst h <;> exact ⟨by decide, by decide⟩

theorem to_json_default (E : Env R) (atoms : List (AtomData R)) :
    SigmaEpsilonTable.to_json E atoms .null (SigmaEpsilonTable.default : SigmaEpsilonTable R)
      = .ok (tableRecord .null) := by
  have k1 : keyLt "epsilon unit" "mixing" = true := by decide
  have k2 : keyLt "custom" "epsilon unit" = true := by decide
  have k3 : List.lookup "custom" [("epsilon unit", (Json.str "kJ/mol" : Json R)),
      ("mixing", Json.str "LB = Lorentz-Berthelot")] = none := by
    simp +decide [List.lookup]
  simp only [SigmaEpsilonTable.to_json, Json.setKey, objSet, Json.getKey, k1, k2, k3, if_true,
    Option.getD, SigmaEpsilonTable.default, PairMatrix.empty, List.range_zero, customOuter,
    tableRecord]

/-- C10, refuted as stated: the record `{"coulomb": {"lB": 7}}` that a Coulomb potential
serialises to cannot be parsed, since the parser asks for the member `"epsr"`; and a
default-constructed Lennard-Jones potential serialises to a record with a null custom section
while the potential parsed from that record, whose table covers the two atom types of the
catalog, serialises to a different record. -/
theorem potential_roundtrip_counterexample :
    (toJson exEnv exAtoms (.coulomb 7) = .ok (.obj [("coulomb", .obj [("lB", .num 7)])]) ∧
      PairPotential.from_json exEnv exAtoms (.obj [("coulomb", .obj [("lB", .num 7)])])
        (.coulomb 7) = .error .outOfRange) ∧
    (toJson exEnv exAtoms (.lennardjones SigmaEpsilonTable.default)
        = .ok (.obj [("lennardjones", tableRecord .null)]) ∧
      ∃ x' J', PairPotential.from_json exEnv exAtoms (.obj [("lennardjones", tableRecord .null)])
          (.lennardjones SigmaEpsilonTable.default) = .ok x' ∧
        toJson exEnv exAtoms x' = .ok J' ∧
        J' ≠ .obj [("lennardjones", tableRecord .null)]) := by
  refine ⟨⟨toJson_coulomb _ _ _, from_json_coulomb _ _ _ _⟩,
    toJson_lennardjones _ _ _ _ (to_json_default _ _), ?_⟩
  have hm3 := mixAll_hasSize exEnv exAtoms exAtoms_ok
    { (SigmaEpsilonTable.default : SigmaEpsilonTable ℚ) with
      s2 := (SigmaEpsilonTable.default : SigmaEpsilonTable ℚ).s2.resize exAtoms.length,
      eps := (SigmaEpsilonTable.default : SigmaEpsilonTable ℚ).eps.resize exAtoms.length }
    ⟨rfl, rfl⟩
  obtain ⟨c, h1, _, _, h4, _⟩ := table_to_json_form exEnv exAtoms exAtoms_ok _ hm3
  obtain ⟨kvs, hkvs⟩ := h4 (by simp [exAtoms])
  refine ⟨_, _, from_json_lennardjones _ _ _ _ _ (table_from_json_form exEnv exAtoms .null),
    toJson_lennardjones _ _ _ _ h1, ?_⟩
  rw [hkvs]
  simp [tableRecord]

/-- C10 (as amended): in exact arithmetic and for a catalog whose atom types are identified
by their position and named by pairwise distinct words, serialising a hard-sphere potential,
or a Lennard-Jones or Weeks-Chandler-Andersen potential whose table covers exactly the atom
types of the catalog, gives a record that parses, and serialising the parsed potential gives
the same record; the record of a Coulomb potential does not parse (the member `"epsr"` is
missing). -/
theorem potential_roundtrip (E : Env R) (atoms : List (AtomData R)) (hE : EnvOK E)
    (hc : CatalogOK atoms) :
    (∀ d2 d2' : PairMatrix R, ∃ J, toJson E atoms (.hardsphere d2) = .ok J ∧
      ∃ x', PairPotential.from_json E atoms J (.hardsphere d2') = .ok x' ∧
        toJson E atoms x' = .ok J) ∧
    (∀ m m0 : SigmaEpsilonTable R, m.HasSize atoms.length →
      ∃ J, toJson E atoms (.lennardjones m) = .ok J ∧
      ∃ x', PairPotential.from_json E atoms J (.lennardjones m0) = .ok x' ∧
        toJson E atoms x' = .ok J) ∧
    (∀ m m0 : SigmaEpsilonTable R, m.HasSize atoms.length →
      ∃ J, toJson E atoms (.wca m) = .ok J ∧
      ∃ x', PairPotential.from_json E atoms J (.wca m0) = .ok x' ∧
        toJson E atoms x' = .ok J) ∧
    (∀ lB lB0 : R, ∃ J, toJson E atoms (.coulomb lB) = .ok J ∧
      PairPotential.from_json E atoms J (.coulomb lB0) = .error .outOfRange) := by
  refine ⟨?_, ?_, ?_, ?_⟩
  · intro d2 d2'
    exact ⟨_, toJson_hardsphere E atoms d2, _, from_json_hardsphere E atoms d2',
      toJson_hardsphere E atoms d2'⟩
  · intro m m0 hm
    obtain ⟨J, h1, m', h2, h3⟩ := table_roundtrip E atoms hE hc m hm
    exact ⟨_, toJson_lennardjones E atoms m J h1, _, from_json_lennardjones E atoms m0 m' J h2,
      toJson_lennardjones E atoms m' J h3⟩
  · intro m m0 hm
    obtain ⟨J, h1, m', h2, h3⟩ := table_roundtrip E atoms hE hc m hm
    exact ⟨_, toJson_wca E atoms m J h1, _, from_json_wca E atoms m0 m' J h2,
      toJson_wca E atoms m' J h3⟩
  · intro lB lB0
    exact ⟨_, toJson_coulomb E atoms lB, from_json_coulomb E atoms lB lB0⟩

/-- A witness for C10 as amended: a Lennard-Jones potential over the two-type catalog. -/
theorem potential_roundtrip_witness :
    ∃ J, toJson exEnv exAtoms (.lennardjones
        { mixer := .LB, s2 := ⟨2, fun _ _ => 9⟩, eps := ⟨2, fun _ _ => 4⟩ }) = .ok J ∧
      ∃ x', PairPotential.from_json exEnv exAtoms J
          (.lennardjones SigmaEpsilonTable.default) = .ok x' ∧
        toJson exEnv exAtoms x' = .ok J :=
  (potential_roundtrip exEnv exAtoms exEnv_ok exAtoms_ok).2.1
    { mixer := .LB, s2 := ⟨2, fun _ _ => 9⟩, eps := ⟨2, fun _ _ => 4⟩ }
    SigmaEpsilonTable.default ⟨rfl, rfl⟩

end PotentialRoundTrip


/-! ## Parse errors of bond records -/

section BondErrors

variable {R : Type} [LinearOrderedField R] [FloorRing R]

theorem getInts_length (l : List (Json R)) (idx : List Int) (h : getInts l = .ok idx) :
    idx.length = l.length := by
  induction l generalizing idx with
  | nil =>
    simp only [getInts, Except.ok.injEq] at h
    subst h
    rfl
  | cons j js ih =>
    unfold getInts at h
    cases hj : j.getInt with
    | error e => simp [hj] at h
    | ok i =>
      simp only [hj] at h
      cases hjs : getInts js with
      | error e => simp [hjs] at h
      | ok l' =>
        simp only [hjs, Except.ok.injEq] at h
        subst h
        simp [ih l' hjs]

/-- The steps of `from_json` for a record tagged `"harmonic"`. -/
theorem from_json_harmonic_steps (E : Env R) (val : Json R) (b : BondData R) :
    BondData.from_json E (.obj [("harmonic", val)]) b =
      match val.atKey "index" with
      | .error e => .error e
      | .ok ji =>
        match ji.getIntVector with
        | .error e => .error e
        | .ok index =>
          if index.length ≠ 2 then .error (.runtime "harmonic bond requires exactly two index")
          else
            match val.atKey "k" with
            | .error e => .error e
            | .ok jk =>
              match jk.getDouble with
              | .error e => .error e
              | .ok k =>
                match val.atKey "req" with
                | .error e => .error e
                | .ok jr =>
                  match jr.getDouble with
                  | .error e => .error e
                  | .ok req =>
                    .ok { type := .harmonic, index := index,
                          k := [k * E.kJmol / E.angstrom ^ 2, req * E.angstrom] } := by
  simp only [BondData.from_json, if_true, bind, Except.bind, pure, Except.pure, throw,
    throwThe, MonadExceptOf.throw]
  cases val.atKey "index" with
  | error e => rfl
  | ok ji =>
    simp only
    cases ji.getIntVector with
    | error e => rfl
    | ok index =>
      simp only
      by_cases hl : index.length = 2
      · simp only [hl, ne_eq, not_true_eq_false, if_false]
        cases val.atKey "k" with
        | error e => rfl
        | ok jk =>
          simp only
          cases jk.getDouble with
          | error e => rfl
          | ok k =>
            simp only
            cases val.atKey "req" with
            | error e => rfl
            | ok jr =>
              simp only
              cases jr.getDouble with
              | error e => rfl
              | ok req => rfl
      · simp only [hl, ne_eq, not_false_eq_true, if_true]

/-- The steps of `from_json` for a record tagged `"fene"`. -/
theorem from_json_fene_steps (E : Env R) (val : Json R) (b : BondData R) :
    BondData.from_json E (.obj [("fene", val)]) b =
      match val.atKey "index" with
      | .error e => .error e
      | .ok ji =>
        match ji.getIntVector with
        | .error e => .error e
        | .ok index =>
          if index.length ≠ 2 then .error (.runtime "FENE bond requires exactly two index")
          else
            match val.atKey "k" with
            | .error e => .error e
            | .ok jk =>
              match jk.getDouble with
              | .error e => .error e
              | .ok k =>
                match val.atKey "rmax" with
                | .error e => .error e
                | .ok jr =>
                  match jr.getDouble with
                  | .error e => .error e
                  | .ok rmax =>
                    .ok { type := .fene, index := index,
                          k := [k * E.kJmol / E.angstrom ^ 2, (rmax * E.angstrom) ^ 2] } := by
  have hne : ¬ ("fene" : String) = "harmonic" := by decide
  simp only [BondData.from_json, hne, if_false, if_true, bind, Except.bind, pure, Except.pure,
    throw, throwThe, MonadExceptOf.throw]
  cases val.atKey "index" with
  | error e => rfl
  | ok ji =>
    simp only
    cases ji.getIntVector with
    | error e => rfl
    | ok index =>
      simp only
      by_cases hl : index.length = 2
      · simp only [hl, ne_eq, not_true_eq_false, if_false]
        cases val.atKey "k" with
        | error e => rfl
        | ok jk =>
          simp only
          cases jk.getDouble with
          | error e => rfl
          | ok k =>
            simp only
            cases val.atKey "rmax" with
            | error e => rfl
            | ok jr =>
              simp only
              cases jr.getDouble with
              | error e => rfl
              | ok rmax => rfl
      · simp only [hl, ne_eq, not_false_eq_true, if_true]

theorem bad_index_fails (val : Json R)
    (h : ¬ ∃ l, val.atKey "index" = .ok (.arr l) ∧ l.length = 2) :
    ∀ (msg : String) (rest : List Int → Except JError (BondData R)),
      ∃ e, (match val.atKey "index" with
        | .error e => .error e
        | .ok ji =>
          match ji.getIntVector with
          | .error e => .error e
          | .ok index =>
            if index.length ≠ 2 then .error (.runtime msg) else rest index)
        = (.error e : Except JError (BondData R)) := by
  intro msg rest
  cases h1 : val.atKey "index" with
  | error e => exact ⟨e, rfl⟩
  | ok ji =>
    simp only
    cases h2 : ji.getIntVector with
    | error e => exact ⟨e, rfl⟩
    | ok index =>
      simp only
      have hl : index.length ≠ 2 := by
        intro hl
        cases ji with
        | arr l =>
          simp only [Json.getIntVector] at h2
          exact h ⟨l, h1, by rw [← getInts_length l index h2]; exact hl⟩
        | null => simp [Json.getIntVector] at h2
        | bool _ => simp [Json.getIntVector] at h2
        | num _ => simp [Json.getIntVector] at h2
        | str _ => simp [Json.getIntVector] at h2
        | obj _ => simp [Json.getIntVector] at h2
      exact ⟨_, by rw [if_pos hl]⟩

/-- C11, refuted as stated: parsing the record `{"unknown": ...}` into a bond that is already
harmonic returns normally and leaves the bond as it was. -/
theorem from_json_unknown_counterexample :
    BondData.from_json exEnv exUnknownRecord exBond = .ok exBond := rfl

/-- C11 (as amended): for every record whose single key is not `"harmonic"`, `"fene"` or
`"dihedral"`, `from_json` fails with the error `unknown bondtype` when the target BondData has
type `none` (as a default-constructed one has); when the target has another type, `from_json`
returns normally and leaves the target unchanged. -/
theorem from_json_unknown (E : Env R) (t : String) (val : Json R) (b : BondData R)
    (h1 : t ≠ "harmonic") (h2 : t ≠ "fene") (h3 : t ≠ "dihedral") :
    (b.type = .none →
      BondData.from_json E (.obj [(t, val)]) b = .error (.runtime ("unknown bondtype: " ++ t))) ∧
    (b.type ≠ .none → BondData.from_json E (.obj [(t, val)]) b = .ok b) := by
  constructor
  · intro hb
    simp only [BondData.from_json, h1, h2, h3, hb, if_false, if_true]
    rfl
  · intro hb
    simp only [BondData.from_json, h1, h2, h3, hb, if_false]
    rfl

/-- A witness for C11 as amended: the record `{"unknown": ...}` parsed into a bond of type
`none`. -/
theorem from_json_unknown_witness :
    BondData.from_json exEnv exUnknownRecord ⟨.none, [], []⟩
      = .error (.runtime ("unknown bondtype: " ++ "unknown")) :=
  (from_json_unknown exEnv "unknown" _ ⟨.none, [], []⟩ (by decide) (by decide) (by decide)).1 rfl

/-- C12: `from_json` into a BondData fails for every harmonic or fene record whose index
member is not a list of exactly two entries, for every harmonic record lacking `"k"` or
`"req"`, for every fene record lacking `"k"` or `"rmax"`, and for every record that is not an
object with exactly one key. -/
theorem from_json_malformed (E : Env R) (b : BondData R) :
    (∀ val : Json R, (¬ ∃ l, val.atKey "index" = .ok (.arr l) ∧ l.length = 2) →
      (∃ e, BondData.from_json E (.obj [("harmonic", val)]) b = .error e) ∧
      (∃ e, BondData.from_json E (.obj [("fene", val)]) b = .error e)) ∧
    (∀ val : Json R, ((∀ v, val.atKey "k" ≠ .ok v) ∨ (∀ v, val.atKey "req" ≠ .ok v)) →
      ∃ e, BondData.from_json E (.obj [("harmonic", val)]) b = .error e) ∧
    (∀ val : Json R, ((∀ v, val.atKey "k" ≠ .ok v) ∨ (∀ v, val.atKey "rmax" ≠ .ok v)) →
      ∃ e, BondData.from_json E (.obj [("fene", val)]) b = .error e) ∧
    (∀ j : Json R, (¬ ∃ t val, j = .obj [(t, val)]) →
      BondData.from_json E j b = .error (.runtime "error parsing json to bond")) := by
  refine ⟨?_, ?_, ?_, ?_⟩
  · intro val h
    constructor
    · rw [from_json_harmonic_steps]
      exact bad_index_fails val h _ _
    · rw [from_json_fene_steps]
      exact bad_index_fails val h _ _
  · intro val h
    rw [from_json_harmonic_steps]
    cases h1 : val.atKey "index" with
    | error e => exact ⟨e, rfl⟩
    | ok ji =>
      simp only
      cases h2 : ji.getIntVector with
      | error e => exact ⟨e, rfl⟩
      | ok index =>
        simp only
        by_cases hl : index.length ≠ 2
        · exact ⟨_, by rw [if_pos hl]⟩
        · rw [if_neg hl]
          cases h3 : val.atKey "k" with
          | error e => exact ⟨e, rfl⟩
          | ok jk =>
            simp only
            cases h4 : jk.getDouble with
            | error e => exact ⟨e, rfl⟩
            | ok k =>
              simp only
              cases h5 : val.atKey "req" with
              | error e => exact ⟨e, rfl⟩
              | ok jr =>
                rcases h with h | h
                · exact absurd h3 (h jk)
                · exact absurd h5 (h jr)
  · intro val h
    rw [from_json_fene_steps]
    cases h1 : val.atKey "index" with
    | error e => exact ⟨e, rfl⟩
    | ok ji =>
      simp only
      cases h2 : ji.getIntVector with
      | error e => exact ⟨e, rfl⟩
      | ok index =>
        simp only
        by_cases hl : index.length ≠ 2
        · exact ⟨_, by rw [if_pos hl]⟩
        · rw [if_neg hl]
          cases h3 : val.atKey "k" with
          | error e => exact ⟨e, rfl⟩
          | ok jk =>
            simp only
            cases h4 : jk.getDouble with
            | error e => exact ⟨e, rfl⟩
            | ok k =>
              simp only
              cases h5 : val.atKey "rmax" with
              | error e => exact ⟨e, rfl⟩
              | ok jr =>
                rcases h with h | h
                · exact absurd h3 (h jk)
                · exact absurd h5 (h jr)
  · intro j h
    unfold BondData.from_json
    split
    · rename_i t val
      exact absurd ⟨t, val, rfl⟩ h
    · rfl

/-- A witness for C12: the malformed records of the repository's test, and the empty
object. -/
theorem from_json_malformed_witness :
    (∃ e, BondData.from_json exEnv
      (.obj [("harmonic", .obj [("index", .arr [.num 2]), ("k", .num (1 / 2)),
        ("req", .num (21 / 10))])]) exBond = .error e) ∧
    (∃ e, BondData.from_json exEnv
      (.obj [("harmonic", .obj [("index", .arr [.num 2, .num 3]), ("req", .num (21 / 10))])])
      exBond = .error e) ∧
    (∃ e, BondData.from_json exEnv
      (.obj [("fene", .obj [("index", .arr [.num 2, .num 3]), ("k", .num 1)])])
      exBond = .error e) ∧
    BondData.from_json exEnv (.obj []) exBond = .error (.runtime "error parsing json to bond") :=
  ⟨((from_json_malformed exEnv exBond).1 _ (by
      rintro ⟨l, h1, h2⟩
      simp only [Json.atKey, List.lookup, beq_self_eq_true, Except.ok.injEq,
        Json.arr.injEq] at h1
      subst h1
      simp at h2)).1,
    (from_json_malformed exEnv exBond).2.1 _ (Or.inl (by
      intro v
      simp +decide [Json.atKey, List.lookup])),
    (from_json_malformed exEnv exBond).2.2.1 _ (Or.inr (by
      intro v
      simp +decide [Json.atKey, List.lookup])),
    (from_json_malformed exEnv exBond).2.2.2 _ (by
      rintro ⟨t, val, h⟩
      simp at h)⟩

/-- C13: `BondData::energy` fails, at an assertion, for every bond of type fene, dihedral or
none, whatever the particles and the distance function, and `from_json` fails, at an
assertion, on every record tagged `"dihedral"`. -/
theorem unimplemented_variants_fail (E : Env R) :
    (∀ (index : List Int) (k : List R) (p : List (Particle R))
        (dist : Point R → Point R → Point R),
      BondData.energy E ⟨.fene, index, k⟩ p dist = .error .assertion ∧
      BondData.energy E ⟨.dihedral, index, k⟩ p dist = .error .assertion ∧
      BondData.energy E ⟨.none, index, k⟩ p dist = .error .assertion) ∧
    (∀ (val : Json R) (b : BondData R),
      BondData.from_json E (.obj [("dihedral", val)]) b = .error .assertion) := by
  refine ⟨fun index k p dist => ⟨rfl, rfl, rfl⟩, fun val b => ?_⟩
  have h1 : ¬ ("dihedral" : String) = "harmonic" := by decide
  have h2 : ¬ ("dihedral" : String) = "fene" := by decide
  simp only [BondData.from_json, h1, h2, if_false, if_true]
  rfl

end BondErrors

/-! ## The table built by `from_json`: symmetry and Lorentz-Berthelot values -/

section MatrixSet

variable {R : Type} [Zero R]

theorem PairMatrix.set_covers (m : PairMatrix R) (i j : Nat) (v : R) :
    m.size ≤ (m.set i j v).size ∧ i < (m.set i j v).size ∧ j < (m.set i j v).size := by
  by_cases h : max i j < m.size
  · have hi : i < m.size := lt_of_le_of_lt (le_max_left i j) h
    have hj : j < m.size := lt_of_le_of_lt (le_max_right i j) h
    simp [PairMatrix.set, h, hi, hj]
  · have h1 : i ≤ max i j := le_max_left i j
    have h2 : j ≤ max i j := le_max_right i j
    simp only [PairMatrix.set, h, if_false, PairMatrix.resize]
    omega

theorem PairMatrix.set_hit (m : PairMatrix R) (i j : Nat) (v : R) :
    (m.set i j v).val i j = v ∧ (m.set i j v).val j i = v := by
  simp [PairMatrix.set]

theorem PairMatrix.set_other (m : PairMatrix R) (i j : Nat) (v : R) (a b : Nat)
    (ha : a < m.size) (hb : b < m.size) (h : ¬ ((a = i ∧ b = j) ∨ (a = j ∧ b = i))) :
    (m.set i j v).val a b = m.val a b := by
  by_cases hs : max i j < m.size
  · simp [PairMatrix.set, hs, h]
  · simp [PairMatrix.set, hs, h, PairMatrix.resize, ha, hb]

theorem PairMatrix.set_sym (m : PairMatrix R) (i j : Nat) (v : R) (a b : Nat)
    (h : m.val a b = m.val b a) : (m.set i j v).val a b = (m.set i j v).val b a := by
  by_cases hit : (a = i ∧ b = j) ∨ (a = j ∧ b = i)
  · have hit' : (b = i ∧ a = j) ∨ (b = j ∧ a = i) := by tauto
    simp [PairMatrix.set, hit, hit']
  · have hit' : ¬ ((b = i ∧ a = j) ∨ (b = j ∧ a = i)) := by tauto
    by_cases hs : max i j < m.size
    · simp [PairMatrix.set, hs, hit, hit', h]
    · have e : (a < m.size ∧ b < m.size) ↔ (b < m.size ∧ a < m.size) := and_comm
      simp [PairMatrix.set, hs, hit, hit', PairMatrix.resize, h, e]

end MatrixSet

section TableBuild

variable {R : Type} [LinearOrderedField R]

theorem covers_set (m : SigmaEpsilonTable R) (i j : Nat) (v w : R) (x y : Nat)
    (h : m.Covers x y) :
    ({ m with s2 := m.s2.set i j v, eps := m.eps.set i j w } : SigmaEpsilonTable R).Covers
      x y := by
  obtain ⟨⟨h1, h2⟩, h3, h4⟩ := h
  have a := (PairMatrix.set_covers m.s2 i j v).1
  have b := (PairMatrix.set_covers m.eps i j w).1
  exact ⟨⟨lt_of_lt_of_le h1 a, lt_of_lt_of_le h2 a⟩, lt_of_lt_of_le h3 b, lt_of_lt_of_le h4 b⟩

theorem covers_set_self (m : SigmaEpsilonTable R) (i j : Nat) (v w : R) :
    ({ m with s2 := m.s2.set i j v, eps := m.eps.set i j w } : SigmaEpsilonTable R).Covers
      i j := by
  have a := PairMatrix.set_covers m.s2 i j v
  have b := PairMatrix.set_covers m.eps i j w
  exact ⟨⟨a.2.1, a.2.2⟩, b.2.1, b.2.2⟩

theorem symAt_set (m : SigmaEpsilonTable R) (i j : Nat) (v w : R) (x y : Nat)
    (h : m.SymAt x y) :
    ({ m with s2 := m.s2.set i j v, eps := m.eps.set i j w } : SigmaEpsilonTable R).SymAt
      x y :=
  ⟨covers_set m i j v w x y h.1, PairMatrix.set_sym _ _ _ _ _ _ h.2.1,
    PairMatrix.set_sym _ _ _ _ _ _ h.2.2⟩

theorem symAt_set_self (m : SigmaEpsilonTable R) (i j : Nat) (v w : R) :
    ({ m with s2 := m.s2.set i j v, eps := m.eps.set i j w } : SigmaEpsilonTable R).SymAt
      i j := by
  refine ⟨covers_set_self m i j v w, ?_, ?_⟩
  · simp only
    rw [(PairMatrix.set_hit m.s2 i j v).1, (PairMatrix.set_hit m.s2 i j v).2]
  · simp only
    rw [(PairMatrix.set_hit m.eps i j w).1, (PairMatrix.set_hit m.eps i j w).2]

/-- The double loop over the catalog establishes, for every pair of atom types, a property
that each step establishes for its own pair and preserves for the others. -/
theorem mixAll_establishes (E : Env R) (atoms : List (AtomData R))
    (I : SigmaEpsilonTable R → AtomData R → AtomData R → Prop)
    (est : ∀ m i j, I (mixPair E m i j) i j)
    (pres : ∀ m, ∀ i ∈ atoms, ∀ j ∈ atoms, ∀ a ∈ atoms, ∀ b ∈ atoms,
      I m a b → I (mixPair E m i j) a b)
    (m : SigmaEpsilonTable R) :
    ∀ a ∈ atoms, ∀ b ∈ atoms, I (mixAll E atoms m) a b := by
  have inner : ∀ (cols : List (AtomData R)), (∀ j ∈ cols, j ∈ atoms) → ∀ i ∈ atoms,
      ∀ m : SigmaEpsilonTable R,
      (∀ a ∈ atoms, ∀ b ∈ atoms, I m a b →
        I (cols.foldl (fun acc j => mixPair E acc i j) m) a b) ∧
      (∀ j ∈ cols, I (cols.foldl (fun acc j => mixPair E acc i j) m) i j) := by
    intro cols
    induction cols with
    | nil => intro _ i _ m; exact ⟨fun a _ b _ h => h, fun j hj => by simp at hj⟩
    | cons c cols ih =>
      intro hsub i hi m
      have hc : c ∈ atoms := hsub c (List.mem_cons_self _ _)
      obtain ⟨p1, p2⟩ := ih (fun j hj => hsub j (List.mem_cons_of_mem _ hj)) i hi
        (mixPair E m i c)
      simp only [List.foldl]
      refine ⟨fun a ha b hb h => p1 a ha b hb (pres m i hi c hc a ha b hb h), ?_⟩
      intro j hj
      rcases List.mem_cons.mp hj with hj | hj
      · subst hj
        exact p1 i hi j hc (est m i j)
      · exact p2 j hj
  have outer : ∀ (rows : List (AtomData R)), (∀ i ∈ rows, i ∈ atoms) →
      ∀ m : SigmaEpsilonTable R,
      (∀ a ∈ atoms, ∀ b ∈ atoms, I m a b →
        I (rows.foldl (fun acc i => atoms.foldl (fun acc' j => mixPair E acc' i j) acc) m)
          a b) ∧
      (∀ i ∈ rows, ∀ j ∈ atoms,
        I (rows.foldl (fun acc i => atoms.foldl (fun acc' j => mixPair E acc' i j) acc) m)
          i j) := by
    intro rows
    induction rows with
    | nil => intro _ m; exact ⟨fun a _ b _ h => h, fun i hi => by simp at hi⟩
    | cons r rows ih =>
      intro hsub m
      have hr : r ∈ atoms := hsub r (List.mem_cons_self _ _)
      obtain ⟨q1, q2⟩ := inner atoms (fun j hj => hj) r hr m
      obtain ⟨p1, p2⟩ := ih (fun i hi => hsub i (List.mem_cons_of_mem _ hi))
        (atoms.foldl (fun acc' j => mixPair E acc' r j) m)
      simp only [List.foldl]
      refine ⟨fun a ha b hb h => p1 a ha b hb (q1 a ha b hb h), ?_⟩
      intro i hi j hj
      rcases List.mem_cons.mp hi with hi | hi
      · subst hi
        exact p1 i hr j hj (q2 j hj)
      · exact p2 i hi j hj
  intro a ha b hb
  exact (outer atoms (fun i hi => hi) m).2 a ha b hb

theorem mixAll_symAt (E : Env R) (atoms : List (AtomData R)) (m : SigmaEpsilonTable R) :
    ∀ a ∈ atoms, ∀ b ∈ atoms, (mixAll E atoms m).SymAt a.id b.id :=
  mixAll_establishes E atoms (fun m a b => m.SymAt a.id b.id)
    (fun m i j => symAt_set_self m i.id j.id _ _)
    (fun m i _ j _ a _ b _ h => symAt_set m i.id j.id _ _ a.id b.id h) m

theorem customEntry_symAt (E : Env R) (atoms : List (AtomData R)) (m m' : SigmaEpsilonTable R)
    (kv : String × Json R) (h : customEntry E atoms m kv = .ok m') (x y : Nat)
    (hs : m.SymAt x y) : m'.SymAt x y := by
  unfold customEntry at h
  split at h
  · split at h
    · simp at h
    · split at h
      · simp at h
      · split at h
        · simp at h
        · split at h
          · simp at h
          · split at h
            · simp at h
            · split at h
              · simp at h
              · simp only [Except.ok.injEq] at h
                subst h
                exact symAt_set m _ _ _ _ x y hs
  · simp only [Except.ok.injEq] at h
    subst h
    exact hs

theorem parseCustom_symAt (E : Env R) (atoms : List (AtomData R))
    (kvs : List (String × Json R)) (m m' : SigmaEpsilonTable R)
    (h : parseCustom E atoms kvs m = .ok m') (x y : Nat) (hs : m.SymAt x y) :
    m'.SymAt x y := by
  induction kvs generalizing m with
  | nil =>
    simp only [parseCustom, Except.ok.injEq] at h
    subst h
    exact hs
  | cons kv kvs ih =>
    unfold parseCustom at h
    cases h1 : customEntry E atoms m kv with
    | error e => simp [h1] at h
    | ok m1 =>
      simp only [h1] at h
      exact ih m1 h (customEntry_symAt E atoms m m1 kv h1 x y hs)

theorem from_json_cases (E : Env R) (atoms : List (AtomData R)) (j : Json R)
    (m m' : SigmaEpsilonTable R) (h : SigmaEpsilonTable.from_json E atoms j m = .ok m') :
    ∃ m2 : SigmaEpsilonTable R, m' = mixAll E atoms m2 ∨
      ∃ kvs, parseCustom E atoms kvs (mixAll E atoms m2) = .ok m' := by
  unfold SigmaEpsilonTable.from_json at h
  split at h
  · simp at h
  · simp only at h
    split at h
    · split at h
      · simp at h
      · rename_i kvs _
        exact ⟨_, Or.inr ⟨kvs, h⟩⟩
      · simp only [Except.ok.injEq] at h
        exact ⟨_, Or.inl h.symm⟩
    · simp only [Except.ok.injEq] at h
      exact ⟨_, Or.inl h.symm⟩

/-- C14: whenever `from_json` builds a SigmaEpsilonTable, with or without a `"custom"`
section, the table covers every pair of atom types of the catalog and holds the same `s2` and
the same `eps` for `(i, j)` and `(j, i)`. -/
theorem table_symmetric (E : Env R) (atoms : List (AtomData R)) (j : Json R)
    (m m' : SigmaEpsilonTable R) (h : SigmaEpsilonTable.from_json E atoms j m = .ok m') :
    ∀ a ∈ atoms, ∀ b ∈ atoms, ∃ s e,
      m'.s2.get a.id b.id = .ok s ∧ m'.s2.get b.id a.id = .ok s ∧
      m'.eps.get a.id b.id = .ok e ∧ m'.eps.get b.id a.id = .ok e := by
  intro a ha b hb
  have hsym : m'.SymAt a.id b.id := by
    obtain ⟨m2, h1 | ⟨kvs, h1⟩⟩ := from_json_cases E atoms j m m' h
    · rw [h1]
      exact mixAll_symAt E atoms m2 a ha b hb
    · exact parseCustom_symAt E atoms kvs _ m' h1 _ _ (mixAll_symAt E atoms m2 a ha b hb)
  obtain ⟨⟨⟨c1, c2⟩, c3, c4⟩, s1, s2⟩ := hsym
  refine ⟨m'.s2.val a.id b.id, m'.eps.val a.id b.id, ?_, ?_, ?_, ?_⟩
  · simp [PairMatrix.get, c1, c2]
  · simp [PairMatrix.get, c1, c2, s1]
  · simp [PairMatrix.get, c3, c4]
  · simp [PairMatrix.get, c3, c4, s2]

/-- A witness for C14: a record with a custom section for the pair of `Na` and `Cl`. -/
theorem table_symmetric_witness :
    ∃ m' s e, SigmaEpsilonTable.from_json exEnv exAtoms exCustomRecord
        SigmaEpsilonTable.default = .ok m' ∧
      m'.s2.get 0 1 = .ok s ∧ m'.s2.get 1 0 = .ok s ∧
      m'.eps.get 0 1 = .ok e ∧ m'.eps.get 1 0 = .ok e := by
  have h : ∃ m', SigmaEpsilonTable.from_json exEnv exAtoms exCustomRecord
      SigmaEpsilonTable.default = .ok m' := ⟨_, rfl⟩
  obtain ⟨m', hm⟩ := h
  obtain ⟨s, e, h1, h2, h3, h4⟩ := table_symmetric exEnv exAtoms exCustomRecord
    SigmaEpsilonTable.default m' hm
    ⟨"Na", 0, 2, 1⟩ (by simp [exAtoms]) ⟨"Cl", 1, 4, 4⟩ (by simp [exAtoms])
  exact ⟨m', s, e, hm, h1, h2, h3, h4⟩

theorem mixedAt_est (E : Env R) (m : SigmaEpsilonTable R) (i j : AtomData R) :
    (mixPair E m i j).MixedAt E i j := by
  refine ⟨covers_set_self m i.id j.id _ _, ?_, ?_⟩
  · simp only [mixPair, mixerFunc]
    rw [(PairMatrix.set_hit m.s2 i.id j.id _).1]
    ring
  · simp only [mixPair, mixerFunc]
    rw [(PairMatrix.set_hit m.eps i.id j.id _).1]

theorem mixedAt_pres (E : Env R) (atoms : List (AtomData R))
    (hid : (atoms.map AtomData.id).Nodup) (m : SigmaEpsilonTable R)
    (i : AtomData R) (hi : i ∈ atoms) (j : AtomData R) (hj : j ∈ atoms)
    (a : AtomData R) (ha : a ∈ atoms) (b : AtomData R) (hb : b ∈ atoms)
    (h : m.MixedAt E a b) : (mixPair E m i j).MixedAt E a b := by
  have inj := List.inj_on_of_nodup_map hid
  by_cases hit : (a.id = i.id ∧ b.id = j.id) ∨ (a.id = j.id ∧ b.id = i.id)
  · rcases hit with ⟨h1, h2⟩ | ⟨h1, h2⟩
    · have e1 : a = i := inj ha hi h1
      have e2 : b = j := inj hb hj h2
      subst e1 e2
      exact mixedAt_est E m a b
    · have e1 : a = j := inj ha hj h1
      have e2 : b = i := inj hb hi h2
      subst e1 e2
      refine ⟨covers_set m b.id a.id _ _ a.id b.id h.1, ?_, ?_⟩
      · simp only [mixPair, mixerFunc]
        rw [(PairMatrix.set_hit m.s2 b.id a.id _).2]
        ring
      · simp only [mixPair, mixerFunc]
        rw [(PairMatrix.set_hit m.eps b.id a.id _).2, mul_comm b.eps a.eps]
  · obtain ⟨⟨⟨c1, c2⟩, c3, c4⟩, v1, v2⟩ := h
    refine ⟨covers_set m i.id j.id _ _ a.id b.id ⟨⟨c1, c2⟩, c3, c4⟩, ?_, ?_⟩
    · simp only [mixPair]
      rw [PairMatrix.set_other m.s2 i.id j.id _ a.id b.id c1 c2 hit, v1]
    · simp only [mixPair]
      rw [PairMatrix.set_other m.eps i.id j.id _ a.id b.id c3 c4 hit, v2]

/-- C15: for a catalog with pairwise distinct identifiers and a record without a `"custom"`
section (an object whose `"mixing"` member, if any, is a string), `from_json` builds a table
that, for every ordered pair of atom types `(a, b)` of the catalog, holds
`s2 = ((sigma_a + sigma_b)/2)^2` and `eps = 4*sqrt(eps_a*eps_b)`; no pair is left unset. -/
theorem from_json_mixes (E : Env R) (atoms : List (AtomData R))
    (hid : (atoms.map AtomData.id).Nodup) (kvs : List (String × Json R))
    (m : SigmaEpsilonTable R) (hc : kvs.lookup "custom" = none)
    (hm : kvs.lookup "mixing" = none ∨ ∃ s, kvs.lookup "mixing" = some (.str s)) :
    ∃ m', SigmaEpsilonTable.from_json E atoms (.obj kvs) m = .ok m' ∧
      ∀ a ∈ atoms, ∀ b ∈ atoms,
        m'.s2.get a.id b.id = .ok (((a.sigma + b.sigma) / 2) ^ 2) ∧
        m'.eps.get a.id b.id = .ok (4 * E.sqrt (a.eps * b.eps)) := by
  have hv : ∃ s, (Json.obj kvs).valueStr "mixing" "LB" = .ok s := by
    rcases hm with hm | ⟨s, hm⟩
    · exact ⟨"LB", by simp [Json.valueStr, hm]⟩
    · exact ⟨s, by simp [Json.valueStr, hm, Json.getString]⟩
  obtain ⟨s, hs⟩ := hv
  have hcount : ¬ (Json.obj kvs).count "custom" = 1 := by simp [Json.count, hc]
  have hok : ∃ m', SigmaEpsilonTable.from_json E atoms (.obj kvs) m = .ok m' ∧
      ∃ m2, m' = mixAll E atoms m2 := by
    unfold SigmaEpsilonTable.from_json
    rw [hs]
    simp only [hcount, if_false]
    split <;> exact ⟨_, rfl, _, rfl⟩
  obtain ⟨m', h1, m2, h2⟩ := hok
  refine ⟨m', h1, fun a ha b hb => ?_⟩
  have hmix : m'.MixedAt E a b := by
    rw [h2]
    exact mixAll_establishes E atoms (fun m a b => m.MixedAt E a b) (mixedAt_est E)
      (mixedAt_pres E atoms hid) m2 a ha b hb
  obtain ⟨⟨⟨c1, c2⟩, c3, c4⟩, v1, v2⟩ := hmix
  constructor
  · simp [PairMatrix.get, c1, c2, v1]
  · simp [PairMatrix.get, c3, c4, v2]

/-- A witness for C15: the empty object and the catalog of `Na` and `Cl`. -/
theorem from_json_mixes_witness :
    ∃ m', SigmaEpsilonTable.from_json exEnv exAtoms (.obj []) SigmaEpsilonTable.default
        = .ok m' ∧
      m'.s2.get 0 1 = .ok (((2 + 4) / 2) ^ 2) ∧ m'.eps.get 0 1 = .ok (4 * qsqrt (1 * 4)) := by
  obtain ⟨m', h1, h2⟩ := from_json_mixes exEnv exAtoms (by decide) []
    SigmaEpsilonTable.default rfl (Or.inl rfl)
  exact ⟨m', h1, h2 ⟨"Na", 0, 2, 1⟩ (by simp [exAtoms]) ⟨"Cl", 1, 4, 4⟩ (by simp [exAtoms])⟩

end TableBuild

/-! ## Lennard-Jones and Weeks-Chandler-Andersen -/

section EnergyLaws

variable {R : Type} [LinearOrderedField R]

theorem squaredNorm_nonneg (r : Point R) : 0 ≤ r.squaredNorm := by
  unfold Point.squaredNorm
  have h1 := mul_self_nonneg r.x
  have h2 := mul_self_nonneg r.y
  have h3 := mul_self_nonneg r.z
  linarith

theorem squaredNorm_pos (r : Point R)
    (h : r ≠ Point.zero) : 0 < r.squaredNorm := by
  rcases lt_or_eq_of_le (squaredNorm_nonneg r) with h0 | h0
  · exact h0
  · exfalso
    apply h
    have h1 := mul_self_nonneg r.x
    have h2 := mul_self_nonneg r.y
    have h3 := mul_self_nonneg r.z
    unfold Point.squaredNorm at h0
    have e1 : r.x * r.x = 0 := by linarith
    have e2 : r.y * r.y = 0 := by linarith
    have e3 : r.z * r.z = 0 := by linarith
    have f1 : r.x = 0 := mul_self_eq_zero.mp e1
    have f2 : r.y = 0 := mul_self_eq_zero.mp e2
    have f3 : r.z = 0 := mul_self_eq_zero.mp e3
    cases r
    simp only [Point.zero, Point.mk.injEq]
    exact ⟨f1, f2, f3⟩

/-- C16: for particles whose pair the table covers and a separation vector `r` of non-zero
length, the Lennard-Jones energy is `eps * ((s2/|r|^2)^6 - (s2/|r|^2)^3)` with the table
entries `s2` and `eps`, which is `4*epsilon*((sigma/|r|)^12 - (sigma/|r|)^6)` when
`s2 = sigma^2` and `eps = 4*epsilon`, and it is 0 at `|r|^2 = s2`, that is at `|r| = sigma`. -/
theorem lennardjones_energy (m : SigmaEpsilonTable R) (a b : Particle R) (r : Point R)
    (s2 eps : R) (hs : m.s2.get a.id b.id = .ok s2) (he : m.eps.get a.id b.id = .ok eps)
    (hr : r ≠ Point.zero) :
    LennardJones.energy m a b r
      = .ok (eps * ((s2 / r.squaredNorm) ^ 6 - (s2 / r.squaredNorm) ^ 3)) ∧
    (∀ sigma epsilon rho : R, s2 = sigma ^ 2 → eps = 4 * epsilon → rho ^ 2 = r.squaredNorm →
      LennardJones.energy m a b r
        = .ok (4 * epsilon * ((sigma / rho) ^ 12 - (sigma / rho) ^ 6))) ∧
    (r.squaredNorm = s2 → LennardJones.energy m a b r = .ok 0) := by
  have hr0 : r.squaredNorm ≠ 0 := ne_of_gt (squaredNorm_pos r hr)
  have h0 : LennardJones.energy m a b r
      = .ok (eps * ((s2 / r.squaredNorm) ^ 6 - (s2 / r.squaredNorm) ^ 3)) := by
    simp only [LennardJones.energy, hs, he]
    congr 1
    ring
  refine ⟨h0, ?_, ?_⟩
  · intro sigma epsilon rho h1 h2 h3
    rw [h0, h1, h2, ← h3]
    congr 1
    rw [← div_pow]
    ring
  · intro h
    rw [h0, h, div_self (by rw [← h]; exact hr0)]
    congr 1
    ring

/-- A witness for C16: two particles of one type at the separation `(1, 0, 0)`. -/
theorem lennardjones_energy_witness :
    LennardJones.energy (unitTable : SigmaEpsilonTable ℚ) originParticle originParticle unitX
      = .ok 0 :=
  (lennardjones_energy unitTable originParticle originParticle unitX 1 4 rfl rfl
    (by simp [unitX, Point.zero])).2.2 (by norm_num [Point.squaredNorm, unitX])

/-- The Weeks-Chandler-Andersen energy and force at and beyond the cutoff when the member
`twototwosixth` is the cube root of 2 exactly (`twototwosixth^3 = 2`, which no machine number
satisfies): for particles whose pair the table covers and every non-zero squared separation
`r2 ≥ s2 * twototwosixth`, the energy is 0 and the force is the zero vector. -/
theorem wca_zero_at_ideal_cutoff (E : Env R) (hc : E.twototwosixth ^ 3 = 2)
    (m : SigmaEpsilonTable R) (a b : Particle R) (s2 eps : R)
    (hs : m.s2.get a.id b.id = .ok s2) (he : m.eps.get a.id b.id = .ok eps)
    (r2 : R) (hpos : 0 < r2) (hcut : s2 * E.twototwosixth ≤ r2) :
    WeeksChandlerAndersen.energy2 E m a b r2 = .ok 0 ∧
    (∀ p : Point R, WeeksChandlerAndersen.force E m a b r2 p = .ok Point.zero) := by
  have hc0 : E.twototwosixth ≠ 0 := by
    intro h
    rw [h] at hc
    norm_num at hc
  have key : ¬ r2 > s2 * E.twototwosixth →
      (s2 / r2) * (s2 / r2) * (s2 / r2) = 1 / 2 := by
    intro hgt
    have heq : r2 = s2 * E.twototwosixth := le_antisymm (not_lt.mp hgt) hcut
    have hs0 : s2 ≠ 0 := by
      intro h
      rw [h, zero_mul] at heq
      exact absurd heq (ne_of_gt hpos)
    rw [heq]
    have : s2 / (s2 * E.twototwosixth) = 1 / E.twototwosixth := by
      field_simp
    rw [this]
    have e : 1 / E.twototwosixth * (1 / E.twototwosixth) * (1 / E.twototwosixth)
        = 1 / E.twototwosixth ^ 3 := by
      field_simp
      ring
    rw [e, hc]
  refine ⟨?_, ?_⟩
  · simp only [WeeksChandlerAndersen.energy2, hs, he]
    by_cases hgt : r2 > s2 * E.twototwosixth
    · rw [if_pos hgt]
    · rw [if_neg hgt, key hgt]
      congr 1
      ring
  · intro p
    simp only [WeeksChandlerAndersen.force, hs, he]
    by_cases hgt : r2 > s2 * E.twototwosixth
    · rw [if_pos hgt]
    · rw [if_neg hgt]
      have k := key hgt
      have e : eps * 6 * (2 * (s2 / r2 * (s2 / r2) * (s2 / r2))
          * (s2 / r2 * (s2 / r2) * (s2 / r2)) - s2 / r2 * (s2 / r2) * (s2 / r2)) / r2 = 0 := by
        rw [mul_assoc 2, k]
        norm_num
      rw [e]
      simp [Point.smul, Point.zero]

/-- C17, refuted as stated: with `s2 = 1`, `eps = 4` and the machine value of `twototwosixth`,
the separation vector `cutoffSeparation` has the squared length `twototwosixth`, which is not
below `2^(1/3) * s2` (its cube is at least `2 * s2^3`), yet the code does not take the branch
that returns zero and the force has a negative first component. -/
theorem wca_zero_from_cutoff_counterexample :
    (unitTable : SigmaEpsilonTable ℚ).s2.get (originParticle : Particle ℚ).id (originParticle : Particle ℚ).id = .ok 1 ∧
    cutoffSeparation.squaredNorm = twototwosixthDouble ∧
    2 * (1 : ℚ) ^ 3 ≤ cutoffSeparation.squaredNorm ^ 3 ∧
    ∃ f, WeeksChandlerAndersen.force (unitEnv qsqrt twototwosixthDouble) unitTable
        originParticle originParticle cutoffSeparation.squaredNorm cutoffSeparation = .ok f ∧
      f.x < 0 := by
  have hn : cutoffSeparation.squaredNorm = twototwosixthDouble := by
    norm_num [Point.squaredNorm, cutoffSeparation, twototwosixthDouble]
  refine ⟨rfl, hn, ?_, ?_⟩
  · rw [hn]
    norm_num [twototwosixthDouble]
  · rw [hn]
    have hs : (unitTable : SigmaEpsilonTable ℚ).s2.get (originParticle : Particle ℚ).id (originParticle : Particle ℚ).id
        = .ok 1 := rfl
    have he : (unitTable : SigmaEpsilonTable ℚ).eps.get (originParticle : Particle ℚ).id (originParticle : Particle ℚ).id
        = .ok 4 := rfl
    have hgt : ¬ twototwosixthDouble > 1 * (unitEnv qsqrt twototwosixthDouble).twototwosixth := by
      show ¬ twototwosixthDouble > 1 * twototwosixthDouble
      rw [one_mul]
      exact lt_irrefl _
    have hf : WeeksChandlerAndersen.force (unitEnv qsqrt twototwosixthDouble) unitTable
        originParticle originParticle twototwosixthDouble cutoffSeparation
        = .ok (Point.smul (4 * 6 *
            (2 * (1 / twototwosixthDouble * (1 / twototwosixthDouble)
                * (1 / twototwosixthDouble))
              * (1 / twototwosixthDouble * (1 / twototwosixthDouble)
                * (1 / twototwosixthDouble))
              - 1 / twototwosixthDouble * (1 / twototwosixthDouble)
                * (1 / twototwosixthDouble)) / twototwosixthDouble) cutoffSeparation) := by
      simp only [WeeksChandlerAndersen.force, hs, he, if_neg hgt]
    refine ⟨_, hf, ?_⟩
    norm_num [Point.smul, cutoffSeparation, twototwosixthDouble]

/-- C17 (as amended): for particles whose pair the table covers and every squared separation
`r2` strictly beyond the cutoff of the code, `r2 > s2 * twototwosixth`, the
Weeks-Chandler-Andersen energy is 0, for the squared distance and for every vector of that
squared length, and the force is the zero vector. -/
theorem wca_zero_from_cutoff (E : Env R) (m : SigmaEpsilonTable R) (a b : Particle R) (s2 : R)
    (hs : m.s2.get a.id b.id = .ok s2) (r2 : R) (hcut : s2 * E.twototwosixth < r2) :
    WeeksChandlerAndersen.energy2 E m a b r2 = .ok 0 ∧
    (∀ r : Point R, r.squaredNorm = r2 → WeeksChandlerAndersen.energy E m a b r = .ok 0) ∧
    (∀ p : Point R, WeeksChandlerAndersen.force E m a b r2 p = .ok Point.zero) := by
  have hgt : r2 > s2 * E.twototwosixth := hcut
  have h1 : WeeksChandlerAndersen.energy2 E m a b r2 = .ok 0 := by
    simp only [WeeksChandlerAndersen.energy2, hs, if_pos hgt]
  refine ⟨h1, ?_, ?_⟩
  · intro r hr
    unfold WeeksChandlerAndersen.energy
    rw [hr]
    exact h1
  · intro p
    simp only [WeeksChandlerAndersen.force, hs, if_pos hgt]

/-- A witness for C17 as amended: the squared separation 2 with `s2 = 1` and the machine value
of `twototwosixth`. -/
theorem wca_zero_from_cutoff_witness :
    WeeksChandlerAndersen.energy2 (unitEnv qsqrt twototwosixthDouble) unitTable
      originParticle originParticle 2 = .ok 0 ∧
    WeeksChandlerAndersen.force (unitEnv qsqrt twototwosixthDouble) unitTable
      originParticle originParticle 2 unitX = .ok Point.zero :=
  ⟨(wca_zero_from_cutoff (unitEnv qsqrt twototwosixthDouble) unitTable originParticle
      originParticle 1 rfl 2 (by norm_num [unitEnv, twototwosixthDouble])).1,
    (wca_zero_from_cutoff (unitEnv qsqrt twototwosixthDouble) unitTable originParticle
      originParticle 1 rfl 2 (by norm_num [unitEnv, twototwosixthDouble])).2.2 unitX⟩

/-- C18: for particles whose pair the table covers and a separation vector `r` with
`0 < |r|^2 ≤ 2^(1/3) * s2`, the Weeks-Chandler-Andersen energy is the Lennard-Jones energy of
the same pair and separation plus `eps/4`. -/
theorem wca_is_shifted_lennardjones (E : Env R) (m : SigmaEpsilonTable R) (a b : Particle R)
    (s2 eps : R) (hs : m.s2.get a.id b.id = .ok s2) (he : m.eps.get a.id b.id = .ok eps)
    (r : Point R) (hpos : 0 < r.squaredNorm) (hin : r.squaredNorm ≤ s2 * E.twototwosixth) :
    ∃ lj, LennardJones.energy m a b r = .ok lj ∧
      WeeksChandlerAndersen.energy E m a b r = .ok (lj + eps / 4) := by
  have _ := hpos
  have hlj : LennardJones.energy m a b r
      = .ok (eps * (s2 / r.squaredNorm * (s2 / r.squaredNorm) * (s2 / r.squaredNorm)
          * (s2 / r.squaredNorm * (s2 / r.squaredNorm) * (s2 / r.squaredNorm))
          - s2 / r.squaredNorm * (s2 / r.squaredNorm) * (s2 / r.squaredNorm))) := by
    simp only [LennardJones.energy, hs, he]
  refine ⟨_, hlj, ?_⟩
  have hgt : ¬ r.squaredNorm > s2 * E.twototwosixth := not_lt.mpr hin
  simp only [WeeksChandlerAndersen.energy, WeeksChandlerAndersen.energy2, hs, he, if_neg hgt]
  congr 1
  ring

/-- A witness for C18: the separation `(1, 0, 0)` with `s2 = 1` and `eps = 4`. -/
theorem wca_is_shifted_lennardjones_witness :
    ∃ lj, LennardJones.energy (unitTable : SigmaEpsilonTable ℚ) originParticle originParticle
        unitX = .ok lj ∧
      WeeksChandlerAndersen.energy exEnv unitTable originParticle originParticle unitX
        = .ok (lj + 4 / 4) :=
  wca_is_shifted_lennardjones exEnv unitTable originParticle originParticle 1 4 rfl rfl unitX
    (by norm_num [Point.squaredNorm, unitX]) (by norm_num [Point.squaredNorm, unitX, exEnv])

/-! ## Combined potentials -/

theorem addEnergy_assoc (u v w : Except JError (WithTop R)) :
    addEnergy (addEnergy u v) w = addEnergy u (addEnergy v w) := by
  cases u with
  | error e => rfl
  | ok x =>
    cases v with
    | error e => rfl
    | ok y =>
      cases w with
      | error e => rfl
      | ok z => simp only [addEnergy, add_assoc]

/-- C20: the combined potential `A + B` evaluates to `A(a,b,r) + B(a,b,r)`; `(A+B)+C` and
`A+(B+C)` evaluate to the same energy; and combining a potential `P` with `Dummy` on either
side evaluates to `P(a,b,r)`. -/
theorem combined_energy (E : Env R) (A B C : Potential R) (a b : Particle R) (r : Point R) :
    (∀ u v, A.energy E a b r = .ok u → B.energy E a b r = .ok v →
      (Potential.combined A B).energy E a b r = .ok (u + v)) ∧
    (Potential.combined (Potential.combined A B) C).energy E a b r
      = (Potential.combined A (Potential.combined B C)).energy E a b r ∧
    (Potential.combined A Potential.dummy).energy E a b r = A.energy E a b r ∧
    (Potential.combined Potential.dummy A).energy E a b r = A.energy E a b r := by
  refine ⟨?_, ?_, ?_, ?_⟩
  · intro u v hu hv
    simp only [Potential.energy, hu, hv, addEnergy]
  · simp only [Potential.energy]
    exact addEnergy_assoc _ _ _
  · simp only [Potential.energy]
    cases A.energy E a b r with
    | error e => rfl
    | ok x => simp only [addEnergy, add_zero]
  · simp only [Potential.energy]
    cases A.energy E a b r with
    | error e => rfl
    | ok x => simp only [addEnergy, zero_add]

/-- A witness for C20: a Coulomb potential combined with a hard-sphere potential. -/
theorem combined_energy_witness :
    (Potential.combined (.base (.coulomb 7)) (.base (.hardsphere ⟨1, fun _ _ => 4⟩))).energy
      exEnv originParticle originParticle unitX
      = .ok (((Coulomb.energy exEnv 7 originParticle originParticle unitX : ℚ) : WithTop ℚ)
          + ⊤) :=
  (combined_energy exEnv (.base (.coulomb 7)) (.base (.hardsphere ⟨1, fun _ _ => 4⟩))
    .dummy originParticle originParticle unitX).1 _ _ rfl
    (by
      simp only [Potential.energy, PairPotential.energy, HardSphere.energy, PairMatrix.get]
      norm_num [originParticle, Point.squaredNorm, unitX])

end EnergyLaws

/-! ## Forces as negative gradients -/

section Forces

theorem squaredNorm_smul {R : Type} [LinearOrderedField R] (t : R) (u : Point R)
    (hu : u.squaredNorm = 1) : (Point.smul t u).squaredNorm = t ^ 2 := by
  unfold Point.squaredNorm at *
  simp only [Point.smul]
  have : t * u.x * (t * u.x) + t * u.y * (t * u.y) + t * u.z * (t * u.z)
      = t ^ 2 * (u.x * u.x + u.y * u.y + u.z * u.z) := by ring
  rw [this, hu, mul_one]

theorem hasDerivAt_lj_law (s2 eps c t0 : ℝ) (ht : t0 ≠ 0) :
    HasDerivAt (fun t : ℝ => eps * ((s2 / t ^ 2) ^ 6 - (s2 / t ^ 2) ^ 3 + c))
      (eps * (6 * s2 ^ 3 * t0 ^ 6 - 12 * s2 ^ 6) / t0 ^ 13) t0 := by
  have hpow : HasDerivAt (fun t : ℝ => t ^ 2) (2 * t0) t0 := by
    simpa using (hasDerivAt_id t0).pow 2
  have hne : t0 ^ 2 ≠ 0 := pow_ne_zero 2 ht
  have hdiv := (hasDerivAt_const t0 s2).div hpow hne
  have h := (((hdiv.pow 6).sub (hdiv.pow 3)).add_const c).const_mul eps
  convert h using 1
  field_simp
  ring

/-- C19: over the real numbers, for particles whose pair the table covers and every non-zero
vector `p`, the Lennard-Jones `force(a, b, |p|^2, p)` is `-(dU/dr)(|p|) * p/|p|`, where
`U(t)` is the Lennard-Jones energy at a separation vector of length `t` (`t` times a unit
vector `u`); the same holds for Weeks-Chandler-Andersen when `|p|^2 < 2^(1/3) * s2`. -/
theorem force_is_negative_gradient (E : Env ℝ) (m : SigmaEpsilonTable ℝ) (a b : Particle ℝ)
    (s2 eps : ℝ) (hs : m.s2.get a.id b.id = .ok s2) (he : m.eps.get a.id b.id = .ok eps)
    (p : Point ℝ) (hp : p ≠ Point.zero) (u : Point ℝ) (hu : u.squaredNorm = 1) :
    (∃ dU : ℝ,
      HasDerivAt (fun t => okValue (LennardJones.energy m a b (Point.smul t u))) dU
        (Real.sqrt p.squaredNorm) ∧
      LennardJones.force m a b p.squaredNorm p
        = .ok (Point.smul (-dU / Real.sqrt p.squaredNorm) p)) ∧
    (p.squaredNorm < s2 * E.twototwosixth →
      ∃ dU : ℝ,
        HasDerivAt (fun t => okValue (WeeksChandlerAndersen.energy E m a b (Point.smul t u))) dU
          (Real.sqrt p.squaredNorm) ∧
        WeeksChandlerAndersen.force E m a b p.squaredNorm p
          = .ok (Point.smul (-dU / Real.sqrt p.squaredNorm) p)) := by
  have hpos : 0 < p.squaredNorm := squaredNorm_pos p hp
  have ht0 : 0 < Real.sqrt p.squaredNorm := Real.sqrt_pos.mpr hpos
  have hsq : Real.sqrt p.squaredNorm ^ 2 = p.squaredNorm := Real.sq_sqrt hpos.le
  generalize Real.sqrt p.squaredNorm = t0 at ht0 hsq
  have hne : t0 ≠ 0 := ne_of_gt ht0
  constructor
  · refine ⟨eps * (6 * s2 ^ 3 * t0 ^ 6 - 12 * s2 ^ 6) / t0 ^ 13, ?_, ?_⟩
    · have hfun : (fun t => okValue (LennardJones.energy m a b (Point.smul t u)))
          = fun t : ℝ => eps * ((s2 / t ^ 2) ^ 6 - (s2 / t ^ 2) ^ 3 + 0) := by
        funext t
        simp only [LennardJones.energy, hs, he, okValue, squaredNorm_smul t u hu]
        ring
      rw [hfun]
      exact hasDerivAt_lj_law s2 eps 0 t0 hne
    · simp only [LennardJones.force, hs, he, ← hsq]
      congr 2
      field_simp
      ring
  · intro hin
    refine ⟨eps * (6 * s2 ^ 3 * t0 ^ 6 - 12 * s2 ^ 6) / t0 ^ 13, ?_, ?_⟩
    · have hlaw := hasDerivAt_lj_law s2 eps (1 / 4) t0 hne
      refine hlaw.congr_of_eventuallyEq ?_
      have hev : ∀ᶠ t in nhds t0, t ^ 2 < s2 * E.twototwosixth := by
        have hc : ContinuousAt (fun t : ℝ => t ^ 2) t0 := (continuous_pow 2).continuousAt
        exact hc.eventually (Iio_mem_nhds (by show t0 ^ 2 < _; rw [hsq]; exact hin))
      filter_upwards [hev] with t ht
      have hgt : ¬ t ^ 2 > s2 * E.twototwosixth := not_lt.mpr ht.le
      simp only [WeeksChandlerAndersen.energy, WeeksChandlerAndersen.energy2, hs, he, okValue,
        squaredNorm_smul t u hu, if_neg hgt]
      ring
    · have hgt : ¬ p.squaredNorm > s2 * E.twototwosixth := not_lt.mpr hin.le
      simp only [WeeksChandlerAndersen.force, hs, he, if_neg hgt]
      rw [← hsq]
      congr 2
      field_simp
      ring

/-- A witness for C19: over the real numbers, the unit vector `(1, 0, 0)` with `s2 = 1`,
`eps = 4` and the cutoff factor `5/4`. -/
theorem force_is_negative_gradient_witness :
    (∃ dU : ℝ,
      HasDerivAt (fun t => okValue (LennardJones.energy (unitTable : SigmaEpsilonTable ℝ)
        originParticle originParticle (Point.smul t unitX))) dU
        (Real.sqrt (unitX : Point ℝ).squaredNorm) ∧
      LennardJones.force (unitTable : SigmaEpsilonTable ℝ) originParticle originParticle
        (unitX : Point ℝ).squaredNorm unitX
        = .ok (Point.smul (-dU / Real.sqrt (unitX : Point ℝ).squaredNorm) unitX)) ∧
    (∃ dU : ℝ,
      HasDerivAt (fun t => okValue (WeeksChandlerAndersen.energy (unitEnv Real.sqrt (5 / 4))
        (unitTable : SigmaEpsilonTable ℝ) originParticle originParticle (Point.smul t unitX)))
        dU (Real.sqrt (unitX : Point ℝ).squaredNorm) ∧
      WeeksChandlerAndersen.force (unitEnv Real.sqrt (5 / 4))
        (unitTable : SigmaEpsilonTable ℝ) originParticle originParticle
        (unitX : Point ℝ).squaredNorm unitX
        = .ok (Point.smul (-dU / Real.sqrt (unitX : Point ℝ).squaredNorm) unitX)) :=
  ⟨(force_is_negative_gradient (unitEnv Real.sqrt (5 / 4)) unitTable originParticle
      originParticle 1 4 rfl rfl unitX (by simp [unitX, Point.zero]) unitX
      (by norm_num [Point.squaredNorm, unitX])).1,
    (force_is_negative_gradient (unitEnv Real.sqrt (5 / 4)) unitTable originParticle
      originParticle 1 4 rfl rfl unitX (by simp [unitX, Point.zero]) unitX
      (by norm_num [Point.squaredNorm, unitX])).2
      (by norm_num [Point.squaredNorm, unitX, unitEnv])⟩

end Forces


/-! ## The hard-sphere potential -/

/-- A double loop over the catalog establishes, for every pair of atom types, a property that
each step establishes for its own pair and preserves for the other pairs. -/
theorem pairLoop_establishes {R S : Type} (atoms : List (AtomData R))
    (step : S → AtomData R → AtomData R → S) (I : S → AtomData R → AtomData R → Prop)
    (est : ∀ m i j, I (step m i j) i j)
    (pres : ∀ m, ∀ i ∈ atoms, ∀ j ∈ atoms, ∀ a ∈ atoms, ∀ b ∈ atoms,
      I m a b → I (step m i j) a b)
    (m : S) :
    ∀ a ∈ atoms, ∀ b ∈ atoms,
      I (atoms.foldl (fun acc i => atoms.foldl (fun acc' j => step acc' i j) acc) m) a b := by
  have inner : ∀ (cols : List (AtomData R)), (∀ j ∈ cols, j ∈ atoms) → ∀ i ∈ atoms, ∀ m : S,
      (∀ a ∈ atoms, ∀ b ∈ atoms, I m a b → I (cols.foldl (fun acc j => step acc i j) m) a b) ∧
      (∀ j ∈ cols, I (cols.foldl (fun acc j => step acc i j) m) i j) := by
    intro cols
    induction cols with
    | nil => intro _ i _ m; exact ⟨fun a _ b _ h => h, fun j hj => by simp at hj⟩
    | cons c cols ih =>
      intro hsub i hi m
      have hc : c ∈ atoms := hsub c (List.mem_cons_self _ _)
      obtain ⟨p1, p2⟩ := ih (fun j hj => hsub j (List.mem_cons_of_mem _ hj)) i hi (step m i c)
      simp only [List.foldl]
      refine ⟨fun a ha b hb h => p1 a ha b hb (pres m i hi c hc a ha b hb h), ?_⟩
      intro j hj
      rcases List.mem_cons.mp hj with hj | hj
      · subst hj
        exact p1 i hi j hc (est m i j)
      · exact p2 j hj
  have outer : ∀ (rows : List (AtomData R)), (∀ i ∈ rows, i ∈ atoms) → ∀ m : S,
      (∀ a ∈ atoms, ∀ b ∈ atoms, I m a b →
        I (rows.foldl (fun acc i => atoms.foldl (fun acc' j => step acc' i j) acc) m) a b) ∧
      (∀ i ∈ rows, ∀ j ∈ atoms,
        I (rows.foldl (fun acc i => atoms.foldl (fun acc' j => step acc' i j) acc) m) i j) := by
    intro rows
    induction rows with
    | nil => intro _ m; exact ⟨fun a _ b _ h => h, fun i hi => by simp at hi⟩
    | cons r rows ih =>
      intro hsub m
      have hr : r ∈ atoms := hsub r (List.mem_cons_self _ _)
      obtain ⟨q1, q2⟩ := inner atoms (fun j hj => hj) r hr m
      obtain ⟨p1, p2⟩ := ih (fun i hi => hsub i (List.mem_cons_of_mem _ hi))
        (atoms.foldl (fun acc' j => step acc' r j) m)
      simp only [List.foldl]
      refine ⟨fun a ha b hb h => p1 a ha b hb (q1 a ha b hb h), ?_⟩
      intro i hi j hj
      rcases List.mem_cons.mp hi with hi | hi
      · subst hi
        exact p1 i hr j hj (q2 j hj)
      · exact p2 i hi j hj
  intro a ha b hb
  exact (outer atoms (fun i hi => hi) m).2 a ha b hb

section HardSphereLaw

variable {R : Type} [LinearOrderedField R]

/-- The matrix that the constructor `HardSphere()` builds holds, for every pair of atom types
of a catalog with pairwise distinct identifiers, the square of the mean of their sizes. -/
theorem hardsphere_table (atoms : List (AtomData R)) (hid : (atoms.map AtomData.id).Nodup) :
    ∀ a ∈ atoms, ∀ b ∈ atoms,
      (HardSphere.init atoms).get a.id b.id = .ok (((a.sigma + b.sigma) / 2) ^ 2) := by
  have inj := List.inj_on_of_nodup_map hid
  have key := pairLoop_establishes atoms (fun d i j => HardSphere.setPair d i j)
    (fun d a b => (a.id < d.size ∧ b.id < d.size) ∧
      d.val a.id b.id = ((a.sigma + b.sigma) / 2) ^ 2)
    (fun d i j => by
      have c := PairMatrix.set_covers d i.id j.id (((i.sigma + j.sigma) / 2) ^ 2)
      exact ⟨⟨c.2.1, c.2.2⟩, (PairMatrix.set_hit d i.id j.id _).1⟩)
    (fun d i hi j hj a ha b hb h => by
      obtain ⟨⟨c1, c2⟩, v⟩ := h
      have c := PairMatrix.set_covers d i.id j.id (((i.sigma + j.sigma) / 2) ^ 2)
      refine ⟨⟨lt_of_lt_of_le c1 c.1, lt_of_lt_of_le c2 c.1⟩, ?_⟩
      by_cases hit : (a.id = i.id ∧ b.id = j.id) ∨ (a.id = j.id ∧ b.id = i.id)
      · rcases hit with ⟨h1, h2⟩ | ⟨h1, h2⟩
        · have e1 : a = i := inj ha hi h1
          have e2 : b = j := inj hb hj h2
          subst e1 e2
          exact (PairMatrix.set_hit d a.id b.id _).1
        · have e1 : a = j := inj ha hj h1
          have e2 : b = i := inj hb hi h2
          subst e1 e2
          show (d.set b.id a.id _).val a.id b.id = _
          rw [(PairMatrix.set_hit d b.id a.id _).2, add_comm]
      · show (d.set i.id j.id _).val a.id b.id = _
        rw [PairMatrix.set_other d i.id j.id _ a.id b.id c1 c2 hit, v])
    PairMatrix.empty
  intro a ha b hb
  obtain ⟨⟨c1, c2⟩, v⟩ := key a ha b hb
  have hc : a.id < (HardSphere.init atoms).size ∧ b.id < (HardSphere.init atoms).size :=
    ⟨c1, c2⟩
  unfold PairMatrix.get
  rw [if_pos hc]
  exact congrArg Except.ok v

/-- C21: for a catalog with pairwise distinct identifiers, particles `a` and `b` whose atom
types `ta` and `tb` have non-negative sizes, and a separation vector `r` of length `dist`, the
hard-sphere energy is infinite when `dist < (sigma_a + sigma_b)/2` and is 0 otherwise, also
at contact `dist = (sigma_a + sigma_b)/2`. -/
theorem hardsphere_energy (atoms : List (AtomData R)) (hid : (atoms.map AtomData.id).Nodup)
    (ta tb : AtomData R) (hta : ta ∈ atoms) (htb : tb ∈ atoms)
    (hsa : 0 ≤ ta.sigma) (hsb : 0 ≤ tb.sigma)
    (a b : Particle R) (ha : a.id = ta.id) (hb : b.id = tb.id)
    (r : Point R) (dist : R) (hd : 0 ≤ dist) (hd2 : dist ^ 2 = r.squaredNorm) :
    (dist < (ta.sigma + tb.sigma) / 2 →
      HardSphere.energy (HardSphere.init atoms) a b r = .ok ⊤) ∧
    ((ta.sigma + tb.sigma) / 2 ≤ dist →
      HardSphere.energy (HardSphere.init atoms) a b r = .ok 0) := by
  have ht := hardsphere_table atoms hid ta hta tb htb
  have hrad : 0 ≤ (ta.sigma + tb.sigma) / 2 := by
    have : 0 ≤ ta.sigma + tb.sigma := add_nonneg hsa hsb
    linarith
  constructor
  · intro hlt
    have h2 : r.squaredNorm < ((ta.sigma + tb.sigma) / 2) ^ 2 := by
      rw [← hd2]
      nlinarith
    simp only [HardSphere.energy, ha, hb, ht, if_pos h2]
  · intro hge
    have h2 : ¬ r.squaredNorm < ((ta.sigma + tb.sigma) / 2) ^ 2 := by
      rw [← hd2, not_lt]
      nlinarith
    simp only [HardSphere.energy, ha, hb, ht, if_neg h2]

/-- A witness for C21: two particles of size 2 at the distance 1, and at contact, distance 2. -/
theorem hardsphere_energy_witness :
    HardSphere.energy (HardSphere.init exSpheres) originParticle originParticle unitX = .ok ⊤ ∧
    HardSphere.energy (HardSphere.init exSpheres) originParticle originParticle ⟨2, 0, 0⟩
      = .ok 0 :=
  ⟨(hardsphere_energy exSpheres (by decide) ⟨"Na", 0, 2, 1⟩ ⟨"Na", 0, 2, 1⟩
      (by simp [exSpheres]) (by simp [exSpheres]) (by norm_num) (by norm_num)
      originParticle originParticle rfl rfl unitX 1 (by norm_num)
      (by norm_num [Point.squaredNorm, unitX])).1 (by norm_num),
    (hardsphere_energy exSpheres (by decide) ⟨"Na", 0, 2, 1⟩ ⟨"Na", 0, 2, 1⟩
      (by simp [exSpheres]) (by simp [exSpheres]) (by norm_num) (by norm_num)
      originParticle originParticle rfl rfl ⟨2, 0, 0⟩ 2 (by norm_num)
      (by norm_num [Point.squaredNorm])).2 (by norm_num)⟩

end HardSphereLaw

/-! ## The filter of bonds -/

section FilterLaws

variable {R : Type}

theorem copyIfLoop_mem {α : Type} (pred : α → Bool) (l : List α) :
    ∀ (i : Nat) (filt : List Nat) (k : Nat),
      k ∈ copyIfLoop pred l i filt ↔
        k ∈ filt ∨ (i ≤ k ∧ ∃ d, l[k - i]? = some d ∧ pred d = true) := by
  induction l with
  | nil => intro i filt k; simp [copyIfLoop]
  | cons d rest ih =>
    intro i filt k
    simp only [copyIfLoop]
    rw [ih]
    constructor
    · rintro (h | ⟨h1, e, h2, h3⟩)
      · by_cases hp : pred d = true
        · rw [if_pos hp] at h
          rcases List.mem_append.mp h with h | h
          · exact Or.inl h
          · have hk : k = i := by simpa using h
            subst hk
            exact Or.inr ⟨le_refl _, d, by simp, hp⟩
        · rw [if_neg hp] at h
          exact Or.inl h
      · refine Or.inr ⟨by omega, e, ?_, h3⟩
        have hk : k - i = (k - (i + 1)) + 1 := by omega
        rw [hk, List.getElem?_cons_succ]
        exact h2
    · rintro (h | ⟨h1, e, h2, h3⟩)
      · left
        by_cases hp : pred d = true
        · rw [if_pos hp]
          exact List.mem_append.mpr (Or.inl h)
        · rw [if_neg hp]
          exact h
      · rcases Nat.eq_or_lt_of_le h1 with hk | hk
        · subst hk
          have he : e = d := by simpa using h2.symm
          subst he
          left
          rw [if_pos h3]
          exact List.mem_append.mpr (Or.inr (by simp))
        · right
          refine ⟨by omega, e, ?_, h3⟩
          have hk' : k - i = (k - (i + 1)) + 1 := by omega
          rw [hk', List.getElem?_cons_succ] at h2
          exact h2

theorem copyIfLoop_pairwise {α : Type} (pred : α → Bool) (l : List α) :
    ∀ (i : Nat) (filt : List Nat), filt.Pairwise (· < ·) → (∀ x ∈ filt, x < i) →
      (copyIfLoop pred l i filt).Pairwise (· < ·) := by
  induction l with
  | nil => intro i filt h _; exact h
  | cons d rest ih =>
    intro i filt h hlt
    simp only [copyIfLoop]
    apply ih
    · by_cases hp : pred d = true
      · rw [if_pos hp, List.pairwise_append]
        refine ⟨h, List.pairwise_singleton _ _, ?_⟩
        intro x hx y hy
        have : y = i := by simpa using hy
        rw [this]
        exact hlt x hx
      · rw [if_neg hp]
        exact h
    · intro x hx
      by_cases hp : pred d = true
      · rw [if_pos hp] at hx
        rcases List.mem_append.mp hx with hx | hx
        · exact Nat.lt_succ_of_lt (hlt x hx)
        · have : x = i := by simpa using hx
          omega
      · rw [if_neg hp] at hx
        exact Nat.lt_succ_of_lt (hlt x hx)

theorem copyIfLoop_length {α : Type} (pred : α → Bool) (l : List α) :
    ∀ (i : Nat) (filt : List Nat),
      (copyIfLoop pred l i filt).length = filt.length + l.countP pred := by
  induction l with
  | nil => intro i filt; simp [copyIfLoop]
  | cons d rest ih =>
    intro i filt
    simp only [copyIfLoop]
    rw [ih]
    by_cases hp : pred d = true
    · rw [if_pos hp, List.countP_cons_of_pos _ _ hp, List.length_append, List.length_singleton]
      omega
    · rw [if_neg hp, List.countP_cons_of_neg _ _ hp]

theorem copyIfLoop_deref {α : Type} (pred : α → Bool) (l : List α) :
    ∀ (pre : List α) (filt : List Nat),
      (copyIfLoop pred l pre.length filt).filterMap (fun k => (pre ++ l)[k]?)
        = filt.filterMap (fun k => (pre ++ l)[k]?) ++ l.filter pred := by
  induction l with
  | nil => intro pre filt; simp [copyIfLoop]
  | cons d rest ih =>
    intro pre filt
    simp only [copyIfLoop]
    have e : pre ++ d :: rest = (pre ++ [d]) ++ rest := by simp
    have hl : (pre ++ [d]).length = pre.length + 1 := by simp
    rw [e, ← hl, ih (pre ++ [d])]
    by_cases hp : pred d = true
    · rw [if_pos hp, List.filterMap_append, List.filter_cons_of_pos hp, List.append_assoc]
      congr 1
      have hd : (pre ++ d :: rest)[pre.length]? = some d := by
        rw [List.getElem?_append_right (le_refl _)]
        simp
      simp [hd]
    · rw [if_neg hp, List.filter_cons_of_neg hp]

/-- C24: `filterBonds(bonds, t)` returns references, in increasing position and hence in the
original order and without repetition, to exactly the elements of `bonds` whose type is `t`;
the elements referred to are the bonds of type `t` in their original order; the length of
the result is the number of bonds of type `t` and is at most `bonds.size()`. -/
theorem filterBonds_spec (bonds : List (BondData R)) (t : Variant) :
    (filterBonds bonds t).Pairwise (· < ·) ∧
    (∀ i, i ∈ filterBonds bonds t ↔ ∃ b, derefBond bonds i = some b ∧ b.type = t) ∧
    (filterBonds bonds t).filterMap (derefBond bonds)
      = bonds.filter (fun b => decide (b.type = t)) ∧
    (filterBonds bonds t).length = bonds.countP (fun b => decide (b.type = t)) ∧
    (filterBonds bonds t).length ≤ bonds.length := by
  refine ⟨?_, ?_, ?_, ?_, ?_⟩
  · exact copyIfLoop_pairwise _ bonds 0 [] List.Pairwise.nil (fun x hx => by simp at hx)
  · intro i
    unfold filterBonds derefBond
    rw [copyIfLoop_mem]
    simp
  · have h := copyIfLoop_deref (fun b : BondData R => decide (b.type = t)) bonds [] []
    simpa [filterBonds, derefBond] using h
  · unfold filterBonds
    rw [copyIfLoop_length]
    simp
  · unfold filterBonds
    rw [copyIfLoop_length]
    simpa using List.countP_le_length (fun b : BondData R => decide (b.type = t))

/-- The repository's test of `filterBonds`: of a fene bond and a harmonic bond, the filter for
harmonic bonds returns one reference, to the second element. -/
theorem filterBonds_test :
    filterBonds exBonds .harmonic = [1] ∧
    (filterBonds exBonds .harmonic).map (derefBond exBonds)
      = [some ⟨.harmonic, [2, 3], [1 / 5, 21 / 10]⟩] :=
  ⟨rfl, rfl⟩

end FilterLaws

/-! ## The move `saltbath` -/

section SaltbathLaws

variable {R : Type} [LinearOrderedField R]

/-- C22: `move()` applies the Metropolis test to `du = unew - uold`. When the test accepts,
the accepted vector becomes the trial vector, `utot` grows by `du`, `naccept` grows by one
and `du` is returned; when it rejects, the trial vector is reset to the accepted vector, the
accepted vector, `utot` and `naccept` are unchanged and 0 is returned. In both cases the
accepted and the trial vector are equal afterwards. -/
theorem move_accept_reject (metropolis : R → Bool) (s : saltbath R) (con : container R) :
    (metropolis (s.unew - s.uold) = true →
      (saltbath.move metropolis s con).2.1.p = con.trial ∧
      (saltbath.move metropolis s con).2.1.trial = con.trial ∧
      (saltbath.move metropolis s con).1.du = s.unew - s.uold ∧
      (saltbath.move metropolis s con).1.utot = s.utot + (s.unew - s.uold) ∧
      (saltbath.move metropolis s con).1.naccept = s.naccept + 1 ∧
      (saltbath.move metropolis s con).2.2 = s.unew - s.uold) ∧
    (metropolis (s.unew - s.uold) = false →
      (saltbath.move metropolis s con).2.1.trial = con.p ∧
      (saltbath.move metropolis s con).2.1.p = con.p ∧
      (saltbath.move metropolis s con).1.utot = s.utot ∧
      (saltbath.move metropolis s con).1.naccept = s.naccept ∧
      (saltbath.move metropolis s con).2.2 = 0) ∧
    (saltbath.move metropolis s con).2.1.p = (saltbath.move metropolis s con).2.1.trial := by
  refine ⟨?_, ?_, ?_⟩
  · intro h
    simp [saltbath.move, h]
  · intro h
    simp [saltbath.move, h]
  · cases h : metropolis (s.unew - s.uold)
    · simp [saltbath.move, h]
    · simp [saltbath.move, h]

/-- A witness for C22: a move with `uold = 1` and `unew = 3`, once with a test that accepts
and once with a test that rejects. -/
theorem move_accept_reject_witness :
    (saltbath.move (fun _ => true) exMove exContainer).2.1.p = exContainer.trial ∧
    (saltbath.move (fun _ => true) exMove exContainer).2.2 = exMove.unew - exMove.uold ∧
    (saltbath.move acceptDownhill exMove exContainer).2.1.trial = exContainer.p ∧
    (saltbath.move acceptDownhill exMove exContainer).2.2 = 0 :=
  ⟨((move_accept_reject (fun _ => true) exMove exContainer).1 rfl).1,
    ((move_accept_reject (fun _ => true) exMove exContainer).1 rfl).2.2.2.2.2,
    ((move_accept_reject acceptDownhill exMove exContainer).2.1
      (by norm_num [acceptDownhill, exMove, exRaw])).1,
    ((move_accept_reject acceptDownhill exMove exContainer).2.1
      (by norm_num [acceptDownhill, exMove, exRaw])).2.2.2.2⟩

/-- What a call of `move()` never changes, and the count of the call. -/
theorem move_frame (t : R → Bool) (s : saltbath R) (con : container R) :
    (saltbath.move t s con).1.runfraction = s.runfraction ∧
    (saltbath.move t s con).1.cnt = s.cnt + 1 ∧
    (saltbath.move t s con).1.unew = s.unew ∧
    (saltbath.move t s con).1.uold = s.uold := by
  cases h : t (s.unew - s.uold)
  · simp [saltbath.move, h]
  · simp [saltbath.move, h]

/-- A call of `move()` with equal energies and equal particle vectors leaves the container
and the running total unchanged and returns 0. -/
theorem move_idle (t : R → Bool) (s : saltbath R) (con : container R)
    (hu : s.unew = s.uold) (hp : con.p = con.trial) :
    (saltbath.move t s con).2.1 = con ∧ (saltbath.move t s con).1.utot = s.utot ∧
    (saltbath.move t s con).2.2 = 0 := by
  obtain ⟨p, trial⟩ := con
  simp only at hp
  subst hp
  have h0 : s.unew - s.uold = 0 := by rw [hu, sub_self]
  cases h : t 0
  · simp [saltbath.move, h0, h]
  · simp [saltbath.move, h0, h]

theorem moves_frame (tests : List (R → Bool)) :
    ∀ (s : saltbath R) (con : container R),
      (saltbath.moves tests s con).1.runfraction = s.runfraction ∧
      (saltbath.moves tests s con).1.cnt = s.cnt + tests.length ∧
      (s.unew = s.uold → con.p = con.trial →
        (saltbath.moves tests s con).2.1 = con ∧
        (saltbath.moves tests s con).1.utot = s.utot ∧
        ∀ v ∈ (saltbath.moves tests s con).2.2, v = 0) := by
  induction tests with
  | nil =>
    intro s con
    exact ⟨rfl, rfl, fun _ _ => ⟨rfl, rfl, fun v hv => by simp [saltbath.moves] at hv⟩⟩
  | cons t ts ih =>
    intro s con
    obtain ⟨f1, f2, f3, f4⟩ := move_frame t s con
    obtain ⟨i1, i2, i3⟩ := ih (saltbath.move t s con).1 (saltbath.move t s con).2.1
    simp only [saltbath.moves]
    refine ⟨by rw [i1, f1], by rw [i2, f2, List.length_cons]; omega, ?_⟩
    intro hu hp
    obtain ⟨j1, j2, j3⟩ := move_idle t s con hu hp
    have hu' : (saltbath.move t s con).1.unew = (saltbath.move t s con).1.uold := by
      rw [f3, f4, hu]
    have hp' : (saltbath.move t s con).2.1.p = (saltbath.move t s con).2.1.trial := by
      rw [j1, hp]
    obtain ⟨k1, k2, k3⟩ := i3 hu' hp'
    refine ⟨by rw [k1, j1], by rw [k2, j2], ?_⟩
    intro v hv
    rcases List.mem_cons.mp hv with hv | hv
    · rw [hv, j3]
    · exact k3 v hv

/-- C23, refuted as stated: a move constructed from an input in which every key is unset has
run fraction 0, yet a call of `move()` on it, with equal particle vectors and equal energies,
counts the call in `cnt`, whether the Metropolis test accepts or rejects, and counts an
acceptance in `naccept`. -/
theorem disabled_move_counterexample :
    ∃ s, saltbath.init exRaw exGrandcanonical exInput 3 = .ok s ∧ s.runfraction = 0 ∧
      (saltbath.move acceptDownhill s exSynced).1.cnt = s.cnt + 1 ∧
      (saltbath.move acceptDownhill s exSynced).1.naccept = s.naccept + 1 ∧
      (saltbath.move (fun _ => false) s exSynced).1.cnt = s.cnt + 1 := by
  refine ⟨_, rfl, rfl, (move_frame _ _ _).2.1, ?_, (move_frame _ _ _).2.1⟩
  simp [saltbath.move, acceptDownhill, exRaw]

/-- C23 (as amended): a move constructed from an input in which the key `RB<index>_mu` is
unset, so that the query returns the default 1e6, has run fraction 0, and no call of `move()`
changes the run fraction; `move()` does not consult it: every call counts in `cnt`. When
`unew = uold` and the accepted and trial vectors are equal, the calls leave the container and
the running total unchanged and each returns 0. -/
theorem disabled_move (raw : saltbath R) (gc : grandcanonical) (inp : inputfile R) (idx : Int)
    (hunset : inp.getflt (saltbath.key (wrap16 idx) "_mu") 1000000 = 1000000) :
    ∃ s, saltbath.init raw gc inp idx = .ok s ∧ s.runfraction = 0 ∧
      ∀ (tests : List (R → Bool)) (con : container R),
        (saltbath.moves tests s con).1.runfraction = 0 ∧
        (saltbath.moves tests s con).1.cnt = s.cnt + tests.length ∧
        (raw.unew = raw.uold → con.p = con.trial →
          (saltbath.moves tests s con).2.1 = con ∧
          (saltbath.moves tests s con).1.utot = s.utot ∧
          ∀ v ∈ (saltbath.moves tests s con).2.2, v = 0) := by
  have hinit : saltbath.init raw gc inp idx = .ok
      ({ raw with name := "ROSEMBLUTH INSERTION", cite := "Rosembluth reference...or Frenkel?",
                  runfraction := 0, deltadp := 0, dp := 0, index := wrap16 idx, ins := [],
                  mu := 1000000 } : saltbath R) := by
    simp only [saltbath.init, hunset, if_true]
  refine ⟨_, hinit, rfl, ?_⟩
  intro tests con
  obtain ⟨h1, h2, h3⟩ := moves_frame tests
    ({ raw with name := "ROSEMBLUTH INSERTION", cite := "Rosembluth reference...or Frenkel?",
                runfraction := 0, deltadp := 0, dp := 0, index := wrap16 idx, ins := [],
                mu := 1000000 } : saltbath R) con
  exact ⟨h1, h2, h3⟩

/-- A witness for C23 as amended: an input in which every key is unset, and two calls of
`move()`, the first accepted and the second rejected. -/
theorem disabled_move_witness :
    ∃ s, saltbath.init exRaw exGrandcanonical exInput 3 = .ok s ∧ s.runfraction = 0 ∧
      (saltbath.moves [acceptDownhill, fun _ => false] s exSynced).1.runfraction = 0 ∧
      (saltbath.moves [acceptDownhill, fun _ => false] s exSynced).1.cnt = s.cnt + 2 ∧
      (saltbath.moves [acceptDownhill, fun _ => false] s exSynced).2.1 = exSynced := by
  obtain ⟨s, h1, h2, h3⟩ := disabled_move exRaw exGrandcanonical exInput 3 rfl
  exact ⟨s, h1, h2, (h3 _ exSynced).1, (h3 _ exSynced).2.1, ((h3 _ exSynced).2.2 rfl rfl).1⟩

end SaltbathLaws

/-! ## The custom section and the sign of the Weeks-Chandler-Andersen energy -/

section CustomKeys

variable {R : Type} [LinearOrderedField R]

/-- A member of `"custom"` whose key is not made of exactly two words leaves the table as it
is: the exception object is built but not thrown. -/
theorem customEntry_other_key (E : Env R) (atoms : List (AtomData R))
    (m : SigmaEpsilonTable R) (kv : String × Json R) (h : (words2vec kv.1).length ≠ 2) :
    customEntry E atoms m kv = .ok m := by
  unfold customEntry
  split
  · rename_i w1 w2 hw
    rw [hw] at h
    exact absurd rfl h
  · rfl

/-- C25, the code at the failing input: for the catalog of `Na` and `Cl` and the record whose
custom section has the single-word key `"Na-Cl"` with `sigma = 5`, `from_json` returns
normally, with the same outcome as for the record without a custom section, and the table
holds the mixed value `((2 + 4)/2)^2 = 9` for the pair, not `5^2`. -/
theorem custom_bad_key_ignored :
    words2vec "Na-Cl" = ["Na-Cl"] ∧
    SigmaEpsilonTable.from_json exEnv exAtoms exBadCustomRecord SigmaEpsilonTable.default
      = SigmaEpsilonTable.from_json exEnv exAtoms (.obj []) SigmaEpsilonTable.default ∧
    ∃ m', SigmaEpsilonTable.from_json exEnv exAtoms exBadCustomRecord SigmaEpsilonTable.default
        = .ok m' ∧ m'.s2.get 0 1 = .ok 9 := by
  have e0 : SigmaEpsilonTable.from_json exEnv exAtoms exBadCustomRecord
      SigmaEpsilonTable.default
      = SigmaEpsilonTable.from_json exEnv exAtoms (.obj []) SigmaEpsilonTable.default := rfl
  have e1 : SigmaEpsilonTable.from_json exEnv exAtoms (.obj []) SigmaEpsilonTable.default
      = .ok (mixAll exEnv exAtoms
          { (SigmaEpsilonTable.default : SigmaEpsilonTable ℚ) with
            s2 := PairMatrix.resize PairMatrix.empty 2,
            eps := PairMatrix.resize PairMatrix.empty 2 }) := rfl
  refine ⟨by decide, e0, _, e0.trans e1, ?_⟩
  simp only [mixAll, exAtoms, List.foldl, mixPair, mixerFunc, PairMatrix.get, PairMatrix.set,
    PairMatrix.resize, PairMatrix.empty, SigmaEpsilonTable.default]
  norm_num

/-- C26: for particles whose pair the table covers with `eps ≥ 0` and every squared
separation `r2 > 0`, the Weeks-Chandler-Andersen energy is a non-negative number: it is
`eps * ((s2/r2)^3 - 1/2)^2` inside the cutoff, `r2 ≤ s2 * twototwosixth`, and 0 beyond it;
the energy for a separation vector of that squared length is the same. -/
theorem wca_nonneg (E : Env R) (m : SigmaEpsilonTable R) (a b : Particle R) (s2 eps : R)
    (hs : m.s2.get a.id b.id = .ok s2) (he : m.eps.get a.id b.id = .ok eps)
    (heps : 0 ≤ eps) (r2 : R) (hpos : 0 < r2) :
    ∃ u, WeeksChandlerAndersen.energy2 E m a b r2 = .ok u ∧ 0 ≤ u ∧
      (r2 ≤ s2 * E.twototwosixth → u = eps * ((s2 / r2) ^ 3 - 1 / 2) ^ 2) ∧
      (s2 * E.twototwosixth < r2 → u = 0) ∧
      ∀ r : Point R, r.squaredNorm = r2 → WeeksChandlerAndersen.energy E m a b r = .ok u := by
  have _ := hpos
  by_cases hgt : r2 > s2 * E.twototwosixth
  · have h1 : WeeksChandlerAndersen.energy2 E m a b r2 = .ok 0 := by
      simp only [WeeksChandlerAndersen.energy2, hs, if_pos hgt]
    refine ⟨0, h1, le_refl _, fun h => absurd hgt (not_lt.mpr h), fun _ => rfl, ?_⟩
    intro r hr
    unfold WeeksChandlerAndersen.energy
    rw [hr]
    exact h1
  · have h1 : WeeksChandlerAndersen.energy2 E m a b r2
        = .ok (eps * ((s2 / r2) ^ 3 - 1 / 2) ^ 2) := by
      simp only [WeeksChandlerAndersen.energy2, hs, he, if_neg hgt]
      congr 1
      ring
    refine ⟨_, h1, mul_nonneg heps (sq_nonneg _), fun _ => rfl, fun h => absurd h hgt, ?_⟩
    intro r hr
    unfold WeeksChandlerAndersen.energy
    rw [hr]
    exact h1

/-- A witness for C26: the squared separation 1 with `s2 = 1`, `eps = 4` and the machine value
of `twototwosixth`, where the energy is `4 * (1 - 1/2)^2`. -/
theorem wca_nonneg_witness :
    ∃ u : ℚ, WeeksChandlerAndersen.energy2 (unitEnv qsqrt twototwosixthDouble) unitTable
        originParticle originParticle 1 = .ok u ∧ 0 ≤ u ∧ u = 4 * ((1 / 1) ^ 3 - 1 / 2) ^ 2 := by
  obtain ⟨u, h1, h2, h3, _⟩ := wca_nonneg (unitEnv qsqrt twototwosixthDouble) unitTable
    originParticle originParticle 1 4 rfl rfl (by norm_num) 1 (by norm_num)
  exact ⟨u, h1, h2, h3 (by norm_num [unitEnv, twototwosixthDouble])⟩

end CustomKeys

end Faunus
